import Mathlib

/-!
# Wrapper types of package `bin` (`types.go`)

A shallow embedding of the textual and arithmetic methods of the wrapper types
`Bool`, `Int64`, `Uint64`, `Uint128`, `Int128`, `Float128` and `Varuint32`,
together with the parts of the Go standard library they call
(`encoding/hex`, `encoding/binary`, `encoding/json`, `math/big`, `strconv`).

Conventions.
* A Go `[]byte` and a Go `string` are both lists of bytes; a byte is a natural
  number below 256, and the conversion `byte(x)` is `x % 256`.
* A `uint64` is a natural number below `2 ^ 64`; an `int64` is an integer in
  `[-2 ^ 63, 2 ^ 63)`; Go's `int` is taken to be 64 bits wide.
* A Go `error` is a value of `GoError`; a run-time panic is a separate outcome.
-/

set_option maxRecDepth 100000

namespace Bin

/-- A Go byte slice or Go string. -/
abbrev Bytes := List Nat

/-- Text of an error message. -/
abbrev Text := String

/-- The bytes of an ASCII string literal. -/
def lit (s : Text) : Bytes := s.toList.map Char.toNat

/-! ## `encoding/hex` -/

namespace hex

/-- The table `hextable = "0123456789abcdef"`. -/
def hextable : Bytes := lit "0123456789abcdef"

/-- Indexing `hextable[n]`. -/
def digit (n : Nat) : Nat := hextable.getD n 0

/-- `hex.EncodeToString`: every byte `v` becomes `hextable[v>>4]`, `hextable[v&0x0f]`. -/
def EncodeToString : Bytes → Bytes
  | [] => []
  | v :: rest => digit (v >>> 4) :: digit (v % 16) :: EncodeToString rest

/-- `fromHexChar`: the value of one hexadecimal digit, in either case. -/
def fromHexChar (c : Nat) : Option Nat :=
  if 48 ≤ c ∧ c ≤ 57 then some (c - 48)
  else if 97 ≤ c ∧ c ≤ 102 then some (c - 97 + 10)
  else if 65 ≤ c ∧ c ≤ 70 then some (c - 65 + 10)
  else none

end hex

instance instDecidableEqExcept {ε α : Type} [DecidableEq ε] [DecidableEq α] :
    DecidableEq (Except ε α)
  | .ok a, .ok b => if h : a = b then isTrue (by rw [h]) else isFalse (by simp [h])
  | .error a, .error b => if h : a = b then isTrue (by rw [h]) else isFalse (by simp [h])
  | .ok _, .error _ => isFalse (by simp)
  | .error _, .ok _ => isFalse (by simp)

/-- Errors created outside `types.go`, by the standard library or by the decoder; their
text is not fixed here. -/
inductive ExtError where
  /-- The error `json.Unmarshal` returns for input `data` and a destination of Go type `target`. -/
  | json (data : Bytes) (target : Text)
  /-- The error `hex.DecodeString` returns: `InvalidByteError(c)`. -/
  | hexInvalidByte (c : Nat)
  /-- The error `hex.ErrLength`. -/
  | hexLength
  /-- A package-level error variable declared outside `types.go`, such as
  `ErrVarIntBufferSize`, known by its name. -/
  | sentinel (name : Text)
  /-- The `*strconv.NumError` that the function `func` returns for the input `num`. -/
  | strconv (func : Text) (num : Bytes)
  /-- The decoder's error for the read named `what` that needs `required` bytes when only
  `available` are left. -/
  | bufferTooSmall (what : Text) (required available : Nat)
  /-- The encoder's error for a value of the type `name`, which has no wire rule. -/
  | unsupportedType (name : Text)
  deriving DecidableEq, Repr

/-- A Go `error` value. -/
inductive GoError where
  /-- An error made by `errors.New` or `fmt.Errorf` with the given rendered message. -/
  | errorf (msg : Text)
  /-- An error made outside `types.go`, passed on unchanged. -/
  | std (e : ExtError)
  deriving DecidableEq, Repr

/-- The method `Error()`; `extText` renders the errors made outside `types.go`. -/
def GoError.Error (extText : ExtError → Text) : GoError → Text
  | .errorf msg => msg
  | .std e => extText e

namespace hex

/-- `hex.DecodeString`: pairs of hexadecimal digits become bytes; an invalid digit is
reported before an odd length. -/
def DecodeString : Bytes → Except ExtError Bytes
  | [] => .ok []
  | [p] =>
    match fromHexChar p with
    | none => .error (.hexInvalidByte p)
    | some _ => .error .hexLength
  | p :: q :: rest =>
    match fromHexChar p with
    | none => .error (.hexInvalidByte p)
    | some a =>
      match fromHexChar q with
      | none => .error (.hexInvalidByte q)
      | some b =>
        match DecodeString rest with
        | .error e => .error e
        | .ok out => .ok ((a <<< 4 ||| b) :: out)

end hex

/-! ## `encoding/binary` -/

namespace binary

/-- `binary.LittleEndian.PutUint64(b, v)`: the eight bytes written to `b[0..7]`. -/
def LittleEndian.PutUint64 (v : Nat) : Bytes :=
  [v % 256, (v >>> 8) % 256, (v >>> 16) % 256, (v >>> 24) % 256,
   (v >>> 32) % 256, (v >>> 40) % 256, (v >>> 48) % 256, (v >>> 56) % 256]

/-- `binary.BigEndian.PutUint64(b, v)`: the eight bytes written to `b[0..7]`. -/
def BigEndian.PutUint64 (v : Nat) : Bytes :=
  [(v >>> 56) % 256, (v >>> 48) % 256, (v >>> 40) % 256, (v >>> 32) % 256,
   (v >>> 24) % 256, (v >>> 16) % 256, (v >>> 8) % 256, v % 256]

/-- `binary.LittleEndian.Uint64(b)`: reads `b[0..7]`; `none` is the bounds-check panic
of `_ = b[7]` on a slice shorter than eight bytes. -/
def LittleEndian.Uint64 : Bytes → Option Nat
  | b0 :: b1 :: b2 :: b3 :: b4 :: b5 :: b6 :: b7 :: _ =>
    some (b0 ||| b1 <<< 8 ||| b2 <<< 16 ||| b3 <<< 24 |||
          b4 <<< 32 ||| b5 <<< 40 ||| b6 <<< 48 ||| b7 <<< 56)
  | _ => none

end binary

/-! ## `Uint128` -/

/-- The struct `Uint128`: two 64-bit words. -/
structure Uint128 where
  Lo : Nat
  Hi : Nat
  deriving DecidableEq, Repr

/-- Both words are in the range of `uint64`. -/
def Uint128.InRange (i : Uint128) : Prop := i.Lo < 2 ^ 64 ∧ i.Hi < 2 ^ 64

/-- `Uint128.String`. -/
def Uint128.String (i : Uint128) : Bytes :=
  let number := binary.LittleEndian.PutUint64 i.Lo ++ binary.LittleEndian.PutUint64 i.Hi
  lit "0x" ++ hex.EncodeToString (number.take 8) ++ hex.EncodeToString (number.drop 8)

/-- `Uint128.MarshalJSON`: the string form between two double quotes, and a nil error. -/
def Uint128.MarshalJSON (i : Uint128) : Bytes × Option GoError :=
  (lit "\"" ++ i.String ++ lit "\"", none)


/-! ## `encoding/json`, decoding into a `string`, an `int` and a `bool` -/

namespace json

/-- The scanner's `isSpace`: space, tab, carriage return, line feed. -/
def isSpace (c : Nat) : Bool := c == 32 || c == 9 || c == 13 || c == 10

/-- The four hexadecimal digits of a `\uXXXX` escape at the front of the input (`getu4`). -/
def getu4 : Bytes → Option Nat
  | 92 :: 117 :: a :: b :: c :: d :: _ =>
    match hex.fromHexChar a, hex.fromHexChar b, hex.fromHexChar c, hex.fromHexChar d with
    | some a, some b, some c, some d => some (((a * 16 + b) * 16 + c) * 16 + d)
    | _, _, _, _ => none
  | _ => none

/-- `utf8.EncodeRune` on a rune that is neither a surrogate nor above `U+10FFFF`. -/
def encodeRune (r : Nat) : Bytes :=
  if r < 0x80 then [r]
  else if r < 0x800 then [0xC0 + r / 64, 0x80 + r % 64]
  else if r < 0x10000 then [0xE0 + r / 4096, 0x80 + r / 64 % 64, 0x80 + r % 64]
  else [0xF0 + r / 262144, 0x80 + r / 4096 % 64, 0x80 + r / 64 % 64, 0x80 + r % 64]

/-- A continuation byte `0x80..0xBF`. -/
def isCont (b : Nat) : Bool := 0x80 ≤ b && b ≤ 0xBF

/-- The size found by `utf8.DecodeRune` for a well-formed multi-byte sequence at the front of
the input, and `0` where it reports `(RuneError, 1)`. -/
def validLen : Bytes → Nat
  | p0 :: b1 :: rest =>
    if 0xC2 ≤ p0 ∧ p0 ≤ 0xDF then (if isCont b1 then 2 else 0)
    else
      match rest with
      | [] => 0
      | b2 :: rest =>
        if 0xE0 ≤ p0 ∧ p0 ≤ 0xEF then
          let lo := if p0 = 0xE0 then 0xA0 else 0x80
          let hi := if p0 = 0xED then 0x9F else 0xBF
          if lo ≤ b1 ∧ b1 ≤ hi ∧ isCont b2 then 3 else 0
        else
          match rest with
          | [] => 0
          | b3 :: _ =>
            if 0xF0 ≤ p0 ∧ p0 ≤ 0xF4 then
              let lo := if p0 = 0xF0 then 0x90 else 0x80
              let hi := if p0 = 0xF4 then 0x8F else 0xBF
              if lo ≤ b1 ∧ b1 ≤ hi ∧ isCont b2 ∧ isCont b3 then 4 else 0
            else 0
  | _ => 0

/-- The body of a string literal after its opening quote: the scanner's validation and
`unquoteBytes` in one pass.  Returns the decoded string and the input that follows the
closing quote; `none` where the scanner reports a syntax error.  One unit of fuel per
step; every step consumes a byte. -/
def unquoteAux : Nat → Bytes → Option (Bytes × Bytes)
  | 0, _ => none
  | _ + 1, [] => none
  | fuel + 1, c :: rest =>
    let emit (out : Bytes) (next : Bytes) : Option (Bytes × Bytes) :=
      match unquoteAux fuel next with
      | none => none
      | some (s, tail) => some (out ++ s, tail)
    if c = 34 then some ([], rest)
    else if c = 92 then
      match rest with
      | [] => none
      | e :: rest1 =>
        if e = 34 ∨ e = 92 ∨ e = 47 then emit [e] rest1
        else if e = 98 then emit [8] rest1
        else if e = 102 then emit [12] rest1
        else if e = 110 then emit [10] rest1
        else if e = 114 then emit [13] rest1
        else if e = 116 then emit [9] rest1
        else if e = 117 then
          match getu4 (c :: rest) with
          | none => none
          | some rr =>
            let after := rest.drop 5
            if 0xD800 ≤ rr ∧ rr < 0xE000 then
              match getu4 after with
              | some rr1 =>
                if rr < 0xDC00 ∧ 0xDC00 ≤ rr1 ∧ rr1 < 0xE000 then
                  emit (encodeRune ((rr - 0xD800) * 1024 + (rr1 - 0xDC00) + 0x10000))
                    (after.drop 6)
                else emit [0xEF, 0xBF, 0xBD] after
              | none => emit [0xEF, 0xBF, 0xBD] after
            else emit (encodeRune rr) after
        else none
    else if c < 32 then none
    else if c < 128 then emit [c] rest
    else
      let k := validLen (c :: rest)
      if k = 0 then emit [0xEF, 0xBF, 0xBD] rest
      else emit ((c :: rest).take k) ((c :: rest).drop k)

/-- The input after leading white space. -/
def skipSpace (data : Bytes) : Bytes := data.dropWhile isSpace

/-- The input is the given literal followed by white space only. -/
def isLiteral (word : Bytes) (data : Bytes) : Bool :=
  data.take word.length == word && (data.drop word.length).all isSpace

/-- `json.Unmarshal(data, &s)` for `s` of type `string`.  `some s` is the decoded string
literal; `none` is the literal `null`, which leaves the destination as it was. -/
def UnmarshalString (data : Bytes) : Except ExtError (Option Bytes) :=
  match skipSpace data with
  | 34 :: rest =>
    match unquoteAux rest.length rest with
    | some (s, tail) => if tail.all isSpace then .ok (some s) else .error (.json data "string")
    | none => .error (.json data "string")
  | rest => if isLiteral (lit "null") rest then .ok none else .error (.json data "string")

/-- The value of a run of decimal digits, and the input after it. -/
def digitsValue : Nat → Bytes → Nat × Bytes
  | acc, c :: rest => if 48 ≤ c ∧ c ≤ 57 then digitsValue (acc * 10 + (c - 48)) rest
                      else (acc, c :: rest)
  | acc, [] => (acc, [])

/-- A JSON number without fraction and exponent, `-?(0|[1-9][0-9]*)`, followed by white
space only: its value. -/
def integerLiteral (data : Bytes) : Option Int :=
  let neg := data.head? == some 45
  let body := if neg then data.drop 1 else data
  match body with
  | [] => none
  | c :: rest =>
    if 48 ≤ c ∧ c ≤ 57 then
      let (n, tail) := digitsValue 0 (c :: rest)
      if c = 48 ∧ tail ≠ rest then none
      else if tail.all isSpace then some (if neg then -(n : Int) else (n : Int))
      else none
    else none

/-- `json.Unmarshal(data, &num)` for `num` of type `int`: accepts `null` (no store) and a
number that `strconv.ParseInt(_, 10, 64)` can read. -/
def UnmarshalInt (data : Bytes) : Except ExtError (Option Int) :=
  let rest := skipSpace data
  if isLiteral (lit "null") rest then .ok none
  else
    match integerLiteral rest with
    | some n => if -(2 : Int) ^ 63 ≤ n ∧ n < (2 : Int) ^ 63 then .ok (some n)
                else .error (.json data "int")
    | none => .error (.json data "int")

/-- `json.Unmarshal(data, &b)` for `b` of type `bool`: accepts `null` (no store), `true`
and `false`. -/
def UnmarshalBool (data : Bytes) : Except ExtError (Option Bool) :=
  let rest := skipSpace data
  if isLiteral (lit "null") rest then .ok none
  else if isLiteral (lit "true") rest then .ok (some true)
  else if isLiteral (lit "false") rest then .ok (some false)
  else .error (.json data "bool")

end json

/-! ## `strings`, `strconv`, `math/big` and slicing -/

/-- `strings.HasPrefix(s, p)`: `len(s) >= len(p) && s[:len(p)] == p`. -/
def strings.HasPrefix (s p : Bytes) : Bool := p.length ≤ s.length && s.take p.length == p

/-- The slice expression `s[n:]`; `none` is the panic for `n > len(s)`. -/
def sliceFrom (s : Bytes) (n : Nat) : Option Bytes := if n ≤ s.length then some (s.drop n) else none

/-- The slice expression `s[:n]`; `none` is the panic for `n > len(s)`. -/
def sliceTo (s : Bytes) (n : Nat) : Option Bytes := if n ≤ s.length then some (s.take n) else none

/-- Decimal text of an integer, with a leading minus sign when negative: what
`strconv.FormatInt(_, 10)`, `fmt`'s `%d` and `(*big.Int).String` print. -/
def decimal (x : Int) : Bytes :=
  if x < 0 then 45 :: lit (Nat.repr x.natAbs) else lit (Nat.repr x.natAbs)

namespace big

/-- `(*big.Int).SetBytes`: the bytes read as a big-endian unsigned integer. -/
def SetBytes (buf : Bin.Bytes) : Nat := buf.foldl (fun acc b => acc * 256 + b) 0

/-- Big-endian bytes of `n` in front of `acc`, most significant byte not zero. -/
def bytesAux : Nat → Nat → Bin.Bytes → Bin.Bytes
  | 0, _, acc => acc
  | fuel + 1, n, acc => if n = 0 then acc else bytesAux fuel (n / 256) (n % 256 :: acc)

/-- `(*big.Int).Bytes`: the absolute value as a big-endian byte slice without leading
zero bytes. -/
def Bytes (n : Nat) : Bin.Bytes := bytesAux n n []

end big

/-- Outcome of a method with a pointer receiver: it returns, leaving the receiver in state
`recv` and giving back `err` (`none` is `nil`), or it panics. -/
inductive Outcome (σ : Type) where
  | ret (recv : σ) (err : Option GoError)
  | panic
  deriving DecidableEq, Repr

/-- `Uint128.UnmarshalJSON`, called on a receiver holding `i`. -/
def Uint128.UnmarshalJSON (i : Uint128) (data : Bytes) : Outcome Uint128 :=
  if data = lit "null" then .ret i none
  else
    match json.UnmarshalString data with
    | .error err => .ret i (some (.std err))
    | .ok r =>
      let s := r.getD []
      if !strings.HasPrefix s (lit "0x") && !strings.HasPrefix s (lit "0X") then
        .ret i (some (.errorf "int128 expects 0x prefix"))
      else
        match sliceFrom s 2 with
        | none => .panic
        | some truncatedVal =>
          if truncatedVal.length ≠ 32 then
            .ret i (some (.errorf ("int128 expects 32 characters after 0x, had "
              ++ Nat.repr truncatedVal.length)))
          else
            match sliceTo truncatedVal 16, sliceFrom truncatedVal 16 with
            | some loHex, some hiHex =>
              match hex.DecodeString loHex with
              | .error err => .ret i (some (.std err))
              | .ok lo =>
                match hex.DecodeString hiHex with
                | .error err => .ret i (some (.std err))
                | .ok hi =>
                  match binary.LittleEndian.Uint64 lo, binary.LittleEndian.Uint64 hi with
                  | some loUint, some hiUint => .ret { Lo := loUint, Hi := hiUint } none
                  | _, _ => .panic
            | _, _ => .panic

/-- `Uint128.BigInt`. -/
def Uint128.BigInt (i : Uint128) : Int :=
  let buf := binary.BigEndian.PutUint64 i.Hi ++ binary.BigEndian.PutUint64 i.Lo
  (big.SetBytes buf : Int)

/-- `Uint128.DecimalString`. -/
def Uint128.DecimalString (i : Uint128) : Bytes := decimal i.BigInt

/-! ## `Int128` and `Float128` -/

/-- `twosComplement`: every byte is inverted, the result read as a big-endian integer,
one is added and the sum is returned as bytes. -/
def twosComplement (v : Bytes) : Bytes :=
  let buf := v.map (fun b => b ^^^ 0xff)
  let one := 1
  let value := big.SetBytes buf
  big.Bytes (value + one)

/-- The type `Int128`, declared as `type Int128 Uint128`. -/
structure Int128 where
  Lo : Nat
  Hi : Nat
  deriving DecidableEq, Repr

/-- The type `Float128`, declared as `type Float128 Uint128`. -/
structure Float128 where
  Lo : Nat
  Hi : Nat
  deriving DecidableEq, Repr

/-- Both words are in the range of `uint64`. -/
def Int128.InRange (i : Int128) : Prop := i.Lo < 2 ^ 64 ∧ i.Hi < 2 ^ 64

/-- The conversion `Uint128(i)`. -/
def Int128.toUint128 (i : Int128) : Uint128 := { Lo := i.Lo, Hi := i.Hi }

/-- The conversion `Uint128(i)`. -/
def Float128.toUint128 (i : Float128) : Uint128 := { Lo := i.Lo, Hi := i.Hi }

/-- `Int128.BigInt`. -/
def Int128.BigInt (i : Int128) : Int :=
  let comp := 0x80
  let buf := binary.BigEndian.PutUint64 i.Hi ++ binary.BigEndian.PutUint64 i.Lo
  if (buf.headD 0 &&& comp) = comp then
    let buf := twosComplement buf
    let value : Int := (big.SetBytes buf : Int)
    let value : Int := -value
    value
  else
    (big.SetBytes buf : Int)

/-- `Int128.String`. -/
def Int128.String (i : Int128) : Bytes := i.toUint128.String

/-- `Int128.DecimalString`. -/
def Int128.DecimalString (i : Int128) : Bytes := decimal i.BigInt

/-- `Int128.MarshalJSON`. -/
def Int128.MarshalJSON (i : Int128) : Bytes × Option GoError :=
  (lit "\"" ++ i.toUint128.String ++ lit "\"", none)

/-- `Float128.MarshalJSON`. -/
def Float128.MarshalJSON (i : Float128) : Bytes × Option GoError :=
  (lit "\"" ++ i.toUint128.String ++ lit "\"", none)

/-! ## `Int64`, `Uint64` and `Bool` -/

/-- `json.Marshal` of an `int64` or a `uint64`: its decimal digits and a nil error. -/
def json.MarshalInteger (x : Int) : Bytes × Option GoError := (decimal x, none)

/-- `Int64.MarshalJSON`. -/
def Int64.MarshalJSON (i : Int) : Bytes × Option GoError :=
  if i > 0xffffffff ∨ i < -0xffffffff then
    match json.MarshalInteger i with
    | (_, some err) => ([], some err)
    | (encodedInt, none) =>
      let data := [34] ++ encodedInt
      let data := data ++ [34]
      (data, none)
  else json.MarshalInteger i

/-- `Uint64.MarshalJSON`. -/
def Uint64.MarshalJSON (i : Nat) : Bytes × Option GoError :=
  if i > 0xffffffff then
    match json.MarshalInteger i with
    | (_, some err) => ([], some err)
    | (encodedInt, none) =>
      let data := [34] ++ encodedInt
      let data := data ++ [34]
      (data, none)
  else json.MarshalInteger i

/-- `Bool.UnmarshalJSON`, called on a receiver holding `b`: the receiver after the call and
the returned error. -/
def Bool.UnmarshalJSON (extText : ExtError → Text) (b : Bool) (data : Bytes) :
    Bool × Option GoError :=
  match json.UnmarshalInt data with
  | .ok r =>
    let num : Int := r.getD 0
    (decide (num ≠ 0), none)
  | .error _ =>
    match json.UnmarshalBool data with
    | .error err =>
      (b, some (.errorf ("couldn't unmarshal bool as int or true/false: "
        ++ (GoError.std err).Error extText)))
    | .ok r =>
      let boolVal : Bool := r.getD false
      (boolVal, none)

/-! ## `Varuint32` and the decoder -/

/-- Modelled from the spec: the type `Decoder`, declared outside `types.go`: the input
buffer and the read offset into it. -/
structure Decoder where
  data : Bytes
  pos : Nat
  deriving DecidableEq, Repr

/-- Modelled from the spec: `Decoder.remaining`, declared outside `types.go`:
`len(bytes) - read_offset`. -/
def Decoder.remaining (d : Decoder) : Nat := d.data.length - d.pos

/-- What a read method of the decoder gives back: the decoder after the call, the value
and the error. -/
abbrev Read (α : Type) := Decoder → Decoder × α × Option GoError

/-- Modelled from the spec: the unsigned varint at the front of the input, declared outside
`types.go`: 7-bit payload groups, least significant group first, with a continuation flag
in the high bit of each byte.  Gives the value and the number of bytes it takes; `none`
when the input is empty or ends in the middle of the sequence. -/
def uvarint : Bytes → Option (Nat × Nat)
  | [] => none
  | b :: rest =>
    if b < 128 then some (b, 1)
    else
      match uvarint rest with
      | none => none
      | some (v, n) => some (b % 128 + 128 * v, n + 1)

/-- Modelled from the spec: `Decoder.ReadUvarint64`, declared outside `types.go`: reads the
unsigned varint at the cursor and moves the cursor past it; fails with
`ErrVarIntBufferSize` when the buffer is empty or exhausted in the middle of the varint. -/
def Decoder.ReadUvarint64 : Read Nat := fun d =>
  match uvarint (d.data.drop d.pos) with
  | none => (d, 0, some (.std (.sentinel "ErrVarIntBufferSize")))
  | some (v, n) => ({ d with pos := d.pos + n }, v % 2 ^ 64, none)

/-- `Varuint32.UnmarshalBinary`, called on a receiver holding `o`; `ReadUvarint64` is the
decoder's method of that name.  Returns the receiver and the decoder after the call and
the error. -/
def Varuint32.UnmarshalBinary (extText : ExtError → Text) (ReadUvarint64 : Read Nat)
    (o : Nat) (decoder : Decoder) : Nat × Decoder × Option GoError :=
  match ReadUvarint64 decoder with
  | (decoder1, _, some err) =>
    (o, decoder1, some (.errorf ("varuint32: " ++ err.Error extText)))
  | (decoder1, value, none) =>
    (value % 2 ^ 32, decoder1, none)

/-! ## Definitions used to state the properties -/

/-- A byte that a JSON string literal holds as itself: printable ASCII other than the
double quote and the backslash. -/
def plain (c : Nat) : Prop := 32 ≤ c ∧ c < 128 ∧ c ≠ 34 ∧ c ≠ 92

instance (c : Nat) : Decidable (plain c) := by unfold plain; infer_instance

/-- What `Uint128.UnmarshalJSON` does once the JSON string `s` has been decoded. -/
def Uint128.parse (i : Uint128) (s : Bytes) : Outcome Uint128 :=
  if !strings.HasPrefix s (lit "0x") && !strings.HasPrefix s (lit "0X") then
    .ret i (some (.errorf "int128 expects 0x prefix"))
  else
    match sliceFrom s 2 with
    | none => .panic
    | some truncatedVal =>
      if truncatedVal.length ≠ 32 then
        .ret i (some (.errorf ("int128 expects 32 characters after 0x, had "
          ++ Nat.repr truncatedVal.length)))
      else
        match sliceTo truncatedVal 16, sliceFrom truncatedVal 16 with
        | some loHex, some hiHex =>
          match hex.DecodeString loHex with
          | .error err => .ret i (some (.std err))
          | .ok lo =>
            match hex.DecodeString hiHex with
            | .error err => .ret i (some (.std err))
            | .ok hi =>
              match binary.LittleEndian.Uint64 lo, binary.LittleEndian.Uint64 hi with
              | some loUint, some hiUint => .ret { Lo := loUint, Hi := hiUint } none
              | _, _ => .panic
        | _, _ => .panic

/-- A lowercase hexadecimal digit, `0`..`9` or `a`..`f`. -/
def isLowerHex (c : Nat) : Prop := (48 ≤ c ∧ c ≤ 57) ∨ (97 ≤ c ∧ c ≤ 102)

instance (c : Nat) : Decidable (isLowerHex c) := by unfold isLowerHex; infer_instance

/-- A hexadecimal digit in either case, `0`..`9`, `a`..`f` or `A`..`F`. -/
def isHexDigit (c : Nat) : Prop := (48 ≤ c ∧ c ≤ 57) ∨ (97 ≤ c ∧ c ≤ 102) ∨ (65 ≤ c ∧ c ≤ 70)

instance (c : Nat) : Decidable (isHexDigit c) := by unfold isHexDigit; infer_instance

/-- The lowercase hexadecimal digit for a value below sixteen. -/
def lowerHexChar (n : Nat) : Nat := if n < 10 then 48 + n else 87 + n

/-- Byte number `k` of `x`, counted from the least significant byte. -/
def byteAt (x k : Nat) : Nat := x / 256 ^ k % 256

/-- Two lowercase hexadecimal digits per byte, high nibble first. -/
def hexPairs (bs : Bytes) : Bytes := bs.flatMap (fun b => [lowerHexChar (b / 16), lowerHexChar (b % 16)])

/-- The eight bytes of a word, least significant byte first. -/
def leBytes (x : Nat) : Bytes := (List.range 8).map (byteAt x)

/-- The value of a list of bytes read least significant byte first. -/
def leVal : Bytes → Nat
  | [] => 0
  | b :: bs => b + 256 * leVal bs

/-- The `n` low bytes of `x`, least significant byte first. -/
def leBytesN : Nat → Nat → Bytes
  | 0, _ => []
  | n + 1, x => x % 256 :: leBytesN n (x / 256)

/-- ASCII lowercase of one byte. -/
def toLowerByte (c : Nat) : Nat := if 65 ≤ c ∧ c ≤ 90 then c + 32 else c

/-! ## The binary methods of the leaf types

The decoder and the encoder are declared outside `types.go`; each method below takes the
decoder or encoder method it calls as a parameter. -/

/-- Modelled from the spec: the type `Encoder`, declared outside `types.go`: the growable
output buffer. -/
structure Encoder where
  out : Bytes
  deriving DecidableEq, Repr

/-- What a write method of the encoder gives back for a value: the encoder after the call
and the error. -/
abbrev Write (α : Type) := α → Encoder → Encoder × Option GoError

/-- `SafeString.UnmarshalBinary`, called on a receiver holding `ss`. -/
def SafeString.UnmarshalBinary (SafeReadUTF8String : Read Bytes) (ss : Bytes)
    (d : Decoder) : Bytes × Decoder × Option GoError :=
  match SafeReadUTF8String d with
  | (d1, _, some e) => (ss, d1, some e)
  | (d1, s, none) => (s, d1, none)

/-- `Bool.UnmarshalBinary`, called on a receiver holding `b`. -/
def Bool.UnmarshalBinary (ReadBool : Read Bool) (b : Bool) (decoder : Decoder) :
    Bool × Decoder × Option GoError :=
  match ReadBool decoder with
  | (decoder1, _, some err) => (b, decoder1, some err)
  | (decoder1, value, none) => (value, decoder1, none)

/-- `Bool.MarshalBinary`. -/
def Bool.MarshalBinary (writeBool : Write Bool) (b : Bool) (encoder : Encoder) :
    Encoder × Option GoError :=
  writeBool b encoder

/-- `HexBytes.UnmarshalBinary`, called on a receiver holding `o`. -/
def HexBytes.UnmarshalBinary (extText : ExtError → Text) (ReadByteArray : Read Bytes)
    (o : Bytes) (decoder : Decoder) : Bytes × Decoder × Option GoError :=
  match ReadByteArray decoder with
  | (decoder1, _, some err) =>
    (o, decoder1, some (.errorf ("hex bytes: " ++ err.Error extText)))
  | (decoder1, value, none) => (value, decoder1, none)

/-- `HexBytes.MarshalBinary`; the second argument of `writeByteArray` is `true`. -/
def HexBytes.MarshalBinary (writeByteArray : Bytes → Bool → Encoder → Encoder × Option GoError)
    (o : Bytes) (encoder : Encoder) : Encoder × Option GoError :=
  writeByteArray o true encoder

/-- `Varint16.UnmarshalBinary`, called on a receiver holding `o`. -/
def Varint16.UnmarshalBinary (extText : ExtError → Text) (ReadVarint16 : Read Int)
    (o : Int) (decoder : Decoder) : Int × Decoder × Option GoError :=
  match ReadVarint16 decoder with
  | (decoder1, _, some err) =>
    (o, decoder1, some (.errorf ("varint16: " ++ err.Error extText)))
  | (decoder1, value, none) => (value, decoder1, none)

/-- `Varint16.MarshalBinary`. -/
def Varint16.MarshalBinary (writeVarInt : Write Int) (o : Int) (encoder : Encoder) :
    Encoder × Option GoError :=
  writeVarInt o encoder

/-- `Varuint16.UnmarshalBinary`, called on a receiver holding `o`. -/
def Varuint16.UnmarshalBinary (extText : ExtError → Text) (ReadUvarint16 : Read Nat)
    (o : Nat) (decoder : Decoder) : Nat × Decoder × Option GoError :=
  match ReadUvarint16 decoder with
  | (decoder1, _, some err) =>
    (o, decoder1, some (.errorf ("varuint16: " ++ err.Error extText)))
  | (decoder1, value, none) => (value, decoder1, none)

/-- `Varuint16.MarshalBinary`; the argument `int(o)` of `writeUVarInt` is `o` itself. -/
def Varuint16.MarshalBinary (writeUVarInt : Write Int) (o : Nat) (encoder : Encoder) :
    Encoder × Option GoError :=
  writeUVarInt (o : Int) encoder

/-- `Varuint32.MarshalBinary`; the argument `int(o)` of `writeUVarInt` is `o` itself, `int`
being 64 bits wide. -/
def Varuint32.MarshalBinary (writeUVarInt : Write Int) (o : Nat) (encoder : Encoder) :
    Encoder × Option GoError :=
  writeUVarInt (o : Int) encoder

/-- `Varint32.UnmarshalBinary`, called on a receiver holding `o`. -/
def Varint32.UnmarshalBinary (ReadVarint32 : Read Int) (o : Int) (decoder : Decoder) :
    Int × Decoder × Option GoError :=
  match ReadVarint32 decoder with
  | (decoder1, _, some err) => (o, decoder1, some err)
  | (decoder1, value, none) => (value, decoder1, none)

/-- `Varint32.MarshalBinary`. -/
def Varint32.MarshalBinary (writeVarInt : Write Int) (o : Int) (encoder : Encoder) :
    Encoder × Option GoError :=
  writeVarInt o encoder

/-- `JSONFloat64.UnmarshalBinary`, called on a receiver holding `f`; a `float64` is held as
its 64-bit IEEE-754 pattern. -/
def JSONFloat64.UnmarshalBinary (ReadFloat64 : Read Nat) (f : Nat) (decoder : Decoder) :
    Nat × Decoder × Option GoError :=
  match ReadFloat64 decoder with
  | (decoder1, _, some err) => (f, decoder1, some err)
  | (decoder1, value, none) => (value, decoder1, none)

/-- `JSONFloat64.MarshalBinary`. -/
def JSONFloat64.MarshalBinary (writeFloat64 : Write Nat) (f : Nat) (encoder : Encoder) :
    Encoder × Option GoError :=
  writeFloat64 f encoder

/-- `Int64.UnmarshalBinary`, called on a receiver holding `i`. -/
def Int64.UnmarshalBinary (ReadInt64 : Read Int) (i : Int) (decoder : Decoder) :
    Int × Decoder × Option GoError :=
  match ReadInt64 decoder with
  | (decoder1, _, some err) => (i, decoder1, some err)
  | (decoder1, value, none) => (value, decoder1, none)

/-- `Int64.MarshalBinary`. -/
def Int64.MarshalBinary (writeInt64 : Write Int) (i : Int) (encoder : Encoder) :
    Encoder × Option GoError :=
  writeInt64 i encoder

/-- `Uint64.UnmarshalBinary`, called on a receiver holding `i`. -/
def Uint64.UnmarshalBinary (ReadUint64 : Read Nat) (i : Nat) (decoder : Decoder) :
    Nat × Decoder × Option GoError :=
  match ReadUint64 decoder with
  | (decoder1, _, some err) => (i, decoder1, some err)
  | (decoder1, value, none) => (value, decoder1, none)

/-- `Uint64.MarshalBinary`. -/
def Uint64.MarshalBinary (writeUint64 : Write Nat) (i : Nat) (encoder : Encoder) :
    Encoder × Option GoError :=
  writeUint64 i encoder

/-- `Uint128.UnmarshalBinary`, called on a receiver holding `i`; the read is labelled
`uint128`. -/
def Uint128.UnmarshalBinary (ReadUint128 : Text → Read Uint128) (i : Uint128)
    (decoder : Decoder) : Uint128 × Decoder × Option GoError :=
  match ReadUint128 "uint128" decoder with
  | (decoder1, _, some err) => (i, decoder1, some err)
  | (decoder1, value, none) => (value, decoder1, none)

/-- `Uint128.MarshalBinary`. -/
def Uint128.MarshalBinary (writeUint128 : Write Uint128) (i : Uint128) (encoder : Encoder) :
    Encoder × Option GoError :=
  writeUint128 i encoder

/-- `Int128.UnmarshalBinary`, called on a receiver holding `i`. -/
def Int128.UnmarshalBinary (ReadInt128 : Read Int128) (i : Int128) (decoder : Decoder) :
    Int128 × Decoder × Option GoError :=
  match ReadInt128 decoder with
  | (decoder1, _, some err) => (i, decoder1, some err)
  | (decoder1, value, none) => (value, decoder1, none)

/-- `Int128.MarshalBinary`. -/
def Int128.MarshalBinary (writeInt128 : Write Int128) (i : Int128) (encoder : Encoder) :
    Encoder × Option GoError :=
  writeInt128 i encoder

/-- `Float128.UnmarshalBinary`, called on a receiver holding `i`; the value read is
converted with `Float128(value)`. -/
def Float128.UnmarshalBinary (ReadFloat128 : Read Float128) (i : Float128)
    (decoder : Decoder) : Float128 × Decoder × Option GoError :=
  match ReadFloat128 decoder with
  | (decoder1, _, some err) => (i, decoder1, some err)
  | (decoder1, value, none) => ({ Lo := value.Lo, Hi := value.Hi }, decoder1, none)

/-- `Float128.MarshalBinary`: writes `Uint128(i)`. -/
def Float128.MarshalBinary (writeUint128 : Write Uint128) (i : Float128) (encoder : Encoder) :
    Encoder × Option GoError :=
  writeUint128 i.toUint128 encoder

/-! ## `Int64` and `Uint64` read from JSON -/

/-- `strconv.ParseUint(s, 10, 64)`: a non-empty run of decimal digits whose value is below
`2^64`. -/
def strconv.ParseUint (s : Bytes) : Except ExtError Nat :=
  match s with
  | [] => .error (.strconv "ParseUint" s)
  | _ :: _ =>
    match json.digitsValue 0 s with
    | (n, []) => if n < 2 ^ 64 then .ok n else .error (.strconv "ParseUint" s)
    | (_, _ :: _) => .error (.strconv "ParseUint" s)

/-- `strconv.ParseInt(s, 10, 64)`: an optional sign `+` or `-` and a non-empty run of
decimal digits, the value in the range of `int64`. -/
def strconv.ParseInt (s : Bytes) : Except ExtError Int :=
  match s with
  | [] => .error (.strconv "ParseInt" s)
  | c :: rest =>
    let neg : Bool := c == 45
    let body := if c = 43 ∨ c = 45 then rest else s
    match body with
    | [] => .error (.strconv "ParseInt" s)
    | _ :: _ =>
      match json.digitsValue 0 body with
      | (un, []) =>
        if !neg && un ≥ 2 ^ 63 then .error (.strconv "ParseInt" s)
        else if neg && un > 2 ^ 63 then .error (.strconv "ParseInt" s)
        else .ok (if neg then -(un : Int) else (un : Int))
      | (_, _ :: _) => .error (.strconv "ParseInt" s)

/-- `json.Unmarshal(data, &v)` for `v` of type `int64`: accepts `null` (no store) and a
number that `strconv.ParseInt(_, 10, 64)` can read. -/
def json.UnmarshalInt64 (data : Bytes) : Except ExtError (Option Int) :=
  let rest := skipSpace data
  if isLiteral (lit "null") rest then .ok none
  else
    match integerLiteral rest with
    | some n => if -(2 : Int) ^ 63 ≤ n ∧ n < (2 : Int) ^ 63 then .ok (some n)
                else .error (.json data "int64")
    | none => .error (.json data "int64")

/-- `json.Unmarshal(data, &v)` for `v` of type `uint64`: accepts `null` (no store) and a
number that `strconv.ParseUint(_, 10, 64)` can read, which excludes a minus sign. -/
def json.UnmarshalUint64 (data : Bytes) : Except ExtError (Option Nat) :=
  let rest := skipSpace data
  if isLiteral (lit "null") rest then .ok none
  else if rest.head? = some 45 then .error (.json data "uint64")
  else
    match integerLiteral rest with
    | some n => if n < (2 : Int) ^ 64 then .ok (some n.toNat)
                else .error (.json data "uint64")
    | none => .error (.json data "uint64")

/-- `Int64.UnmarshalJSON`, called on a receiver holding `i`: the receiver after the call and
the returned error. -/
def Int64.UnmarshalJSON (i : Int) (data : Bytes) : Int × Option GoError :=
  if data.length = 0 then (i, some (.errorf "empty value"))
  else if data.head? = some 34 then
    match json.UnmarshalString data with
    | .error err => (i, some (.std err))
    | .ok r =>
      let s := r.getD []
      match strconv.ParseInt s with
      | .error err => (i, some (.std err))
      | .ok val => (val, none)
  else
    match json.UnmarshalInt64 data with
    | .error err => (i, some (.std err))
    | .ok r =>
      let v : Int := r.getD 0
      (v, none)

/-- `Uint64.UnmarshalJSON`, called on a receiver holding `i`: the receiver after the call
and the returned error. -/
def Uint64.UnmarshalJSON (i : Nat) (data : Bytes) : Nat × Option GoError :=
  if data.length = 0 then (i, some (.errorf "empty value"))
  else if data.head? = some 34 then
    match json.UnmarshalString data with
    | .error err => (i, some (.std err))
    | .ok r =>
      let s := r.getD []
      match strconv.ParseUint s with
      | .error err => (i, some (.std err))
      | .ok val => (val, none)
  else
    match json.UnmarshalUint64 data with
    | .error err => (i, some (.std err))
    | .ok r =>
      let v : Nat := r.getD 0
      (v, none)

/-! ## `Int128` and `Float128` read from JSON -/

/-- `json.Unmarshal(data, &el)` for `el` of type `Uint128`.  The whole input is validated
first.  The type `*Uint128` has the method `UnmarshalJSON`, so the text of the value,
without the white space around it, is then handed to `el.UnmarshalJSON`, also when the
value is `null`.  A value that is neither a string nor `null` (a number, `true`, `false`,
an array or an object) ends in an error, either from the validation or from
`el.UnmarshalJSON`, which decodes its input into a string. -/
def json.UnmarshalUint128 (el : Uint128) (data : Bytes) : Outcome Uint128 :=
  let rest := json.skipSpace data
  if json.isLiteral (lit "null") rest then el.UnmarshalJSON (lit "null")
  else
    match rest with
    | 34 :: body =>
      match json.unquoteAux body.length body with
      | some (_, tail) =>
        if tail.all json.isSpace then
          el.UnmarshalJSON (rest.take (rest.length - tail.length))
        else .ret el (some (.std (.json data "bin.Uint128")))
      | none => .ret el (some (.std (.json data "bin.Uint128")))
    | _ => .ret el (some (.std (.json data "bin.Uint128")))

/-- `Int128.UnmarshalJSON`, called on a receiver holding `i`. -/
def Int128.UnmarshalJSON (i : Int128) (data : Bytes) : Outcome Int128 :=
  let el : Uint128 := { Lo := 0, Hi := 0 }
  match json.UnmarshalUint128 el data with
  | .panic => .panic
  | .ret _ (some err) => .ret i (some err)
  | .ret el1 none =>
    let out : Int128 := { Lo := el1.Lo, Hi := el1.Hi }
    .ret out none

/-- `Float128.UnmarshalJSON`, called on a receiver holding `i`. -/
def Float128.UnmarshalJSON (i : Float128) (data : Bytes) : Outcome Float128 :=
  let el : Uint128 := { Lo := 0, Hi := 0 }
  match json.UnmarshalUint128 el data with
  | .panic => .panic
  | .ret _ (some err) => .ret i (some err)
  | .ret el1 none =>
    let out : Float128 := { Lo := el1.Lo, Hi := el1.Hi }
    .ret out none

/-- What one round of `json.unquoteAux` does. -/
inductive Step where
  /-- The closing quote was read; the input after it is left. -/
  | stop (tail : Bytes)
  /-- Some bytes were decoded to `out`; `next` is the input still to read. -/
  | emit (out next : Bytes)
  /-- The literal is malformed. -/
  | fail
  deriving DecidableEq, Repr

/-- One round of `json.unquoteAux` on its own. -/
def json.unquoteStep : Bytes → Step
  | [] => .fail
  | c :: rest =>
    if c = 34 then .stop rest
    else if c = 92 then
      match rest with
      | [] => .fail
      | e :: rest1 =>
        if e = 34 ∨ e = 92 ∨ e = 47 then .emit [e] rest1
        else if e = 98 then .emit [8] rest1
        else if e = 102 then .emit [12] rest1
        else if e = 110 then .emit [10] rest1
        else if e = 114 then .emit [13] rest1
        else if e = 116 then .emit [9] rest1
        else if e = 117 then
          match json.getu4 (c :: rest) with
          | none => .fail
          | some rr =>
            let after := rest.drop 5
            if 0xD800 ≤ rr ∧ rr < 0xE000 then
              match json.getu4 after with
              | some rr1 =>
                if rr < 0xDC00 ∧ 0xDC00 ≤ rr1 ∧ rr1 < 0xE000 then
                  .emit (json.encodeRune ((rr - 0xD800) * 1024 + (rr1 - 0xDC00) + 0x10000))
                    (after.drop 6)
                else .emit [0xEF, 0xBF, 0xBD] after
              | none => .emit [0xEF, 0xBF, 0xBD] after
            else .emit (json.encodeRune rr) after
        else .fail
    else if c < 32 then .fail
    else if c < 128 then .emit [c] rest
    else
      let k := json.validLen (c :: rest)
      if k = 0 then .emit [0xEF, 0xBF, 0xBD] rest
      else .emit ((c :: rest).take k) ((c :: rest).drop k)

/-! ## The decoder's reads and the encoder's writes

The decoder and the encoder are declared outside `types.go`; what follows is modelled from
the specification of the wire format. -/

/-- Modelled from the spec: the bounds check and raw read every fixed-size read of the
decoder, declared outside `types.go`, starts with: when fewer than `w` bytes remain it
fails, naming the bytes required and the bytes available, and leaves the cursor where it
is; otherwise it gives the next `w` bytes and moves the cursor past them. -/
def Decoder.readFixed (what : Text) (w : Nat) : Read Bytes := fun d =>
  if d.remaining < w then (d, [], some (.std (.bufferTooSmall what w d.remaining)))
  else ({ d with pos := d.pos + w }, (d.data.drop d.pos).take w, none)

/-- Modelled from the spec: the two's-complement reading of a `w`-byte unsigned value,
used by the signed reads of the decoder declared outside `types.go`. -/
def toSigned (w x : Nat) : Int := if 2 * x < 256 ^ w then (x : Int) else (x : Int) - 256 ^ w

/-- Modelled from the spec: a little-endian unsigned read of `w` bytes, the common form of
`Decoder.ReadUint8/16/32/64` declared outside `types.go`. -/
def Decoder.readUint (what : Text) (w : Nat) : Read Nat := fun d =>
  match d.readFixed what w with
  | (d1, _, some e) => (d1, 0, some e)
  | (d1, bs, none) => (d1, leVal bs, none)

/-- Modelled from the spec: a little-endian two's-complement read of `w` bytes, the common
form of `Decoder.ReadInt8/16/32/64` declared outside `types.go`. -/
def Decoder.readInt (what : Text) (w : Nat) : Read Int := fun d =>
  match d.readFixed what w with
  | (d1, _, some e) => (d1, 0, some e)
  | (d1, bs, none) => (d1, toSigned w (leVal bs), none)

/-- Modelled from the spec: `Decoder.ReadUint8`, declared outside `types.go`. -/
def Decoder.ReadUint8 : Read Nat := Decoder.readUint "uint8" 1

/-- Modelled from the spec: `Decoder.ReadByte`, declared outside `types.go`: a single
byte. -/
def Decoder.ReadByte : Read Nat := Decoder.readUint "byte" 1

/-- Modelled from the spec: `Decoder.ReadUint16`, declared outside `types.go`. -/
def Decoder.ReadUint16 : Read Nat := Decoder.readUint "uint16" 2

/-- Modelled from the spec: `Decoder.ReadUint32`, declared outside `types.go`. -/
def Decoder.ReadUint32 : Read Nat := Decoder.readUint "uint32" 4

/-- Modelled from the spec: `Decoder.ReadUint64`, declared outside `types.go`. -/
def Decoder.ReadUint64 : Read Nat := Decoder.readUint "uint64" 8

/-- Modelled from the spec: `Decoder.ReadInt8`, declared outside `types.go`. -/
def Decoder.ReadInt8 : Read Int := Decoder.readInt "int8" 1

/-- Modelled from the spec: `Decoder.ReadInt16`, declared outside `types.go`. -/
def Decoder.ReadInt16 : Read Int := Decoder.readInt "int16" 2

/-- Modelled from the spec: `Decoder.ReadInt32`, declared outside `types.go`. -/
def Decoder.ReadInt32 : Read Int := Decoder.readInt "int32" 4

/-- Modelled from the spec: `Decoder.ReadInt64`, declared outside `types.go`. -/
def Decoder.ReadInt64 : Read Int := Decoder.readInt "int64" 8

/-- Modelled from the spec: `Decoder.ReadFloat32`, declared outside `types.go`: four bytes,
little-endian, read as the IEEE-754 bit pattern; a float is held as that pattern. -/
def Decoder.ReadFloat32 : Read Nat := Decoder.readUint "float32" 4

/-- Modelled from the spec: `Decoder.ReadFloat64`, declared outside `types.go`: eight bytes,
little-endian, read as the IEEE-754 bit pattern; a float is held as that pattern. -/
def Decoder.ReadFloat64 : Read Nat := Decoder.readUint "float64" 8

/-- Modelled from the spec: `Decoder.ReadBool`, declared outside `types.go`: one byte, `0x00`
for false and `0x01` for true.  The spec leaves open what another byte means; here every
byte other than zero is true. -/
def Decoder.ReadBool : Read Bool := fun d =>
  match d.readFixed "bool" 1 with
  | (d1, _, some e) => (d1, false, some e)
  | (d1, bs, none) => (d1, decide (leVal bs ≠ 0), none)

/-- Modelled from the spec: the signed value of an unsigned varint, the zig-zag transform
of the signed varint reads declared outside `types.go`: even values are the non-negative
numbers, odd values the negative ones. -/
def unzigzag (ux : Nat) : Int :=
  if ux % 2 = 0 then ((ux / 2 : Nat) : Int) else -((ux / 2 : Nat) : Int) - 1

/-- Modelled from the spec: `Decoder.ReadVarint64`, declared outside `types.go`: the
unsigned varint at the cursor mapped back through the zig-zag transform. -/
def Decoder.ReadVarint64 : Read Int := fun d =>
  match d.ReadUvarint64 with
  | (d1, _, some e) => (d1, 0, some e)
  | (d1, ux, none) => (d1, unzigzag ux, none)

/-- Modelled from the spec: `Decoder.ReadUvarint16`, declared outside `types.go`: read
through the 64-bit unsigned varint read and truncated to 16 bits. -/
def Decoder.ReadUvarint16 : Read Nat := fun d =>
  match d.ReadUvarint64 with
  | (d1, _, some e) => (d1, 0, some e)
  | (d1, v, none) => (d1, v % 2 ^ 16, none)

/-- Modelled from the spec: `Decoder.ReadVarint16`, declared outside `types.go`: read
through the 64-bit signed varint read and truncated to 16 bits. -/
def Decoder.ReadVarint16 : Read Int := fun d =>
  match d.ReadVarint64 with
  | (d1, _, some e) => (d1, 0, some e)
  | (d1, v, none) => (d1, toSigned 2 (v % 2 ^ 16).toNat, none)

/-- Modelled from the spec: `Decoder.ReadVarint32`, declared outside `types.go`: read
through the 64-bit signed varint read and truncated to 32 bits. -/
def Decoder.ReadVarint32 : Read Int := fun d =>
  match d.ReadVarint64 with
  | (d1, _, some e) => (d1, 0, some e)
  | (d1, v, none) => (d1, toSigned 4 (v % 2 ^ 32).toNat, none)

/-- Modelled from the spec: `Decoder.ReadByteArray`, declared outside `types.go`: an
unsigned varint `l`, then `l` raw bytes.  When fewer than `l` bytes follow the prefix it
fails with `byte array: varlen=<l>, missing <k> bytes`, `k` being the number of bytes that
are missing; the cursor then stays after the prefix. -/
def Decoder.ReadByteArray : Read Bytes := fun d =>
  match d.ReadUvarint64 with
  | (d1, _, some e) => (d1, [], some e)
  | (d1, l, none) =>
    if d1.remaining < l then
      (d1, [], some (.errorf ("byte array: varlen=" ++ Nat.repr l ++ ", missing "
        ++ Nat.repr (l - d1.remaining) ++ " bytes")))
    else ({ d1 with pos := d1.pos + l }, (d1.data.drop d1.pos).take l, none)

/-- Modelled from the spec: `Decoder.ReadString`, declared outside `types.go`: the bytes
of a byte array as they are, with no UTF-8 validation. -/
def Decoder.ReadString : Read Bytes := Decoder.ReadByteArray

/-- Modelled from the spec: `Decoder.ReadUint128`, declared outside `types.go`: sixteen raw
bytes, the `Lo` half then the `Hi` half, each little-endian; a failure carries the
label. -/
def Decoder.ReadUint128 (label : Text) : Read Uint128 := fun d =>
  match d.readFixed label 16 with
  | (d1, _, some e) => (d1, { Lo := 0, Hi := 0 }, some e)
  | (d1, bs, none) => (d1, { Lo := leVal (bs.take 8), Hi := leVal (bs.drop 8) }, none)

/-- Modelled from the spec: `Decoder.ReadInt128`, declared outside `types.go`: the sixteen
bytes of a `Uint128` under the label `int128`. -/
def Decoder.ReadInt128 : Read Int128 := fun d =>
  match d.ReadUint128 "int128" with
  | (d1, v, err) => (d1, { Lo := v.Lo, Hi := v.Hi }, err)

/-- Modelled from the spec: `Decoder.ReadFloat128`, declared outside `types.go`: the
sixteen bytes of a `Uint128` under the label `float128`. -/
def Decoder.ReadFloat128 : Read Float128 := fun d =>
  match d.ReadUint128 "float128" with
  | (d1, v, err) => (d1, { Lo := v.Lo, Hi := v.Hi }, err)

/-- Modelled from the spec: every write of the encoder, declared outside `types.go`, is a
pure append to the output. -/
def Encoder.toWriter (bs : Bytes) (e : Encoder) : Encoder × Option GoError :=
  ({ out := e.out ++ bs }, none)

/-- Modelled from the spec: `w` bytes, little-endian, the common form of the encoder's
`writeUint8/16/32/64`, `writeByte`, `writeFloat32` and `writeFloat64` declared outside
`types.go`. -/
def Encoder.writeUint (w : Nat) : Write Nat := fun v e => e.toWriter (leBytesN w v)

/-- Modelled from the spec: `w` bytes, little-endian two's complement, the common form of
the encoder's `writeInt8/16/32/64` declared outside `types.go`. -/
def Encoder.writeInt (w : Nat) : Write Int := fun v e =>
  e.toWriter (leBytesN w (v % 256 ^ w).toNat)

/-- Modelled from the spec: `Encoder.writeUint64`, declared outside `types.go`. -/
def Encoder.writeUint64 : Write Nat := Encoder.writeUint 8

/-- Modelled from the spec: `Encoder.writeInt64`, declared outside `types.go`. -/
def Encoder.writeInt64 : Write Int := Encoder.writeInt 8

/-- Modelled from the spec: `Encoder.writeFloat64`, declared outside `types.go`: the
IEEE-754 bit pattern, eight bytes little-endian. -/
def Encoder.writeFloat64 : Write Nat := Encoder.writeUint 8

/-- Modelled from the spec: `Encoder.writeBool`, declared outside `types.go`: one byte,
`0x01` for true and `0x00` for false. -/
def Encoder.writeBool : Write Bool := fun b e => e.toWriter [if b then 1 else 0]

/-- The groups of `putUvarint`, with fuel. -/
def putUvarintAux : Nat → Nat → Bytes
  | 0, n => [n % 128]
  | fuel + 1, n => if n < 128 then [n] else (n % 128 + 128) :: putUvarintAux fuel (n / 128)

/-- Modelled from the spec: the unsigned varint of `n`, written by the encoder declared
outside `types.go`: 7-bit groups, least significant first, the continuation flag set on
every byte but the last, in the shortest form. -/
def putUvarint (n : Nat) : Bytes := putUvarintAux n n

/-- Modelled from the spec: `Encoder.writeUVarInt`, declared outside `types.go`: the
unsigned varint of the argument converted to `uint64`. -/
def Encoder.writeUVarInt : Write Int := fun v e =>
  e.toWriter (putUvarint (v % 2 ^ 64).toNat)

/-- Modelled from the spec: the zig-zag transform of the signed varint writes declared
outside `types.go`: `2x` for a non-negative `x` and `-2x - 1` for a negative one. -/
def zigzag (x : Int) : Nat := if 0 ≤ x then (2 * x).toNat else (-2 * x - 1).toNat

/-- Modelled from the spec: `Encoder.writeVarInt`, declared outside `types.go`: the
unsigned varint of the zig-zag transform of the argument. -/
def Encoder.writeVarInt : Write Int := fun v e => e.toWriter (putUvarint (zigzag v))

/-- Modelled from the spec: `Encoder.writeByteArray`, declared outside `types.go`: the
unsigned varint of the length, then the bytes.  The spec does not say what the second
argument is for; the wire is the length-prefixed byte array whatever it is. -/
def Encoder.writeByteArray (b : Bytes) (_flag : Bool) (e : Encoder) :
    Encoder × Option GoError :=
  e.toWriter (putUvarint b.length ++ b)

/-- Modelled from the spec: `Encoder.writeString`, declared outside `types.go`: the bytes of
the string as a byte array. -/
def Encoder.writeString : Write Bytes := fun s e => e.toWriter (putUvarint s.length ++ s)

/-- Modelled from the spec: `Encoder.writeUint128`, declared outside `types.go`: the eight
bytes of `Lo`, then the eight bytes of `Hi`, each little-endian. -/
def Encoder.writeUint128 : Write Uint128 := fun v e =>
  e.toWriter (leBytesN 8 v.Lo ++ leBytesN 8 v.Hi)

/-- Modelled from the spec: `Encoder.writeInt128`, declared outside `types.go`: as
`writeUint128`. -/
def Encoder.writeInt128 : Write Int128 := fun v e =>
  e.toWriter (leBytesN 8 v.Lo ++ leBytesN 8 v.Hi)

/-! ## The generic traversal: `Decoder.Decode` and `Encoder.Encode`

Modelled from the specification of the two traversal engines, which are declared outside
`types.go`.  A destination type is described by a `Shape`, what it holds by a `Value`. -/

/-- The leaf types of `types.go` that have both a custom unmarshal and a custom marshal. -/
inductive Leaf where
  | bool | hexBytes | varint16 | varuint16 | varuint32 | varint32
  | jsonFloat64 | int64 | uint64 | uint128 | int128 | float128
  deriving DecidableEq, Repr

/-- Modelled from the spec: the shapes a destination of `Decode` can have. -/
inductive Shape where
  /-- An unsigned integer of `w` bytes (`uint8`, `uint16`, `uint32`, `uint64`). -/
  | uint (w : Nat)
  /-- A signed integer of `w` bytes (`int8`, `int16`, `int32`, `int64`). -/
  | int (w : Nat)
  /-- A float of `w` bytes (`float32`, `float64`), held as its bit pattern. -/
  | float (w : Nat)
  /-- The built-in `bool`. -/
  | bool
  /-- Text. -/
  | string
  /-- A fixed-size array of `n` elements. -/
  | array (n : Nat) (elem : Shape)
  /-- A variable-length sequence; a byte array is the sequence of `uint8`. -/
  | slice (elem : Shape)
  /-- A record with its visible fields in declared order. -/
  | record (fields : List Shape)
  /-- A leaf type, which has its own unmarshal and marshal. -/
  | leaf (k : Leaf)
  /-- A type with no wire rule, known by its name, such as `time.Duration`. -/
  | unsupported (name : Text)
  deriving Repr

/-- What a destination holds. -/
inductive Value where
  /-- An unsigned integer or the bit pattern of a float. -/
  | uint (n : Nat)
  /-- A signed integer. -/
  | int (n : Int)
  /-- A boolean. -/
  | bool (b : Bool)
  /-- A string or a `HexBytes`. -/
  | bytes (bs : Bytes)
  /-- The two words of a 128-bit value. -/
  | wide (lo hi : Nat)
  /-- The elements of an array or sequence, or the fields of a record. -/
  | list (items : List Value)
  /-- A value of a type with no wire rule; what it holds plays no part. -/
  | other
  deriving Repr

/-- The number held, zero for another kind of value. -/
def Value.nat : Value → Nat
  | .uint n => n
  | _ => 0

/-- The signed number held, zero for another kind of value. -/
def Value.toInt : Value → Int
  | .int n => n
  | _ => 0

/-- The boolean held, false for another kind of value. -/
def Value.toBool : Value → Bool
  | .bool b => b
  | _ => false

/-- The bytes held, none for another kind of value. -/
def Value.toBytes : Value → Bytes
  | .bytes bs => bs
  | _ => []

/-- The low word held, zero for another kind of value. -/
def Value.lo : Value → Nat
  | .wide lo _ => lo
  | _ => 0

/-- The high word held, zero for another kind of value. -/
def Value.hi : Value → Nat
  | .wide _ hi => hi
  | _ => 0

/-- The elements held, none for another kind of value. -/
def Value.items : Value → List Value
  | .list items => items
  | _ => []

/-- The zero value of a leaf type. -/
def Leaf.zero : Leaf → Value
  | .bool => .bool false
  | .hexBytes => .bytes []
  | .varint16 => .int 0
  | .varuint16 => .uint 0
  | .varuint32 => .uint 0
  | .varint32 => .int 0
  | .jsonFloat64 => .uint 0
  | .int64 => .int 0
  | .uint64 => .uint 0
  | .uint128 => .wide 0 0
  | .int128 => .wide 0 0
  | .float128 => .wide 0 0

mutual
/-- The zero value of a shape: what a fresh destination holds. -/
def Shape.zero : Shape → Value
  | .uint _ => .uint 0
  | .int _ => .int 0
  | .float _ => .uint 0
  | .bool => .bool false
  | .string => .bytes []
  | .array n elem => .list (List.replicate n elem.zero)
  | .slice _ => .list []
  | .record fields => .list (Shape.zeros fields)
  | .leaf k => k.zero
  | .unsupported _ => .other
/-- The zero values of the fields of a record. -/
def Shape.zeros : List Shape → List Value
  | [] => []
  | f :: fs => f.zero :: Shape.zeros fs
end

/-- What `Decode` gives back: the destination, the decoder and the error after the call. -/
abbrev Decoded (α : Type) := α × Decoder × Option GoError

/-- Decoding the elements of an array or sequence in index order with the decoding `f` of
one element; the first failure ends the loop and leaves the later elements as they are. -/
def decodeEach (f : Value → Decoder → Decoded Value) : List Value → Decoder → Decoded (List Value)
  | [], d => ([], d, none)
  | v :: vs, d =>
    match f v d with
    | (v1, d1, some e) => (v1 :: vs, d1, some e)
    | (v1, d1, none) =>
      match decodeEach f vs d1 with
      | (vs1, d2, err) => (v1 :: vs1, d2, err)

/-- The first `n` of the elements, made up to `n` with the zero value `z`: what an array of
`n` elements holds. -/
def fit (n : Nat) (z : Value) (items : List Value) : List Value :=
  items.take n ++ List.replicate (n - items.length) z

/-- Decoding into a leaf type, by its `UnmarshalBinary` in `types.go`. -/
def Leaf.Decode (extText : ExtError → Text) : Leaf → Value → Decoder → Decoded Value
  | .bool, dest, d =>
    match Bool.UnmarshalBinary Decoder.ReadBool dest.toBool d with
    | (b, d1, err) => (.bool b, d1, err)
  | .hexBytes, dest, d =>
    match HexBytes.UnmarshalBinary extText Decoder.ReadByteArray dest.toBytes d with
    | (o, d1, err) => (.bytes o, d1, err)
  | .varint16, dest, d =>
    match Varint16.UnmarshalBinary extText Decoder.ReadVarint16 dest.toInt d with
    | (o, d1, err) => (.int o, d1, err)
  | .varuint16, dest, d =>
    match Varuint16.UnmarshalBinary extText Decoder.ReadUvarint16 dest.nat d with
    | (o, d1, err) => (.uint o, d1, err)
  | .varuint32, dest, d =>
    match Varuint32.UnmarshalBinary extText Decoder.ReadUvarint64 dest.nat d with
    | (o, d1, err) => (.uint o, d1, err)
  | .varint32, dest, d =>
    match Varint32.UnmarshalBinary Decoder.ReadVarint32 dest.toInt d with
    | (o, d1, err) => (.int o, d1, err)
  | .jsonFloat64, dest, d =>
    match JSONFloat64.UnmarshalBinary Decoder.ReadFloat64 dest.nat d with
    | (o, d1, err) => (.uint o, d1, err)
  | .int64, dest, d =>
    match Int64.UnmarshalBinary Decoder.ReadInt64 dest.toInt d with
    | (o, d1, err) => (.int o, d1, err)
  | .uint64, dest, d =>
    match Uint64.UnmarshalBinary Decoder.ReadUint64 dest.nat d with
    | (o, d1, err) => (.uint o, d1, err)
  | .uint128, dest, d =>
    match Uint128.UnmarshalBinary Decoder.ReadUint128 { Lo := dest.lo, Hi := dest.hi } d with
    | (o, d1, err) => (.wide o.Lo o.Hi, d1, err)
  | .int128, dest, d =>
    match Int128.UnmarshalBinary Decoder.ReadInt128 { Lo := dest.lo, Hi := dest.hi } d with
    | (o, d1, err) => (.wide o.Lo o.Hi, d1, err)
  | .float128, dest, d =>
    match Float128.UnmarshalBinary Decoder.ReadFloat128 { Lo := dest.lo, Hi := dest.hi } d with
    | (o, d1, err) => (.wide o.Lo o.Hi, d1, err)

mutual
/-- Modelled from the spec: `Decoder.Decode`, declared outside `types.go`, on a destination
of the given shape that holds `dest`.  A leaf type is handed to its own unmarshal; an array
decodes its elements in index order with no prefix; a sequence decodes an unsigned varint
count and then that many elements into a freshly sized destination; text is the string
read; a record decodes its fields in declared order; a built-in kind uses its read; any
other shape fails with `decode: unsupported type <type-name>`.  A failure ends the call at
once and what was written before it stays written. -/
def Decoder.Decode (extText : ExtError → Text) : Shape → Value → Decoder → Decoded Value
  | .leaf k, dest, d => k.Decode extText dest d
  | .array n elem, dest, d =>
    match decodeEach (Decoder.Decode extText elem) (fit n elem.zero dest.items) d with
    | (items, d1, err) => (.list items, d1, err)
  | .slice elem, dest, d =>
    match d.ReadUvarint64 with
    | (d1, _, some e) => (dest, d1, some e)
    | (d1, l, none) =>
      match decodeEach (Decoder.Decode extText elem) (List.replicate l elem.zero) d1 with
      | (items, d2, err) => (.list items, d2, err)
  | .string, dest, d =>
    match d.ReadString with
    | (d1, _, some e) => (dest, d1, some e)
    | (d1, s, none) => (.bytes s, d1, none)
  | .record fields, dest, d =>
    match Decoder.decodeFields extText fields dest.items d with
    | (items, d1, err) => (.list items, d1, err)
  | .uint w, dest, d =>
    match Decoder.readUint "uint" w d with
    | (d1, _, some e) => (dest, d1, some e)
    | (d1, v, none) => (.uint v, d1, none)
  | .int w, dest, d =>
    match Decoder.readInt "int" w d with
    | (d1, _, some e) => (dest, d1, some e)
    | (d1, v, none) => (.int v, d1, none)
  | .float w, dest, d =>
    match Decoder.readUint "float" w d with
    | (d1, _, some e) => (dest, d1, some e)
    | (d1, v, none) => (.uint v, d1, none)
  | .bool, dest, d =>
    match d.ReadBool with
    | (d1, _, some e) => (dest, d1, some e)
    | (d1, b, none) => (.bool b, d1, none)
  | .unsupported name, dest, d =>
    (dest, d, some (.errorf ("decode: unsupported type " ++ name)))
/-- Decoding the fields of a record in declared order; a field the destination does not
hold yet starts from its zero value. -/
def Decoder.decodeFields (extText : ExtError → Text) :
    List Shape → List Value → Decoder → Decoded (List Value)
  | [], _, d => ([], d, none)
  | f :: fs, vs, d =>
    match Decoder.Decode extText f (vs.headD f.zero) d with
    | (v1, d1, some e) => (v1 :: vs.tail, d1, some e)
    | (v1, d1, none) =>
      match Decoder.decodeFields extText fs vs.tail d1 with
      | (vs1, d2, err) => (v1 :: vs1, d2, err)
end

/-- Encoding the elements of an array or sequence in index order with the encoding `f` of
one element; the first failure ends the loop. -/
def encodeEach (f : Value → Encoder → Encoder × Option GoError) :
    List Value → Encoder → Encoder × Option GoError
  | [], e => (e, none)
  | v :: vs, e =>
    match f v e with
    | (e1, some err) => (e1, some err)
    | (e1, none) => encodeEach f vs e1

/-- Encoding a leaf type, by its `MarshalBinary` in `types.go`. -/
def Leaf.Encode : Leaf → Value → Encoder → Encoder × Option GoError
  | .bool, v, e => Bool.MarshalBinary Encoder.writeBool v.toBool e
  | .hexBytes, v, e => HexBytes.MarshalBinary Encoder.writeByteArray v.toBytes e
  | .varint16, v, e => Varint16.MarshalBinary Encoder.writeVarInt v.toInt e
  | .varuint16, v, e => Varuint16.MarshalBinary Encoder.writeUVarInt v.nat e
  | .varuint32, v, e => Varuint32.MarshalBinary Encoder.writeUVarInt v.nat e
  | .varint32, v, e => Varint32.MarshalBinary Encoder.writeVarInt v.toInt e
  | .jsonFloat64, v, e => JSONFloat64.MarshalBinary Encoder.writeFloat64 v.nat e
  | .int64, v, e => Int64.MarshalBinary Encoder.writeInt64 v.toInt e
  | .uint64, v, e => Uint64.MarshalBinary Encoder.writeUint64 v.nat e
  | .uint128, v, e => Uint128.MarshalBinary Encoder.writeUint128 { Lo := v.lo, Hi := v.hi } e
  | .int128, v, e => Int128.MarshalBinary Encoder.writeInt128 { Lo := v.lo, Hi := v.hi } e
  | .float128, v, e => Float128.MarshalBinary Encoder.writeUint128 { Lo := v.lo, Hi := v.hi } e

mutual
/-- Modelled from the spec: `Encoder.Encode`, declared outside `types.go`: the mirror image
of `Decoder.Decode`, with the same dispatch; a sequence writes its count before its
elements; a shape with no wire rule fails. -/
def Encoder.Encode : Shape → Value → Encoder → Encoder × Option GoError
  | .leaf k, v, e => k.Encode v e
  | .array n elem, v, e => encodeEach (Encoder.Encode elem) (fit n elem.zero v.items) e
  | .slice elem, v, e =>
    match Encoder.writeUVarInt (v.items.length : Int) e with
    | (e1, some err) => (e1, some err)
    | (e1, none) => encodeEach (Encoder.Encode elem) v.items e1
  | .string, v, e => Encoder.writeString v.toBytes e
  | .record fields, v, e => Encoder.encodeFields fields v.items e
  | .uint w, v, e => Encoder.writeUint w v.nat e
  | .int w, v, e => Encoder.writeInt w v.toInt e
  | .float w, v, e => Encoder.writeUint w v.nat e
  | .bool, v, e => Encoder.writeBool v.toBool e
  | .unsupported name, _, e => (e, some (.std (.unsupportedType name)))
/-- Encoding the fields of a record in declared order. -/
def Encoder.encodeFields : List Shape → List Value → Encoder → Encoder × Option GoError
  | [], _, e => (e, none)
  | f :: fs, vs, e =>
    match Encoder.Encode f (vs.headD f.zero) e with
    | (e1, some err) => (e1, some err)
    | (e1, none) => Encoder.encodeFields fs vs.tail e1
end

/-- A value of a leaf type: the words in the range of the type. -/
def Leaf.Holds : Leaf → Value → Prop
  | .bool, .bool _ => True
  | .hexBytes, .bytes bs => bs.length < 2 ^ 64
  | .varint16, .int n => -(2 : Int) ^ 15 ≤ n ∧ n < (2 : Int) ^ 15
  | .varuint16, .uint n => n < 2 ^ 16
  | .varuint32, .uint n => n < 2 ^ 32
  | .varint32, .int n => -(2 : Int) ^ 31 ≤ n ∧ n < (2 : Int) ^ 31
  | .jsonFloat64, .uint n => n < 2 ^ 64
  | .int64, .int n => -(2 : Int) ^ 63 ≤ n ∧ n < (2 : Int) ^ 63
  | .uint64, .uint n => n < 2 ^ 64
  | .uint128, .wide lo hi => lo < 2 ^ 64 ∧ hi < 2 ^ 64
  | .int128, .wide lo hi => lo < 2 ^ 64 ∧ hi < 2 ^ 64
  | .float128, .wide lo hi => lo < 2 ^ 64 ∧ hi < 2 ^ 64
  | _, _ => False

mutual
/-- The value `v` is a value of the shape: of the right kind, every number in the range of
its type, every length below `2^64`.  No value is of a shape with no wire rule. -/
def Shape.Holds : Shape → Value → Prop
  | .uint w, .uint n => n < 256 ^ w
  | .int w, .int n => 0 < w ∧ -((256 : Int) ^ w) ≤ 2 * n ∧ 2 * n < (256 : Int) ^ w
  | .float w, .uint n => n < 256 ^ w
  | .bool, .bool _ => True
  | .string, .bytes bs => bs.length < 2 ^ 64
  | .array n elem, .list items => items.length = n ∧ ∀ v ∈ items, Shape.Holds elem v
  | .slice elem, .list items => items.length < 2 ^ 64 ∧ ∀ v ∈ items, Shape.Holds elem v
  | .record fields, .list items => Shape.HoldAll fields items
  | .leaf k, v => k.Holds v
  | _, _ => False
/-- The values are, in order, values of the shapes. -/
def Shape.HoldAll : List Shape → List Value → Prop
  | [], [] => True
  | f :: fs, v :: vs => Shape.Holds f v ∧ Shape.HoldAll fs vs
  | _, _ => False
end

/-- Modelled from the spec: `Encode(v)` called on an encoder with an empty output: the
bytes produced and the error. -/
def Encode (sh : Shape) (v : Value) : Bytes × Option GoError :=
  match Encoder.Encode sh v { out := [] } with
  | (e, err) => (e.out, err)

/-- Modelled from the spec: `NewDecoder(buf)`: a cursor at the start of the buffer. -/
def NewDecoder (buf : Bytes) : Decoder := { data := buf, pos := 0 }

/-! ## Errors at the end of the buffer, and what is proved of a wire form -/

/-- The errors of a read that met the end of the buffer: the bounds check of a fixed-size
read, with fewer bytes available than required; the varint read; the byte-array read, with
`m` of the `n` bytes present. -/
inductive GoError.Short : GoError → Prop
  | fixed (what : Text) (required available : Nat) : available < required →
    GoError.Short (.std (.bufferTooSmall what required available))
  | varint : GoError.Short (.std (.sentinel "ErrVarIntBufferSize"))
  | bytes (n m : Nat) : m < n →
    GoError.Short (.errorf ("byte array: varlen=" ++ Nat.repr n ++ ", missing "
      ++ Nat.repr (n - m) ++ " bytes"))

/-- An error of a read that met the end of the buffer, as it is or under the label that
`HexBytes`, `Varint16`, `Varuint16` or `Varuint32` puts in front of it. -/
inductive GoError.Truncation (extText : ExtError → Text) : GoError → Prop
  | bare (e : GoError) : e.Short → GoError.Truncation extText e
  | labelled (label : Text) (e : GoError) :
    label ∈ ["hex bytes: ", "varint16: ", "varuint16: ", "varuint32: "] → e.Short →
    GoError.Truncation extText (.errorf (label ++ e.Error extText))

/-- The bytes `bs` are the wire form of `v` for the encoding `enc` and the decoding `dec`:
`enc` appends `bs` to the output; `dec` reads `v` from a cursor that stands in front of `bs`,
whatever follows, and moves the cursor past `bs`; and on a buffer that ends inside `bs`,
`dec` fails with an error of the end of the buffer and the cursor stays within the
buffer. -/
def WireAs {α : Type} (extText : ExtError → Text) (bs : Bytes)
    (enc : Encoder → Encoder × Option GoError) (dec : Decoder → Decoded α) (v : α) : Prop :=
  (∀ e : Encoder, enc e = ({ out := e.out ++ bs }, none)) ∧
  (∀ (d : Decoder) (rest : Bytes), d.data.drop d.pos = bs ++ rest →
    dec d = (v, { d with pos := d.pos + bs.length }, none)) ∧
  (∀ (d : Decoder) (j : Nat), j < bs.length → d.pos ≤ d.data.length →
    d.data.drop d.pos = bs.take j →
    ∃ (v1 : α) (d1 : Decoder) (err : GoError), dec d = (v1, d1, some err) ∧
      err.Truncation extText ∧ d1.data = d.data ∧ d1.pos ≤ d1.data.length)

/-! ## The data of `TestDecoder_BinaryStruct` -/

/-- The type `binaryTestStruct` of `decoder_test.go`, field by field. -/
def binaryTestStruct : Shape :=
  .record [.string, .int 2, .uint 2, .int 4, .uint 4, .int 8, .uint 8, .float 4, .float 8,
    .slice .string, .array 2 .string, .uint 1, .slice (.uint 1), .bool, .leaf .int64,
    .leaf .uint64, .leaf .jsonFloat64, .leaf .uint128, .leaf .int128, .leaf .float128,
    .leaf .varuint32, .leaf .varint32, .leaf .bool, .leaf .hexBytes]

/-- The bytes `TestDecoder_BinaryStruct` decodes: `hex.DecodeString` of its literal. -/
def binaryTestBytes : Bytes :=
  match hex.DecodeString (lit ("03616263b5ff630019ffffffe703000051ccffffffffffff9f8601000000"
    ++ "00003d0ab9c15c8fc2f5285c0f4002036465660337383903666f6f03626172ff05010203040501e9ff"
    ++ "ffffffffffff17000000000000001f85eb51b81e09400a0000000000000052000000000000000700"
    ++ "00000000000003000000000000000a000000000000005200000000000000e707cd0f010501020304"
    ++ "05")) with
  | .ok b => b
  | .error _ => []

/-- The values `TestDecoder_BinaryStruct` expects in the fields; the floats `-23.13` and
`3.92` and the `JSONFloat64` `3.14` as their bit patterns. -/
def binaryTestValue : Value :=
  .list [.bytes (lit "abc"), .int (-75), .uint 99, .int (-231), .uint 999, .int (-13231),
    .uint 99999, .uint 0xc1b90a3d, .uint 0x400f5c28f5c28f5c,
    .list [.bytes (lit "def"), .bytes (lit "789")],
    .list [.bytes (lit "foo"), .bytes (lit "bar")],
    .uint 0xff, .list [.uint 1, .uint 2, .uint 3, .uint 4, .uint 5], .bool true,
    .int (-23), .uint 23, .uint 0x40091eb851eb851f, .wide 10 82, .wide 7 3, .wide 10 82,
    .uint 999, .int (-999), .bool true, .bytes [1, 2, 3, 4, 5]]

/-! ## What a buffer cut short does to a read, and the offsets a read looks at -/

/-- What is proved of a read of the decoder and a buffer cut short.  When the read succeeds
on the buffer `data ++ ext` from a cursor inside `data`, it keeps the buffer and moves the
cursor forward within it; when it stopped inside `data`, it does the same on `data` alone;
when it went past the end of `data`, on `data` alone it fails with an error of the end of
the buffer and the cursor stays within `data`. -/
def CutShort {α : Type} (read : Read α) : Prop :=
  ∀ (data ext : Bytes) (pos : Nat) (v : α) (d1 : Decoder), pos ≤ data.length →
    read ⟨data ++ ext, pos⟩ = (d1, v, none) →
    d1.data = data ++ ext ∧ pos ≤ d1.pos ∧ d1.pos ≤ (data ++ ext).length ∧
    (d1.pos ≤ data.length → read ⟨data, pos⟩ = (⟨data, d1.pos⟩, v, none)) ∧
    (data.length < d1.pos →
      ∃ (v1 : α) (d2 : Decoder) (err : GoError), read ⟨data, pos⟩ = (d2, v1, some err) ∧
        err.Short ∧ d2.data = data ∧ d2.pos ≤ data.length)

/-- The same of a decoding, whose error may carry the label of a leaf type. -/
def CutSafe {α : Type} (extText : ExtError → Text) (dec : Decoder → Decoded α) : Prop :=
  ∀ (data ext : Bytes) (pos : Nat) (v : α) (d1 : Decoder), pos ≤ data.length →
    dec ⟨data ++ ext, pos⟩ = (v, d1, none) →
    d1.data = data ++ ext ∧ pos ≤ d1.pos ∧ d1.pos ≤ (data ++ ext).length ∧
    (d1.pos ≤ data.length → dec ⟨data, pos⟩ = (v, ⟨data, d1.pos⟩, none)) ∧
    (data.length < d1.pos →
      ∃ (v1 : α) (d2 : Decoder) (err : GoError), dec ⟨data, pos⟩ = (v1, d2, some err) ∧
        err.Truncation extText ∧ d2.data = data ∧ d2.pos ≤ data.length)

/-- Modelled from the spec: the offsets of the buffer a fixed-size read of `w` bytes looks
at: none when the bounds check fails, the `w` offsets from the cursor on otherwise. -/
def Decoder.readFixedOffsets (w : Nat) (d : Decoder) : List Nat :=
  if d.remaining < w then [] else List.range' d.pos w

/-- Modelled from the spec: the offsets of the buffer the varint read looks at: from the
cursor up to the last byte of the varint, or up to the last byte of the buffer when the
varint does not end in it. -/
def Decoder.ReadUvarint64Offsets (d : Decoder) : List Nat :=
  match uvarint (d.data.drop d.pos) with
  | none => List.range' d.pos d.remaining
  | some (_, n) => List.range' d.pos n

/-- Modelled from the spec: the offsets of the buffer the byte-array read looks at: those of
the varint read, then, when enough bytes remain, those of the bytes. -/
def Decoder.ReadByteArrayOffsets (d : Decoder) : List Nat :=
  d.ReadUvarint64Offsets ++
    match d.ReadUvarint64 with
    | (_, _, some _) => []
    | (d1, l, none) => if d1.remaining < l then [] else List.range' d1.pos l

/-- Modelled from the spec: the offsets of the buffer the read of a leaf type looks at. -/
def Leaf.offsets : Leaf → Decoder → List Nat
  | .bool, d => d.readFixedOffsets 1
  | .hexBytes, d => d.ReadByteArrayOffsets
  | .varint16, d => d.ReadUvarint64Offsets
  | .varuint16, d => d.ReadUvarint64Offsets
  | .varuint32, d => d.ReadUvarint64Offsets
  | .varint32, d => d.ReadUvarint64Offsets
  | .jsonFloat64, d => d.readFixedOffsets 8
  | .int64, d => d.readFixedOffsets 8
  | .uint64, d => d.readFixedOffsets 8
  | .uint128, d => d.readFixedOffsets 16
  | .int128, d => d.readFixedOffsets 16
  | .float128, d => d.readFixedOffsets 16

/-- The offsets looked at while the elements of an array or sequence are decoded one after
the other with `dec`, `off` giving the offsets of one element; nothing is read after the
first failure. -/
def offsetsEach (dec : Value → Decoder → Decoded Value) (off : Value → Decoder → List Nat) :
    List Value → Decoder → List Nat
  | [], _ => []
  | v :: vs, d =>
    off v d ++
      match dec v d with
      | (_, _, some _) => []
      | (_, d1, none) => offsetsEach dec off vs d1

mutual
/-- Modelled from the spec: the offsets of the buffer that `Decoder.Decode` looks at, read
by read in the order of the traversal. -/
def Decoder.offsets (extText : ExtError → Text) : Shape → Value → Decoder → List Nat
  | .leaf k, _, d => k.offsets d
  | .array n elem, dest, d =>
    offsetsEach (Decoder.Decode extText elem) (Decoder.offsets extText elem)
      (fit n elem.zero dest.items) d
  | .slice elem, _, d =>
    d.ReadUvarint64Offsets ++
      match d.ReadUvarint64 with
      | (_, _, some _) => []
      | (d1, l, none) =>
        offsetsEach (Decoder.Decode extText elem) (Decoder.offsets extText elem)
          (List.replicate l elem.zero) d1
  | .string, _, d => d.ReadByteArrayOffsets
  | .record fields, dest, d => Decoder.offsetsFields extText fields dest.items d
  | .uint w, _, d => d.readFixedOffsets w
  | .int w, _, d => d.readFixedOffsets w
  | .float w, _, d => d.readFixedOffsets w
  | .bool, _, d => d.readFixedOffsets 1
  | .unsupported _, _, _ => []
/-- The offsets looked at while the fields of a record are decoded. -/
def Decoder.offsetsFields (extText : ExtError → Text) :
    List Shape → List Value → Decoder → List Nat
  | [], _, _ => []
  | f :: fs, vs, d =>
    Decoder.offsets extText f (vs.headD f.zero) d ++
      match Decoder.Decode extText f (vs.headD f.zero) d with
      | (_, _, some _) => []
      | (_, d1, none) => Decoder.offsetsFields extText fs vs.tail d1
end

/-- A read of the decoder seen as a decoding: the value first, and the error passed through
`wrap`, which is the identity or the labelling of a leaf type. -/
def asDecoding {α : Type} (read : Read α) (wrap : GoError → GoError) : Decoder → Decoded α :=
  fun d =>
    match read d with
    | (d1, x, some e) => (x, d1, some (wrap e))
    | (d1, x, none) => (x, d1, none)

/-- The read looks at the buffer only at the offsets `off` gives: on another buffer of the
same length that holds the same bytes at those offsets it looks at the same offsets and
gives the same value, cursor and error. -/
def LooksAt {α : Type} (read : Read α) (off : Decoder → List Nat) : Prop :=
  ∀ (data data1 : Bytes) (pos : Nat), data.length = data1.length →
    (∀ i ∈ off ⟨data, pos⟩, data.getD i 0 = data1.getD i 0) →
    off ⟨data1, pos⟩ = off ⟨data, pos⟩ ∧
    ∃ (v : α) (p : Nat) (err : Option GoError),
      read ⟨data, pos⟩ = (⟨data, p⟩, v, err) ∧ read ⟨data1, pos⟩ = (⟨data1, p⟩, v, err)

/-- The same of a decoding. -/
def ReadsOnly {α : Type} (dec : Decoder → Decoded α) (off : Decoder → List Nat) : Prop :=
  ∀ (data data1 : Bytes) (pos : Nat), data.length = data1.length →
    (∀ i ∈ off ⟨data, pos⟩, data.getD i 0 = data1.getD i 0) →
    off ⟨data1, pos⟩ = off ⟨data, pos⟩ ∧
    ∃ (v : α) (p : Nat) (err : Option GoError),
      dec ⟨data, pos⟩ = (v, ⟨data, p⟩, err) ∧ dec ⟨data1, pos⟩ = (v, ⟨data1, p⟩, err)

/-! ## Facts about the standard-library functions -/

theorem hex_digit_value : ∀ n, n < 16 → hex.fromHexChar (hex.digit n) = some n := by
  decide

theorem hex_nibbles_join : ∀ v, v < 256 → ((v >>> 4) <<< 4 ||| v % 16) = v := by
  decide

theorem hex_high_nibble : ∀ v, v < 256 → v >>> 4 < 16 := by
  decide

/-- Decoding what `hex.EncodeToString` printed gives the bytes back. -/
theorem hex_decode_encode (bs : Bytes) (h : ∀ b ∈ bs, b < 256) :
    hex.DecodeString (hex.EncodeToString bs) = .ok bs := by
  induction bs with
  | nil => rfl
  | cons v rest ih =>
    have hv : v < 256 := h v (List.mem_cons_self _ _)
    have hrest := ih (fun b hb => h b (List.mem_cons_of_mem _ hb))
    simp only [hex.EncodeToString, hex.DecodeString,
      hex_digit_value _ (hex_high_nibble v hv), hex_digit_value _ (Nat.mod_lt v (by norm_num)),
      hrest, hex_nibbles_join v hv]

/-- A bit-wise or with a field shifted clear of the left operand is a sum. -/
theorem or_shiftLeft_eq_add (a b k : Nat) (h : a < 2 ^ k) : a ||| b <<< k = a + b * 2 ^ k := by
  rw [Nat.or_comm, Nat.shiftLeft_eq, Nat.mul_comm b, ← Nat.mul_add_lt_is_or h, Nat.add_comm]

/-- `binary.LittleEndian.Uint64` on eight bytes is their little-endian sum. -/
theorem le_uint64_eq (b0 b1 b2 b3 b4 b5 b6 b7 : Nat) (rest : Bytes)
    (h0 : b0 < 256) (h1 : b1 < 256) (h2 : b2 < 256) (h3 : b3 < 256)
    (h4 : b4 < 256) (h5 : b5 < 256) (h6 : b6 < 256) :
    binary.LittleEndian.Uint64 (b0 :: b1 :: b2 :: b3 :: b4 :: b5 :: b6 :: b7 :: rest)
      = some (b0 + b1 * 2 ^ 8 + b2 * 2 ^ 16 + b3 * 2 ^ 24 + b4 * 2 ^ 32 + b5 * 2 ^ 40
          + b6 * 2 ^ 48 + b7 * 2 ^ 56) := by
  simp only [binary.LittleEndian.Uint64]
  rw [or_shiftLeft_eq_add b0 b1 8 (by omega),
    or_shiftLeft_eq_add _ b2 16 (by omega),
    or_shiftLeft_eq_add _ b3 24 (by omega),
    or_shiftLeft_eq_add _ b4 32 (by omega),
    or_shiftLeft_eq_add _ b5 40 (by omega),
    or_shiftLeft_eq_add _ b6 48 (by omega),
    or_shiftLeft_eq_add _ b7 56 (by omega)]

/-- Reading back the eight bytes `binary.LittleEndian.PutUint64` wrote. -/
theorem le_uint64_put (v : Nat) (h : v < 2 ^ 64) :
    binary.LittleEndian.Uint64 (binary.LittleEndian.PutUint64 v) = some v := by
  unfold binary.LittleEndian.PutUint64
  rw [le_uint64_eq _ _ _ _ _ _ _ _ _ (Nat.mod_lt _ (by norm_num)) (Nat.mod_lt _ (by norm_num))
    (Nat.mod_lt _ (by norm_num)) (Nat.mod_lt _ (by norm_num)) (Nat.mod_lt _ (by norm_num))
    (Nat.mod_lt _ (by norm_num)) (Nat.mod_lt _ (by norm_num))]
  simp only [Nat.shiftRight_eq_div_pow]
  congr 1
  omega

theorem le_put_lt (v : Nat) : ∀ b ∈ binary.LittleEndian.PutUint64 v, b < 256 := by
  intro b hb
  simp only [binary.LittleEndian.PutUint64, List.mem_cons, List.mem_singleton, List.not_mem_nil,
    or_false] at hb
  rcases hb with h | h | h | h | h | h | h | h <;> (subst h; exact Nat.mod_lt _ (by norm_num))

theorem le_put_length (v : Nat) : (binary.LittleEndian.PutUint64 v).length = 8 := rfl

theorem hex_encode_length (bs : Bytes) : (hex.EncodeToString bs).length = 2 * bs.length := by
  induction bs with
  | nil => rfl
  | cons v rest ih => simp only [hex.EncodeToString, List.length_cons, ih]; omega

/-- A literal made of plain bytes decodes to those bytes. -/
theorem unquoteAux_plain (body tail : Bytes) (h : ∀ c ∈ body, plain c) :
    ∀ fuel, body.length < fuel → json.unquoteAux fuel (body ++ 34 :: tail) = some (body, tail) := by
  induction body with
  | nil =>
    intro fuel hf
    cases fuel with
    | zero => simp at hf
    | succ n => simp [json.unquoteAux]
  | cons c rest ih =>
    intro fuel hf
    cases fuel with
    | zero => simp at hf
    | succ n =>
      obtain ⟨h1, h2, h3, h4⟩ := h c (List.mem_cons_self _ _)
      have hrest := ih (fun b hb => h b (List.mem_cons_of_mem _ hb)) n
        (by simp only [List.length_cons] at hf; omega)
      simp only [List.cons_append, json.unquoteAux, h3, h4, if_false, List.append_eq, hrest,
        show ¬ c < 32 by omega, h2, if_true, List.singleton_append, List.nil_append]

theorem hex_digit_plain : ∀ n, n < 16 → plain (hex.digit n) := by
  decide

theorem hex_encode_plain (bs : Bytes) (h : ∀ b ∈ bs, b < 256) :
    ∀ c ∈ hex.EncodeToString bs, plain c := by
  induction bs with
  | nil => intro c hc; simp [hex.EncodeToString] at hc
  | cons v rest ih =>
    intro c hc
    have hv : v < 256 := h v (List.mem_cons_self _ _)
    simp only [hex.EncodeToString, List.mem_cons] at hc
    rcases hc with hc | hc | hc
    · subst hc; exact hex_digit_plain _ (hex_high_nibble v hv)
    · subst hc; exact hex_digit_plain _ (Nat.mod_lt v (by norm_num))
    · exact ih (fun b hb => h b (List.mem_cons_of_mem _ hb)) c hc

/-- A quoted run of plain bytes is a JSON string literal for those bytes. -/
theorem unmarshalString_quoted (body : Bytes) (h : ∀ c ∈ body, plain c) :
    json.UnmarshalString (34 :: (body ++ [34])) = .ok (some body) := by
  have hq := unquoteAux_plain body [] h (body.length + 1) (by omega)
  simp only [json.UnmarshalString, json.skipSpace, List.dropWhile, json.isSpace]
  simp [hq]

theorem lit_quote : lit "\"" = [34] := rfl

theorem lit_0x : lit "0x" = [48, 120] := rfl

theorem lit_0X : lit "0X" = [48, 88] := rfl

theorem lit_null : lit "null" = [110, 117, 108, 108] := rfl

/-- The string form is `0x`, the hex of the eight bytes of `Lo`, the hex of those of `Hi`. -/
theorem Uint128.String_eq (v : Uint128) :
    v.String = 48 :: 120 :: (hex.EncodeToString (binary.LittleEndian.PutUint64 v.Lo)
      ++ hex.EncodeToString (binary.LittleEndian.PutUint64 v.Hi)) := rfl

theorem Uint128.UnmarshalJSON_eq (i : Uint128) (data : Bytes) :
    i.UnmarshalJSON data =
      if data = lit "null" then .ret i none
      else
        match json.UnmarshalString data with
        | .error err => .ret i (some (.std err))
        | .ok r => i.parse (r.getD []) := by
  unfold Uint128.UnmarshalJSON Uint128.parse
  rfl

/-- Parsing the string form of `v` stores `v`. -/
theorem Uint128.parse_String (v r : Uint128) (h : v.InRange) : r.parse v.String = .ret v none := by
  obtain ⟨hlo, hhi⟩ := h
  have hA : (hex.EncodeToString (binary.LittleEndian.PutUint64 v.Lo)).length = 16 := by
    rw [hex_encode_length, le_put_length]
  have hB : (hex.EncodeToString (binary.LittleEndian.PutUint64 v.Hi)).length = 16 := by
    rw [hex_encode_length, le_put_length]
  have hlen : (hex.EncodeToString (binary.LittleEndian.PutUint64 v.Lo)
      ++ hex.EncodeToString (binary.LittleEndian.PutUint64 v.Hi)).length = 32 := by
    rw [List.length_append, hA, hB]
  have hp : strings.HasPrefix v.String (lit "0x") = true := by
    simp [strings.HasPrefix, Uint128.String_eq, lit_0x]
  have hs : sliceFrom v.String 2 = some (hex.EncodeToString (binary.LittleEndian.PutUint64 v.Lo)
      ++ hex.EncodeToString (binary.LittleEndian.PutUint64 v.Hi)) := by
    simp [sliceFrom, Uint128.String_eq]
  have hto : sliceTo (hex.EncodeToString (binary.LittleEndian.PutUint64 v.Lo)
      ++ hex.EncodeToString (binary.LittleEndian.PutUint64 v.Hi)) 16
      = some (hex.EncodeToString (binary.LittleEndian.PutUint64 v.Lo)) := by
    simp only [sliceTo, hlen, List.take_left' hA]; rfl
  have hfrom : sliceFrom (hex.EncodeToString (binary.LittleEndian.PutUint64 v.Lo)
      ++ hex.EncodeToString (binary.LittleEndian.PutUint64 v.Hi)) 16
      = some (hex.EncodeToString (binary.LittleEndian.PutUint64 v.Hi)) := by
    simp only [sliceFrom, hlen, List.drop_left' hA]; rfl
  simp only [Uint128.parse, hp, hs, hlen, hto, hfrom, hex_decode_encode _ (le_put_lt _),
    le_uint64_put _ hlo, le_uint64_put _ hhi]
  rfl

/-- C1: for every `Uint128` value `v` with both words in the range of `uint64`,
`Uint128.MarshalJSON` returns no error, and `Uint128.UnmarshalJSON` applied to the bytes it
returned succeeds and leaves the receiver equal to `v` (same `Lo`, same `Hi`), whatever the
receiver `r` held before. -/
theorem Uint128_json_roundtrip (v r : Uint128) (h : v.InRange) :
    (Uint128.MarshalJSON v).2 = none ∧
      Uint128.UnmarshalJSON r (Uint128.MarshalJSON v).1 = .ret v none := by
  refine ⟨rfl, ?_⟩
  have hplain : ∀ c ∈ v.String, plain c := by
    intro c hc
    rw [Uint128.String_eq] at hc
    simp only [List.mem_cons, List.mem_append] at hc
    rcases hc with hc | hc | hc | hc
    · subst hc; decide
    · subst hc; decide
    · exact hex_encode_plain _ (le_put_lt _) c hc
    · exact hex_encode_plain _ (le_put_lt _) c hc
  have hj := unmarshalString_quoted v.String hplain
  have hdata : (Uint128.MarshalJSON v).1 = 34 :: (v.String ++ [34]) := by
    simp [Uint128.MarshalJSON, lit_quote]
  rw [Uint128.UnmarshalJSON_eq, hdata, hj]
  simp only [lit_null, List.cons.injEq, Nat.reduceEqDiff, false_and, if_false, Option.getD_some]
  exact Uint128.parse_String v r h

/-- C1 at `{Lo: 10, Hi: 82}` with a receiver that held `{Lo: 1, Hi: 1}`. -/
theorem Uint128_json_roundtrip_witness :
    Uint128.InRange ⟨10, 82⟩ ∧ (Uint128.MarshalJSON ⟨10, 82⟩).2 = none ∧
      Uint128.UnmarshalJSON ⟨1, 1⟩ (Uint128.MarshalJSON ⟨10, 82⟩).1 = .ret ⟨10, 82⟩ none :=
  ⟨by unfold Uint128.InRange; decide,
    Uint128_json_roundtrip ⟨10, 82⟩ ⟨1, 1⟩ (by unfold Uint128.InRange; decide)⟩

theorem hex_digit_lower : ∀ n, n < 16 → hex.digit n = lowerHexChar n ∧ isLowerHex (lowerHexChar n) := by
  decide

theorem hexPairs_cons (b : Nat) (bs : Bytes) :
    hexPairs (b :: bs) = lowerHexChar (b / 16) :: lowerHexChar (b % 16) :: hexPairs bs := by
  simp [hexPairs]

/-- The hex printer writes two lowercase digits per byte. -/
theorem hex_encode_eq_pairs (bs : Bytes) (h : ∀ b ∈ bs, b < 256) :
    hex.EncodeToString bs = hexPairs bs := by
  induction bs with
  | nil => rfl
  | cons v rest ih =>
    have hv : v < 256 := h v (List.mem_cons_self _ _)
    rw [hexPairs_cons, hex.EncodeToString, ih (fun b hb => h b (List.mem_cons_of_mem _ hb)),
      (hex_digit_lower _ (hex_high_nibble v hv)).1,
      (hex_digit_lower _ (Nat.mod_lt v (by norm_num))).1, Nat.shiftRight_eq_div_pow]

theorem hexPairs_lower (bs : Bytes) (h : ∀ b ∈ bs, b < 256) :
    ∀ c ∈ hexPairs bs, isLowerHex c := by
  induction bs with
  | nil => intro c hc; simp [hexPairs] at hc
  | cons v rest ih =>
    intro c hc
    have hv : v < 256 := h v (List.mem_cons_self _ _)
    rw [hexPairs_cons] at hc
    simp only [List.mem_cons] at hc
    rcases hc with hc | hc | hc
    · subst hc; exact (hex_digit_lower _ (by omega)).2
    · subst hc; exact (hex_digit_lower _ (Nat.mod_lt v (by norm_num))).2
    · exact ih (fun b hb => h b (List.mem_cons_of_mem _ hb)) c hc

theorem le_put_eq_leBytes (x : Nat) : binary.LittleEndian.PutUint64 x = leBytes x := by
  simp only [binary.LittleEndian.PutUint64, leBytes, byteAt, Nat.shiftRight_eq_div_pow,
    List.range, List.range.loop, List.map]
  norm_num

theorem hexPairs_length (bs : Bytes) : (hexPairs bs).length = 2 * bs.length := by
  induction bs with
  | nil => rfl
  | cons v rest ih => rw [hexPairs_cons]; simp only [List.length_cons, ih]; omega

/-- C2: for every `Uint128` value `v`, `Uint128.String(v)` is the prefix `0x` followed by two
lowercase hexadecimal digits per byte (high nibble first) for the eight bytes of `Lo`, least
significant byte first, and then for the eight bytes of `Hi`, least significant byte first;
it is exactly 34 characters long, every character after the prefix is a lowercase
hexadecimal digit, and `{Lo: 10, Hi: 82}` renders as `0x0a000000000000005200000000000000`. -/
theorem Uint128_String_format (v : Uint128) :
    v.String = lit "0x" ++ hexPairs (leBytes v.Lo) ++ hexPairs (leBytes v.Hi) ∧
    v.String.length = 34 ∧
    v.String.take 2 = lit "0x" ∧
    (v.String.drop 2).length = 32 ∧
    (∀ c ∈ v.String.drop 2, isLowerHex c) ∧
    Uint128.String ⟨10, 82⟩ = lit "0x0a000000000000005200000000000000" := by
  have hlo : ∀ b ∈ leBytes v.Lo, b < 256 := by
    rw [← le_put_eq_leBytes]; exact le_put_lt _
  have hhi : ∀ b ∈ leBytes v.Hi, b < 256 := by
    rw [← le_put_eq_leBytes]; exact le_put_lt _
  have hll : (leBytes v.Lo).length = 8 := by simp [leBytes]
  have hlh : (leBytes v.Hi).length = 8 := by simp [leBytes]
  have heq : v.String = 48 :: 120 :: (hexPairs (leBytes v.Lo) ++ hexPairs (leBytes v.Hi)) := by
    rw [Uint128.String_eq, hex_encode_eq_pairs _ (le_put_lt _),
      hex_encode_eq_pairs _ (le_put_lt _), le_put_eq_leBytes, le_put_eq_leBytes]
  refine ⟨by rw [heq, lit_0x]; rfl, ?_, by rw [heq, lit_0x]; rfl, ?_, ?_, by decide⟩
  · rw [heq]
    simp only [List.length_cons, List.length_append, hexPairs_length, hll, hlh]
  · rw [heq]
    simp only [List.drop_succ_cons, List.drop_zero, List.length_append, hexPairs_length, hll, hlh]
  · intro c hc
    rw [heq] at hc
    simp only [List.drop_succ_cons, List.drop_zero, List.mem_append] at hc
    rcases hc with hc | hc
    · exact hexPairs_lower _ hlo c hc
    · exact hexPairs_lower _ hhi c hc

/-! ## The parser of `Uint128.UnmarshalJSON` -/

theorem fromHexChar_of_hex (c : Nat) (h : isHexDigit c) :
    ∃ a, hex.fromHexChar c = some a ∧ a < 16 := by
  unfold isHexDigit at h
  unfold hex.fromHexChar
  rcases h with h | h | h
  · exact ⟨c - 48, by rw [if_pos h], by omega⟩
  · exact ⟨c - 97 + 10, by rw [if_neg (by omega), if_pos h], by omega⟩
  · exact ⟨c - 65 + 10, by rw [if_neg (by omega), if_neg (by omega), if_pos h], by omega⟩

theorem fromHexChar_of_not_hex (c : Nat) (h : ¬ isHexDigit c) : hex.fromHexChar c = none := by
  unfold isHexDigit at h
  unfold hex.fromHexChar
  rw [if_neg (by omega), if_neg (by omega), if_neg (by omega)]

theorem nibbles_lt : ∀ a, a < 16 → ∀ b, b < 16 → (a <<< 4 ||| b) < 256 := by
  decide

/-- On an even number of hexadecimal digits `hex.DecodeString` succeeds with half as many
bytes. -/
theorem hex_decode_ok : ∀ l : Bytes, (∀ c ∈ l, isHexDigit c) → l.length % 2 = 0 →
    ∃ out, hex.DecodeString l = .ok out ∧ 2 * out.length = l.length ∧ ∀ b ∈ out, b < 256
  | [], _, _ => ⟨[], rfl, rfl, by simp⟩
  | [p], _, hlen => by simp at hlen
  | p :: q :: rest, h, hlen => by
    obtain ⟨a, ha, ha16⟩ := fromHexChar_of_hex p (h p (by simp))
    obtain ⟨b, hb, hb16⟩ := fromHexChar_of_hex q (h q (by simp))
    obtain ⟨out, hout, hl, hlt⟩ := hex_decode_ok rest
      (fun c hc => h c (by simp [hc])) (by simp only [List.length_cons] at hlen; omega)
    refine ⟨(a <<< 4 ||| b) :: out, by simp only [hex.DecodeString, ha, hb, hout], ?_, ?_⟩
    · simp only [List.length_cons]; omega
    · intro x hx
      rcases List.mem_cons.mp hx with hx | hx
      · subst hx; exact nibbles_lt a ha16 b hb16
      · exact hlt x hx

/-- With a byte that is no hexadecimal digit `hex.DecodeString` fails. -/
theorem hex_decode_bad : ∀ l : Bytes, (∃ c ∈ l, ¬ isHexDigit c) →
    ∃ e, hex.DecodeString l = .error e
  | [], h => by obtain ⟨c, hc, _⟩ := h; simp at hc
  | [p], h => by
    obtain ⟨c, hc, hn⟩ := h
    have hcp : c = p := by simpa using hc
    subst hcp
    exact ⟨.hexInvalidByte c, by simp only [hex.DecodeString, fromHexChar_of_not_hex c hn]⟩
  | p :: q :: rest, h => by
    by_cases hp : isHexDigit p
    · obtain ⟨a, ha, _⟩ := fromHexChar_of_hex p hp
      by_cases hq : isHexDigit q
      · obtain ⟨b, hb, _⟩ := fromHexChar_of_hex q hq
        have hrest : ∃ c ∈ rest, ¬ isHexDigit c := by
          obtain ⟨c, hc, hn⟩ := h
          simp only [List.mem_cons] at hc
          rcases hc with hc | hc | hc
          · subst hc; exact absurd hp hn
          · subst hc; exact absurd hq hn
          · exact ⟨c, hc, hn⟩
        obtain ⟨e, he⟩ := hex_decode_bad rest hrest
        exact ⟨e, by simp only [hex.DecodeString, ha, hb, he]⟩
      · exact ⟨.hexInvalidByte q,
          by simp only [hex.DecodeString, ha, fromHexChar_of_not_hex q hq]⟩
    · exact ⟨.hexInvalidByte p, by simp only [hex.DecodeString, fromHexChar_of_not_hex p hp]⟩

theorem hasPrefix_iff (s p : Bytes) : strings.HasPrefix s p = true ↔ p <+: s := by
  unfold strings.HasPrefix
  rw [List.prefix_iff_eq_take]
  simp only [Bool.and_eq_true, decide_eq_true_eq, beq_iff_eq]
  constructor
  · rintro ⟨_, h⟩; exact h.symm
  · intro h
    refine ⟨?_, h.symm⟩
    have := congrArg List.length h
    rw [List.length_take] at this
    omega

/-- A list of eight bytes or more can be read as a `uint64`. -/
theorem le_uint64_some (l : Bytes) (h : 8 ≤ l.length) : ∃ x, binary.LittleEndian.Uint64 l = some x := by
  match l, h with
  | b0 :: b1 :: b2 :: b3 :: b4 :: b5 :: b6 :: b7 :: _, _ => exact ⟨_, rfl⟩

/-- The four ways `Uint128.parse` ends. -/
theorem Uint128.parse_cases (i : Uint128) (s : Bytes) :
    (¬ (lit "0x" <+: s ∨ lit "0X" <+: s) →
      i.parse s = .ret i (some (.errorf "int128 expects 0x prefix"))) ∧
    ((lit "0x" <+: s ∨ lit "0X" <+: s) → (s.drop 2).length ≠ 32 →
      i.parse s = .ret i (some (.errorf ("int128 expects 32 characters after 0x, had "
        ++ Nat.repr (s.drop 2).length)))) ∧
    ((lit "0x" <+: s ∨ lit "0X" <+: s) → (s.drop 2).length = 32 →
      (∀ c ∈ s.drop 2, isHexDigit c) → ∃ v, i.parse s = .ret v none) ∧
    ((lit "0x" <+: s ∨ lit "0X" <+: s) → (s.drop 2).length = 32 →
      ¬ (∀ c ∈ s.drop 2, isHexDigit c) → ∃ e, i.parse s = .ret i (some (.std e))) := by
  have hcond : (!strings.HasPrefix s (lit "0x") && !strings.HasPrefix s (lit "0X")) = true
      ↔ ¬ (lit "0x" <+: s ∨ lit "0X" <+: s) := by
    rw [← hasPrefix_iff, ← hasPrefix_iff]
    cases strings.HasPrefix s (lit "0x") <;> cases strings.HasPrefix s (lit "0X") <;> simp
  have hslice : (lit "0x" <+: s ∨ lit "0X" <+: s) → sliceFrom s 2 = some (s.drop 2) := by
    intro hp
    have h2 : 2 ≤ s.length := by
      rcases hp with hp | hp <;> exact hp.length_le
    simp only [sliceFrom, h2, if_true]
  have hto : (s.drop 2).length = 32 → sliceTo (s.drop 2) 16 = some ((s.drop 2).take 16) := by
    intro hlen
    simp only [sliceTo, hlen, Nat.reduceLeDiff, if_true]
  have hfrom : (s.drop 2).length = 32 → sliceFrom (s.drop 2) 16 = some ((s.drop 2).drop 16) := by
    intro hlen
    simp only [sliceFrom, hlen, Nat.reduceLeDiff, if_true]
  refine ⟨?_, ?_, ?_, ?_⟩
  · intro hp
    unfold Uint128.parse
    rw [if_pos (hcond.mpr hp)]
  · intro hp hlen
    unfold Uint128.parse
    rw [if_neg (fun hc => hcond.mp hc hp)]
    simp only [hslice hp, hlen, ne_eq, not_false_eq_true, if_true]
  · intro hp hlen hall
    have hlo := hex_decode_ok ((s.drop 2).take 16)
      (fun c hc => hall c (List.mem_of_mem_take hc)) (by rw [List.length_take, hlen]; rfl)
    have hhi := hex_decode_ok ((s.drop 2).drop 16)
      (fun c hc => hall c (List.mem_of_mem_drop hc)) (by rw [List.length_drop, hlen])
    obtain ⟨lo, hlo1, hlo2, _⟩ := hlo
    obtain ⟨hi, hhi1, hhi2, _⟩ := hhi
    rw [List.length_take, hlen] at hlo2
    rw [List.length_drop, hlen] at hhi2
    obtain ⟨x, hx⟩ := le_uint64_some lo (by omega)
    obtain ⟨y, hy⟩ := le_uint64_some hi (by omega)
    refine ⟨{ Lo := x, Hi := y }, ?_⟩
    unfold Uint128.parse
    rw [if_neg (fun hc => hcond.mp hc hp)]
    simp only [hslice hp, hlen, ne_eq, not_true_eq_false, if_false, hto hlen, hfrom hlen,
      hlo1, hhi1, hx, hy]
  · intro hp hlen hnot
    unfold Uint128.parse
    rw [if_neg (fun hc => hcond.mp hc hp)]
    simp only [hslice hp, hlen, ne_eq, not_true_eq_false, if_false, hto hlen, hfrom hlen]
    by_cases hfirst : ∀ c ∈ (s.drop 2).take 16, isHexDigit c
    · obtain ⟨lo, hlo1, _, _⟩ := hex_decode_ok ((s.drop 2).take 16) hfirst
        (by rw [List.length_take, hlen]; rfl)
      have hsecond : ∃ c ∈ (s.drop 2).drop 16, ¬ isHexDigit c := by
        by_contra hcon
        push_neg at hcon
        apply hnot
        intro c hc
        rw [← List.take_append_drop 16 (s.drop 2)] at hc
        rcases List.mem_append.mp hc with hc | hc
        · exact hfirst c hc
        · exact hcon c hc
      obtain ⟨e, he⟩ := hex_decode_bad _ hsecond
      exact ⟨e, by simp only [hlo1, he]⟩
    · push_neg at hfirst
      obtain ⟨e, he⟩ := hex_decode_bad _ hfirst
      exact ⟨e, by simp only [he]⟩

theorem Uint128.parse_no_panic (i : Uint128) (s : Bytes) : i.parse s ≠ .panic := by
  obtain ⟨h1, h2, h3, h4⟩ := Uint128.parse_cases i s
  by_cases hp : lit "0x" <+: s ∨ lit "0X" <+: s
  · by_cases hlen : (s.drop 2).length = 32
    · by_cases hall : ∀ c ∈ s.drop 2, isHexDigit c
      · obtain ⟨v, hv⟩ := h3 hp hlen hall
        rw [hv]; exact fun h => Outcome.noConfusion h
      · obtain ⟨e, he⟩ := h4 hp hlen hall
        rw [he]; exact fun h => Outcome.noConfusion h
    · rw [h2 hp hlen]; exact fun h => Outcome.noConfusion h
  · rw [h1 hp]; exact fun h => Outcome.noConfusion h

/-- C3: `Uint128.UnmarshalJSON` never panics (no index or slice out of range), and for every
input other than `null` that is a JSON string `s`, of any length: it fails with
"int128 expects 0x prefix" when `s` begins with neither `0x` nor `0X`; it fails with
"int128 expects 32 characters after 0x, had n" when the prefix is there and the rest of `s`
has byte length `n` other than 32; and otherwise it succeeds if and only if all 32 bytes
after the prefix are hexadecimal digits, returning an error when they are not. -/
theorem Uint128_UnmarshalJSON_cases (i : Uint128) (data : Bytes) :
    i.UnmarshalJSON data ≠ .panic ∧
    ∀ s, data ≠ lit "null" → json.UnmarshalString data = .ok (some s) →
      (¬ (lit "0x" <+: s ∨ lit "0X" <+: s) →
        i.UnmarshalJSON data = .ret i (some (.errorf "int128 expects 0x prefix"))) ∧
      ((lit "0x" <+: s ∨ lit "0X" <+: s) → (s.drop 2).length ≠ 32 →
        i.UnmarshalJSON data = .ret i (some (.errorf
          ("int128 expects 32 characters after 0x, had " ++ Nat.repr (s.drop 2).length)))) ∧
      ((lit "0x" <+: s ∨ lit "0X" <+: s) → (s.drop 2).length = 32 →
        ((∃ v, i.UnmarshalJSON data = .ret v none) ↔ ∀ c ∈ s.drop 2, isHexDigit c) ∧
        (¬ (∀ c ∈ s.drop 2, isHexDigit c) → ∃ e, i.UnmarshalJSON data = .ret i (some e))) := by
  constructor
  · rw [Uint128.UnmarshalJSON_eq]
    split
    · exact fun h => Outcome.noConfusion h
    · split
      · exact fun h => Outcome.noConfusion h
      · exact Uint128.parse_no_panic i _
  · intro s hnull hs
    have heq : i.UnmarshalJSON data = i.parse s := by
      rw [Uint128.UnmarshalJSON_eq, if_neg hnull, hs]
      rfl
    rw [heq]
    obtain ⟨h1, h2, h3, h4⟩ := Uint128.parse_cases i s
    refine ⟨h1, h2, fun hp hlen => ⟨⟨?_, h3 hp hlen⟩, ?_⟩⟩
    · rintro ⟨v, hv⟩
      by_contra hall
      obtain ⟨e, he⟩ := h4 hp hlen hall
      rw [he] at hv
      injection hv with _ hne
      exact Option.noConfusion hne
    · intro hall
      obtain ⟨e, he⟩ := h4 hp hlen hall
      exact ⟨.std e, he⟩

/-- C3 on three inputs: the one-character string `0`, the string `0x12`, and a string with
the prefix `0X` and 32 hexadecimal digits. -/
theorem Uint128_UnmarshalJSON_cases_witness :
    Uint128.UnmarshalJSON ⟨1, 1⟩ (lit "\"0\"")
      = .ret ⟨1, 1⟩ (some (.errorf "int128 expects 0x prefix")) ∧
    Uint128.UnmarshalJSON ⟨1, 1⟩ (lit "\"0x12\"")
      = .ret ⟨1, 1⟩ (some (.errorf ("int128 expects 32 characters after 0x, had "
          ++ Nat.repr ((lit "0x12").drop 2).length))) ∧
    ((∃ v, Uint128.UnmarshalJSON ⟨1, 1⟩ (lit "\"0XFF00000000000000000000000000000a\"")
        = .ret v none) ↔
      ∀ c ∈ (lit "0XFF00000000000000000000000000000a").drop 2, isHexDigit c) :=
  ⟨((Uint128_UnmarshalJSON_cases ⟨1, 1⟩ (lit "\"0\"")).2 (lit "0")
      (by decide) (by decide)).1 (by decide),
   ((Uint128_UnmarshalJSON_cases ⟨1, 1⟩ (lit "\"0x12\"")).2 (lit "0x12")
      (by decide) (by decide)).2.1 (by decide) (by decide),
   (((Uint128_UnmarshalJSON_cases ⟨1, 1⟩ (lit "\"0XFF00000000000000000000000000000a\"")).2
      (lit "0XFF00000000000000000000000000000a")
      (by decide) (by decide)).2.2 (by decide) (by decide)).1⟩

/-! ## From the parsed value back to the string -/

theorem nibbles_split : ∀ a, a < 16 → ∀ b, b < 16 →
    (a <<< 4 ||| b) >>> 4 = a ∧ (a <<< 4 ||| b) % 16 = b := by
  decide

theorem digit_fromHexChar_table : ∀ c, c < 128 →
    (hex.fromHexChar c).all (fun a => decide (a < 16 ∧ hex.digit a = toLowerByte c)) = true := by
  decide

theorem digit_fromHexChar_aux (c : Nat) (hc : c < 128) (a : Nat)
    (ha : hex.fromHexChar c = some a) : a < 16 ∧ hex.digit a = toLowerByte c := by
  have key := digit_fromHexChar_table c hc
  rw [ha] at key
  simpa using key

/-- The digit printed for the value of a hexadecimal digit is that digit in lower case. -/
theorem digit_fromHexChar (c a : Nat) (h : hex.fromHexChar c = some a) :
    a < 16 ∧ hex.digit a = toLowerByte c := by
  by_cases hc : c < 128
  · exact digit_fromHexChar_aux c hc a h
  · unfold hex.fromHexChar at h
    split_ifs at h <;> omega

/-- Printing what `hex.DecodeString` decoded gives the input in lower case. -/
theorem hex_encode_decode : ∀ (l out : Bytes), hex.DecodeString l = .ok out →
    hex.EncodeToString out = l.map toLowerByte ∧ 2 * out.length = l.length ∧ ∀ b ∈ out, b < 256
  | [], out, h => by
    simp only [hex.DecodeString, Except.ok.injEq] at h
    subst h
    exact ⟨rfl, rfl, by simp⟩
  | [p], out, h => by
    simp only [hex.DecodeString] at h
    split at h <;> exact Except.noConfusion h
  | p :: q :: rest, out, h => by
    simp only [hex.DecodeString] at h
    split at h
    · exact Except.noConfusion h
    · rename_i a ha
      split at h
      · exact Except.noConfusion h
      · rename_i b hb
        split at h
        · exact Except.noConfusion h
        · rename_i out1 hout1
          simp only [Except.ok.injEq] at h
          subst h
          obtain ⟨ih1, ih2, ih3⟩ := hex_encode_decode rest out1 hout1
          obtain ⟨ha16, hda⟩ := digit_fromHexChar p a ha
          obtain ⟨hb16, hdb⟩ := digit_fromHexChar q b hb
          obtain ⟨hs1, hs2⟩ := nibbles_split a ha16 b hb16
          refine ⟨?_, ?_, ?_⟩
          · simp only [hex.EncodeToString, hs1, hs2, hda, hdb, ih1, List.map_cons]
          · simp only [List.length_cons]; omega
          · intro x hx
            rcases List.mem_cons.mp hx with hx | hx
            · subst hx; exact nibbles_lt a ha16 b hb16
            · exact ih3 x hx

theorem leBytesN_leVal : ∀ l : Bytes, (∀ b ∈ l, b < 256) → leBytesN l.length (leVal l) = l
  | [], _ => rfl
  | b :: bs, h => by
    have hb : b < 256 := h b (List.mem_cons_self _ _)
    have ih := leBytesN_leVal bs (fun c hc => h c (List.mem_cons_of_mem _ hc))
    have e1 : (b + 256 * leVal bs) % 256 = b := by omega
    have e2 : (b + 256 * leVal bs) / 256 = leVal bs := by omega
    simp only [List.length_cons, leVal, leBytesN, e1, e2, ih]

theorem le_put_eq_leBytesN (x : Nat) : binary.LittleEndian.PutUint64 x = leBytesN 8 x := by
  simp only [binary.LittleEndian.PutUint64, leBytesN, Nat.shiftRight_eq_div_pow,
    Nat.div_div_eq_div_mul]

/-- Writing back the `uint64` read from exactly eight bytes gives those bytes. -/
theorem le_put_uint64 (l : Bytes) (x : Nat) (hlen : l.length = 8) (hlt : ∀ b ∈ l, b < 256)
    (h : binary.LittleEndian.Uint64 l = some x) : binary.LittleEndian.PutUint64 x = l := by
  have hx : x = leVal l := by
    match l, hlen with
    | [b0, b1, b2, b3, b4, b5, b6, b7], _ =>
      rw [le_uint64_eq b0 b1 b2 b3 b4 b5 b6 b7 [] (hlt b0 (by simp)) (hlt b1 (by simp))
        (hlt b2 (by simp)) (hlt b3 (by simp)) (hlt b4 (by simp)) (hlt b5 (by simp))
        (hlt b6 (by simp))] at h
      simp only [Option.some.injEq] at h
      simp only [leVal]
      omega
  rw [hx, le_put_eq_leBytesN, ← hlen]
  exact leBytesN_leVal l hlt

/-- After a successful parse the string form of the stored value is the input in lower
case. -/
theorem Uint128.parse_ok_String (i v : Uint128) (s : Bytes) (h : i.parse s = .ret v none) :
    v.String = s.map toLowerByte := by
  obtain ⟨h1, h2, _, h4⟩ := Uint128.parse_cases i s
  have hp : lit "0x" <+: s ∨ lit "0X" <+: s := by
    by_contra hp
    rw [h1 hp] at h
    injection h with _ he
    exact Option.noConfusion he
  have hlen : (s.drop 2).length = 32 := by
    by_contra hlen
    rw [h2 hp hlen] at h
    injection h with _ he
    exact Option.noConfusion he
  have h2len : 2 ≤ s.length := by
    rcases hp with hp | hp <;> exact hp.length_le
  have hs2 : sliceFrom s 2 = some (s.drop 2) := by simp only [sliceFrom, h2len, if_true]
  have hto : sliceTo (s.drop 2) 16 = some ((s.drop 2).take 16) := by
    simp only [sliceTo, hlen, Nat.reduceLeDiff, if_true]
  have hfrom : sliceFrom (s.drop 2) 16 = some ((s.drop 2).drop 16) := by
    simp only [sliceFrom, hlen, Nat.reduceLeDiff, if_true]
  have hcond : (!strings.HasPrefix s (lit "0x") && !strings.HasPrefix s (lit "0X")) = false := by
    rcases hp with hp | hp
    · rw [(hasPrefix_iff s _).mpr hp]; rfl
    · rw [(hasPrefix_iff s _).mpr hp]; simp
  unfold Uint128.parse at h
  simp only [hcond, Bool.false_eq_true, if_false, hs2, hlen, ne_eq, not_true_eq_false, hto,
    hfrom] at h
  cases hlo : hex.DecodeString ((s.drop 2).take 16) with
  | error e => simp only [hlo, Outcome.ret.injEq, reduceCtorEq, and_false] at h
  | ok lo =>
    cases hhi : hex.DecodeString ((s.drop 2).drop 16) with
    | error e => simp only [hlo, hhi, Outcome.ret.injEq, reduceCtorEq, and_false] at h
    | ok hi =>
      obtain ⟨elo, llo, blo⟩ := hex_encode_decode _ lo hlo
      obtain ⟨ehi, lhi, bhi⟩ := hex_encode_decode _ hi hhi
      rw [List.length_take, hlen] at llo
      rw [List.length_drop, hlen] at lhi
      cases hx : binary.LittleEndian.Uint64 lo with
      | none => simp only [hlo, hhi, hx, reduceCtorEq] at h
      | some x =>
        cases hy : binary.LittleEndian.Uint64 hi with
        | none => simp only [hlo, hhi, hx, hy, reduceCtorEq] at h
        | some y =>
          simp only [hlo, hhi, hx, hy, Outcome.ret.injEq, and_true] at h
          subst h
          have hs : s.map toLowerByte = 48 :: 120 :: (s.drop 2).map toLowerByte := by
            rcases hp with hp | hp
            · obtain ⟨t, ht⟩ := hp
              rw [← ht, lit_0x]; rfl
            · obtain ⟨t, ht⟩ := hp
              rw [← ht, lit_0X]; rfl
          rw [hs, Uint128.String_eq]
          simp only
          rw [le_put_uint64 lo x (by omega) blo hx, le_put_uint64 hi y (by omega) bhi hy, elo, ehi,
            ← List.map_append, List.take_append_drop]

/-- C4 (as stated, refuted): the string `0X` followed by 32 zeros is accepted, the value
stored is `{Lo: 0, Hi: 0}`, and its string form starts with `0x`, so it differs from the
input. -/
theorem Uint128_parse_not_exact_inverse :
    lit "\"0X00000000000000000000000000000000\"" ≠ lit "null" ∧
    json.UnmarshalString (lit "\"0X00000000000000000000000000000000\"")
      = .ok (some (lit "0X00000000000000000000000000000000")) ∧
    Uint128.UnmarshalJSON ⟨7, 7⟩ (lit "\"0X00000000000000000000000000000000\"")
      = .ret ⟨0, 0⟩ none ∧
    Uint128.String ⟨0, 0⟩ ≠ lit "0X00000000000000000000000000000000" := by
  decide

/-- C4 (amended): for every JSON string `s` other than `null` that `Uint128.UnmarshalJSON`
accepts, `Uint128.String` of the stored value is `s` with its ASCII letters in lower case;
it is `s` itself whenever `s` holds no upper-case letter. -/
theorem Uint128_String_of_parsed (i v : Uint128) (data s : Bytes)
    (hnull : data ≠ lit "null") (hs : json.UnmarshalString data = .ok (some s))
    (hok : i.UnmarshalJSON data = .ret v none) :
    v.String = s.map toLowerByte ∧ ((∀ c ∈ s, ¬ (65 ≤ c ∧ c ≤ 90)) → v.String = s) := by
  have heq : i.UnmarshalJSON data = i.parse s := by
    rw [Uint128.UnmarshalJSON_eq, if_neg hnull, hs]
    rfl
  rw [heq] at hok
  have hmain := Uint128.parse_ok_String i v s hok
  refine ⟨hmain, fun hlow => ?_⟩
  rw [hmain]
  conv_rhs => rw [← List.map_id s]
  apply List.map_congr_left
  intro c hc
  simp only [toLowerByte, if_neg (hlow c hc), id]

/-- C4 (amended) on the string `0XaB` followed by 30 zeros. -/
theorem Uint128_String_of_parsed_witness :
    Uint128.String ⟨171, 0⟩ = (lit "0XaB000000000000000000000000000000").map toLowerByte ∧
    ((∀ c ∈ lit "0XaB000000000000000000000000000000", ¬ (65 ≤ c ∧ c ≤ 90)) →
      Uint128.String ⟨171, 0⟩ = lit "0XaB000000000000000000000000000000") :=
  Uint128_String_of_parsed ⟨7, 7⟩ ⟨171, 0⟩ (lit "\"0XaB000000000000000000000000000000\"")
    (lit "0XaB000000000000000000000000000000") (by decide) (by decide) (by decide)

/-! ## `math/big`: the integer views -/

theorem foldl_shift (l : Bytes) : ∀ a : Nat,
    l.foldl (fun acc b => acc * 256 + b) a
      = a * 256 ^ l.length + l.foldl (fun acc b => acc * 256 + b) 0 := by
  induction l with
  | nil => intro a; simp
  | cons b rest ih =>
    intro a
    simp only [List.foldl_cons, List.length_cons]
    rw [ih (a * 256 + b), ih (0 * 256 + b)]
    ring

theorem setBytes_cons (b : Nat) (l : Bytes) :
    big.SetBytes (b :: l) = b * 256 ^ l.length + big.SetBytes l := by
  unfold big.SetBytes
  rw [List.foldl_cons, foldl_shift]
  simp

theorem setBytes_append (l1 l2 : Bytes) :
    big.SetBytes (l1 ++ l2) = big.SetBytes l1 * 256 ^ l2.length + big.SetBytes l2 := by
  unfold big.SetBytes
  rw [List.foldl_append, foldl_shift]

/-- The big-endian bytes of a `uint64` read back as an integer. -/
theorem setBytes_be_put (v : Nat) : big.SetBytes (binary.BigEndian.PutUint64 v) = v % 2 ^ 64 := by
  simp only [big.SetBytes, binary.BigEndian.PutUint64, List.foldl_cons, List.foldl_nil,
    Nat.shiftRight_eq_div_pow]
  omega

theorem be_put_length (v : Nat) : (binary.BigEndian.PutUint64 v).length = 8 := rfl

theorem be_put_lt (v : Nat) : ∀ b ∈ binary.BigEndian.PutUint64 v, b < 256 := by
  intro b hb
  simp only [binary.BigEndian.PutUint64, List.mem_cons, List.mem_singleton, List.not_mem_nil,
    or_false] at hb
  rcases hb with h | h | h | h | h | h | h | h <;> (subst h; exact Nat.mod_lt _ (by norm_num))

theorem setBytes_bytesAux : ∀ (fuel n : Nat) (acc : Bytes), n ≤ fuel →
    big.SetBytes (big.bytesAux fuel n acc) = n * 256 ^ acc.length + big.SetBytes acc := by
  intro fuel
  induction fuel with
  | zero =>
    intro n acc hn
    have : n = 0 := by omega
    subst this
    simp [big.bytesAux]
  | succ k ih =>
    intro n acc hn
    unfold big.bytesAux
    by_cases h0 : n = 0
    · subst h0; simp
    · rw [if_neg h0, ih (n / 256) (n % 256 :: acc) (by omega), setBytes_cons, List.length_cons,
        pow_succ]
      have hdm := Nat.div_add_mod n 256
      calc n / 256 * (256 ^ acc.length * 256) + (n % 256 * 256 ^ acc.length + big.SetBytes acc)
          = (256 * (n / 256) + n % 256) * 256 ^ acc.length + big.SetBytes acc := by ring
        _ = n * 256 ^ acc.length + big.SetBytes acc := by rw [hdm]

/-- `SetBytes` reads back what `Bytes` wrote. -/
theorem setBytes_bytes (n : Nat) : big.SetBytes (big.Bytes n) = n := by
  unfold big.Bytes
  rw [setBytes_bytesAux n n [] (Nat.le_refl n)]
  simp [big.SetBytes]

theorem xor_ff : ∀ b, b < 256 → b + (b ^^^ 0xff) = 255 := by
  decide

theorem and_80 : ∀ b, b < 256 → ((b &&& 0x80) = 0x80 ↔ 128 ≤ b) := by
  decide

/-- Inverting every byte gives the complement to the all-ones value. -/
theorem setBytes_complement (l : Bytes) (h : ∀ b ∈ l, b < 256) :
    big.SetBytes l + big.SetBytes (l.map (fun b => b ^^^ 0xff)) + 1 = 256 ^ l.length := by
  induction l with
  | nil => simp [big.SetBytes]
  | cons b rest ih =>
    have hb := xor_ff b (h b (List.mem_cons_self _ _))
    have hrest := ih (fun c hc => h c (List.mem_cons_of_mem _ hc))
    rw [List.map_cons, setBytes_cons, setBytes_cons, List.length_map, List.length_cons, pow_succ]
    have hmul : b * 256 ^ rest.length + (b ^^^ 0xff) * 256 ^ rest.length
        = 255 * 256 ^ rest.length := by
      rw [← Nat.add_mul, hb]
    omega

/-- The value of `Uint128.BigInt`. -/
theorem Uint128.BigInt_eq (i : Uint128) :
    i.BigInt = ((i.Hi % 2 ^ 64 * 2 ^ 64 + i.Lo % 2 ^ 64 : Nat) : Int) := by
  unfold Uint128.BigInt
  simp only
  rw [setBytes_append, setBytes_be_put, setBytes_be_put, be_put_length]
  norm_num

/-- C6: for every `Uint128` value `i` with both words in the range of `uint64`,
`Uint128.BigInt(i)` is the non-negative integer `Hi * 2^64 + Lo`, which lies in
`[0, 2^128)`, and `Uint128.DecimalString(i)` is the decimal text of that integer, without a
sign; `{Lo: 10, Hi: 82}` prints as `1512633014044183232522`. -/
theorem Uint128_BigInt_value (i : Uint128) (h : i.InRange) :
    i.BigInt = ((i.Hi * 2 ^ 64 + i.Lo : Nat) : Int) ∧
    0 ≤ i.BigInt ∧ i.BigInt < 2 ^ 128 ∧
    i.DecimalString = lit (Nat.repr (i.Hi * 2 ^ 64 + i.Lo)) ∧
    Uint128.DecimalString ⟨10, 82⟩ = lit "1512633014044183232522" := by
  obtain ⟨hlo, hhi⟩ := h
  have hv : i.BigInt = ((i.Hi * 2 ^ 64 + i.Lo : Nat) : Int) := by
    rw [Uint128.BigInt_eq, Nat.mod_eq_of_lt hlo, Nat.mod_eq_of_lt hhi]
  refine ⟨hv, ?_, ?_, ?_, by decide⟩
  · rw [hv]; exact Int.ofNat_nonneg _
  · rw [hv]
    have : i.Hi * 2 ^ 64 + i.Lo < 2 ^ 128 := by omega
    exact_mod_cast this
  · unfold Uint128.DecimalString decimal
    rw [hv, if_neg (by exact not_lt.mpr (Int.ofNat_nonneg _)), Int.natAbs_ofNat]

/-- C6 at `{Lo: 2^64 - 1, Hi: 2^64 - 1}`, the largest value. -/
theorem Uint128_BigInt_value_witness :
    Uint128.InRange ⟨2 ^ 64 - 1, 2 ^ 64 - 1⟩ ∧
    Uint128.BigInt ⟨2 ^ 64 - 1, 2 ^ 64 - 1⟩
      = (((2 ^ 64 - 1) * 2 ^ 64 + (2 ^ 64 - 1) : Nat) : Int) :=
  ⟨by unfold Uint128.InRange; decide,
    (Uint128_BigInt_value ⟨2 ^ 64 - 1, 2 ^ 64 - 1⟩ (by unfold Uint128.InRange; decide)).1⟩

/-- The sign test of `Int128.BigInt` looks at the top bit of `Hi`. -/
theorem Int128.sign_test (i : Int128) (hhi : i.Hi < 2 ^ 64) :
    (((binary.BigEndian.PutUint64 i.Hi ++ binary.BigEndian.PutUint64 i.Lo).headD 0 &&& 0x80)
      = 0x80) ↔ 2 ^ 63 ≤ i.Hi := by
  have hhead : (binary.BigEndian.PutUint64 i.Hi ++ binary.BigEndian.PutUint64 i.Lo).headD 0
      = i.Hi / 2 ^ 56 % 256 := by
    simp [binary.BigEndian.PutUint64, Nat.shiftRight_eq_div_pow]
  rw [hhead, and_80 _ (Nat.mod_lt _ (by norm_num))]
  omega

/-- The value of `Int128.BigInt` on a pattern with the top bit set. -/
theorem Int128.BigInt_neg (i : Int128) (h : i.InRange) (htop : 2 ^ 63 ≤ i.Hi) :
    i.BigInt = ((i.Hi * 2 ^ 64 + i.Lo : Nat) : Int) - 2 ^ 128 := by
  obtain ⟨hlo, hhi⟩ := h
  have hbuf : ∀ b ∈ binary.BigEndian.PutUint64 i.Hi ++ binary.BigEndian.PutUint64 i.Lo,
      b < 256 := by
    intro b hb
    rcases List.mem_append.mp hb with hb | hb <;> exact be_put_lt _ b hb
  have hval : big.SetBytes (binary.BigEndian.PutUint64 i.Hi ++ binary.BigEndian.PutUint64 i.Lo)
      = i.Hi * 2 ^ 64 + i.Lo := by
    rw [setBytes_append, setBytes_be_put, setBytes_be_put, be_put_length,
      Nat.mod_eq_of_lt hlo, Nat.mod_eq_of_lt hhi]
    norm_num
  have hc := setBytes_complement _ hbuf
  rw [hval, List.length_append, be_put_length, be_put_length] at hc
  unfold Int128.BigInt
  simp only
  rw [if_pos ((Int128.sign_test i hhi).mpr htop)]
  unfold twosComplement
  simp only
  rw [setBytes_bytes]
  have h256 : (256 : Nat) ^ (8 + 8) = 2 ^ 128 := by norm_num
  rw [h256] at hc
  omega

/-- The value of `Int128.BigInt` on a pattern with the top bit clear. -/
theorem Int128.BigInt_nonneg (i : Int128) (h : i.InRange) (htop : i.Hi < 2 ^ 63) :
    i.BigInt = ((i.Hi * 2 ^ 64 + i.Lo : Nat) : Int) := by
  obtain ⟨hlo, hhi⟩ := h
  unfold Int128.BigInt
  simp only
  rw [if_neg (fun hc => absurd ((Int128.sign_test i hhi).mp hc) (by omega)),
    setBytes_append, setBytes_be_put, setBytes_be_put, be_put_length,
    Nat.mod_eq_of_lt hlo, Nat.mod_eq_of_lt hhi]
  norm_num

/-- C5: for every `Int128` value `i` with both words in the range of `uint64`,
`Int128.BigInt(i)` is the two's-complement reading of the 128-bit pattern: `Hi * 2^64 + Lo`
when the top bit of `Hi` is clear and `Hi * 2^64 + Lo - 2^128` when it is set; the result
lies in `[-2^127, 2^127)`; `Int128.DecimalString(i)` is the signed decimal text of that
integer; the all-ones pattern gives `-1` and `Hi = 2^63`, `Lo = 0` gives `-2^127`. -/
theorem Int128_BigInt_value (i : Int128) (h : i.InRange) :
    (i.Hi < 2 ^ 63 → i.BigInt = ((i.Hi * 2 ^ 64 + i.Lo : Nat) : Int)) ∧
    (2 ^ 63 ≤ i.Hi → i.BigInt = ((i.Hi * 2 ^ 64 + i.Lo : Nat) : Int) - 2 ^ 128) ∧
    -(2 ^ 127) ≤ i.BigInt ∧ i.BigInt < 2 ^ 127 ∧
    i.DecimalString = decimal (if i.Hi < 2 ^ 63 then ((i.Hi * 2 ^ 64 + i.Lo : Nat) : Int)
      else ((i.Hi * 2 ^ 64 + i.Lo : Nat) : Int) - 2 ^ 128) ∧
    Int128.BigInt ⟨2 ^ 64 - 1, 2 ^ 64 - 1⟩ = -1 ∧
    Int128.DecimalString ⟨2 ^ 64 - 1, 2 ^ 64 - 1⟩ = lit "-1" ∧
    Int128.BigInt ⟨0, 2 ^ 63⟩ = -170141183460469231731687303715884105728 ∧
    Int128.DecimalString ⟨0, 2 ^ 63⟩ = lit "-170141183460469231731687303715884105728" := by
  have hpos := Int128.BigInt_nonneg i h
  have hneg := Int128.BigInt_neg i h
  obtain ⟨hlo, hhi⟩ := h
  refine ⟨hpos, hneg, ?_, ?_, ?_, by decide, by decide, by decide, by decide⟩
  · by_cases htop : i.Hi < 2 ^ 63
    · rw [hpos htop]; omega
    · rw [hneg (by omega)]; omega
  · by_cases htop : i.Hi < 2 ^ 63
    · rw [hpos htop]; omega
    · rw [hneg (by omega)]; omega
  · unfold Int128.DecimalString
    by_cases htop : i.Hi < 2 ^ 63
    · rw [hpos htop, if_pos htop]
    · rw [hneg (by omega), if_neg htop]

/-- C5 at the pattern `{Lo: 5, Hi: 2^64 - 1}`, whose top bit is set. -/
theorem Int128_BigInt_value_witness :
    Int128.InRange ⟨5, 2 ^ 64 - 1⟩ ∧
    Int128.BigInt ⟨5, 2 ^ 64 - 1⟩ = (((2 ^ 64 - 1) * 2 ^ 64 + 5 : Nat) : Int) - 2 ^ 128 :=
  ⟨by unfold Int128.InRange; decide,
    (Int128_BigInt_value ⟨5, 2 ^ 64 - 1⟩ (by unfold Int128.InRange; decide)).2.1 (by decide)⟩

/-! ## The text of `Int128` and `Float128` -/

/-- Every character of the string form is `0`, `x` or a lowercase hexadecimal digit. -/
theorem Uint128.String_chars (v : Uint128) :
    ∀ c ∈ v.String, c = 48 ∨ c = 120 ∨ isLowerHex c := by
  intro c hc
  rw [Uint128.String_eq, hex_encode_eq_pairs _ (le_put_lt _),
    hex_encode_eq_pairs _ (le_put_lt _)] at hc
  simp only [List.mem_cons, List.mem_append] at hc
  rcases hc with hc | hc | hc | hc
  · exact Or.inl hc
  · exact Or.inr (Or.inl hc)
  · exact Or.inr (Or.inr (hexPairs_lower _ (le_put_lt _) c hc))
  · exact Or.inr (Or.inr (hexPairs_lower _ (le_put_lt _) c hc))

/-- C7: the text of a 128-bit value does not depend on the sign or on the wrapper type: for
every pair `{Lo, Hi}`, `Int128.String`, `Int128.MarshalJSON` and `Float128.MarshalJSON` give
exactly what `Uint128.String` and `Uint128.MarshalJSON` give for the same pair; the text of
an `Int128` holds no minus sign, and the all-ones pattern (the value -1) is rendered as
`0xffffffffffffffffffffffffffffffff`. -/
theorem Int128_Float128_text (lo hi : Nat) :
    Int128.String ⟨lo, hi⟩ = Uint128.String ⟨lo, hi⟩ ∧
    Int128.MarshalJSON ⟨lo, hi⟩ = Uint128.MarshalJSON ⟨lo, hi⟩ ∧
    Float128.MarshalJSON ⟨lo, hi⟩ = Uint128.MarshalJSON ⟨lo, hi⟩ ∧
    (∀ c ∈ Int128.String ⟨lo, hi⟩, c ≠ 45) ∧
    (∀ c ∈ (Int128.MarshalJSON ⟨lo, hi⟩).1, c ≠ 45) ∧
    Int128.String ⟨2 ^ 64 - 1, 2 ^ 64 - 1⟩ = lit "0xffffffffffffffffffffffffffffffff" := by
  have hchar : ∀ c ∈ Uint128.String ⟨lo, hi⟩, c ≠ 45 := by
    intro c hc
    rcases Uint128.String_chars _ c hc with h | h | h
    · omega
    · omega
    · unfold isLowerHex at h; omega
  refine ⟨rfl, rfl, rfl, hchar, ?_, by decide⟩
  intro c hc
  simp only [Int128.MarshalJSON, Int128.toUint128, lit_quote, List.mem_append, List.mem_singleton]
    at hc
  rcases hc with (hc | hc) | hc
  · omega
  · exact hchar c hc
  · omega

/-! ## `Int64` and `Uint64` as JSON -/

theorem quoted_ne (d : Bytes) : ¬ (d = 34 :: (d ++ [34])) := by
  intro h
  have := congrArg List.length h
  simp only [List.length_cons, List.length_append, List.length_nil] at this
  omega

theorem Int64_MarshalJSON_quoted (i : Int) (h : 2 ^ 32 ≤ |i|) :
    Int64.MarshalJSON i = (34 :: (decimal i ++ [34]), none) := by
  have hc : i > 0xffffffff ∨ i < -0xffffffff := by
    rcases le_abs'.mp h with h | h
    · right; omega
    · left; omega
  unfold Int64.MarshalJSON
  rw [if_pos hc]
  rfl

theorem Int64_MarshalJSON_bare (i : Int) (h : |i| < 2 ^ 32) :
    Int64.MarshalJSON i = (decimal i, none) := by
  have hc : ¬ (i > 0xffffffff ∨ i < -0xffffffff) := by
    have := abs_lt.mp h
    omega
  unfold Int64.MarshalJSON
  rw [if_neg hc]
  rfl

theorem Uint64_MarshalJSON_quoted (u : Nat) (h : 2 ^ 32 ≤ u) :
    Uint64.MarshalJSON u = (34 :: (decimal u ++ [34]), none) := by
  unfold Uint64.MarshalJSON
  rw [if_pos (by omega)]
  rfl

theorem Uint64_MarshalJSON_bare (u : Nat) (h : u < 2 ^ 32) :
    Uint64.MarshalJSON u = (decimal u, none) := by
  unfold Uint64.MarshalJSON
  rw [if_neg (by omega)]
  rfl

/-- C8 (as stated, refuted): at the magnitude `2^32` itself, which is not beyond `2^32`,
`Uint64.MarshalJSON` and `Int64.MarshalJSON` already emit the quoted form. -/
theorem MarshalJSON_quotes_at_two_pow_32 :
    ¬ ((2 : Nat) ^ 32 > 2 ^ 32) ∧ ¬ (|(2 : Int) ^ 32| > 2 ^ 32) ∧ ¬ (|-(2 : Int) ^ 32| > 2 ^ 32) ∧
    Uint64.MarshalJSON (2 ^ 32) = (lit "\"4294967296\"", none) ∧
    Int64.MarshalJSON (2 ^ 32) = (lit "\"4294967296\"", none) ∧
    Int64.MarshalJSON (-(2 ^ 32)) = (lit "\"-4294967296\"", none) := by
  refine ⟨by decide, by norm_num, by norm_num, by decide, by decide, by decide⟩

/-- C8 (amended): for every `Int64` value `i` and every `Uint64` value `u`, `MarshalJSON`
returns no error and emits the decimal digits wrapped in double quotes exactly when the
magnitude is at least `2^32` (`|i| >= 2^32`, respectively `u >= 2^32`, that is above
`0xffffffff`), and emits the bare decimal number exactly when it is below `2^32`. -/
theorem MarshalJSON_quoting (i : Int) (u : Nat) :
    (Int64.MarshalJSON i).2 = none ∧ (Uint64.MarshalJSON u).2 = none ∧
    ((Int64.MarshalJSON i).1 = lit "\"" ++ decimal i ++ lit "\"" ↔ 2 ^ 32 ≤ |i|) ∧
    ((Int64.MarshalJSON i).1 = decimal i ↔ |i| < 2 ^ 32) ∧
    ((Uint64.MarshalJSON u).1 = lit "\"" ++ decimal u ++ lit "\"" ↔ 2 ^ 32 ≤ u) ∧
    ((Uint64.MarshalJSON u).1 = decimal u ↔ u < 2 ^ 32) ∧
    Int64.MarshalJSON (2 ^ 32 - 1) = (lit "4294967295", none) ∧
    Int64.MarshalJSON (-(2 ^ 63)) = (lit "\"-9223372036854775808\"", none) ∧
    Uint64.MarshalJSON (2 ^ 64 - 1) = (lit "\"18446744073709551615\"", none) := by
  have hq : ∀ d : Bytes, lit "\"" ++ d ++ lit "\"" = 34 :: (d ++ [34]) := fun d => rfl
  refine ⟨?_, ?_, ?_, ?_, ?_, ?_, by decide, by decide, by decide⟩
  · by_cases h : 2 ^ 32 ≤ |i|
    · rw [Int64_MarshalJSON_quoted i h]
    · rw [Int64_MarshalJSON_bare i (not_le.mp h)]
  · by_cases h : 2 ^ 32 ≤ u
    · rw [Uint64_MarshalJSON_quoted u h]
    · rw [Uint64_MarshalJSON_bare u (not_le.mp h)]
  · rw [hq]
    constructor
    · intro heq
      by_contra h
      rw [Int64_MarshalJSON_bare i (not_le.mp h)] at heq
      exact quoted_ne _ heq
    · intro h; rw [Int64_MarshalJSON_quoted i h]
  · constructor
    · intro heq
      by_contra h
      rw [Int64_MarshalJSON_quoted i (not_lt.mp h)] at heq
      exact quoted_ne _ heq.symm
    · intro h; rw [Int64_MarshalJSON_bare i h]
  · rw [hq]
    constructor
    · intro heq
      by_contra h
      rw [Uint64_MarshalJSON_bare u (not_le.mp h)] at heq
      exact quoted_ne _ heq
    · intro h; rw [Uint64_MarshalJSON_quoted u h]
  · constructor
    · intro heq
      by_contra h
      rw [Uint64_MarshalJSON_quoted u (not_lt.mp h)] at heq
      exact quoted_ne _ heq.symm
    · intro h; rw [Uint64_MarshalJSON_bare u h]

/-! ## `Bool` as JSON -/

theorem isLiteral_cons (c : Nat) (w rest : Bytes) (h : json.isLiteral (c :: w) rest = true) :
    ∃ t, rest = c :: t := by
  cases rest with
  | nil => simp [json.isLiteral] at h
  | cons d t =>
    simp only [json.isLiteral, List.length_cons, List.take_succ_cons, Bool.and_eq_true,
      beq_iff_eq, List.cons.injEq] at h
    exact ⟨t, by rw [h.1.1]⟩

theorem integerLiteral_head (rest : Bytes) (n : Int) (h : json.integerLiteral rest = some n) :
    ∃ c t, rest = c :: t ∧ (c = 45 ∨ (48 ≤ c ∧ c ≤ 57)) := by
  cases rest with
  | nil => simp [json.integerLiteral] at h
  | cons c t =>
    refine ⟨c, t, rfl, ?_⟩
    by_contra hc
    push_neg at hc
    have h45 : ¬ c = 45 := hc.1
    have hd : ¬ (48 ≤ c ∧ c ≤ 57) := fun hd => absurd hd.2 (not_le.mpr (hc.2 hd.1))
    simp [json.integerLiteral, h45, hd] at h

theorem integerLiteral_not_literal (c : Nat) (w rest : Bytes) (hc : c ≠ 45)
    (hd : ¬ (48 ≤ c ∧ c ≤ 57)) (h : json.isLiteral (c :: w) rest = true) :
    json.integerLiteral rest = none := by
  obtain ⟨t, ht⟩ := isLiteral_cons c w rest h
  cases hn : json.integerLiteral rest with
  | none => rfl
  | some n =>
    obtain ⟨d, t1, hrest, hd1⟩ := integerLiteral_head rest n hn
    rw [ht] at hrest
    injection hrest with hcd _
    subst hcd
    rcases hd1 with h1 | h1
    · exact absurd h1 hc
    · exact absurd h1 hd

theorem literal_exclusive (c d : Nat) (w1 w2 rest : Bytes) (hcd : c ≠ d)
    (h : json.isLiteral (c :: w1) rest = true) : json.isLiteral (d :: w2) rest = false := by
  obtain ⟨t, ht⟩ := isLiteral_cons c w1 rest h
  cases h2 : json.isLiteral (d :: w2) rest with
  | false => rfl
  | true =>
    obtain ⟨t2, ht2⟩ := isLiteral_cons d w2 rest h2
    rw [ht] at ht2
    injection ht2 with h3 _
    exact absurd h3 hcd

theorem lit_true : lit "true" = [116, 114, 117, 101] := rfl

theorem lit_false : lit "false" = [102, 97, 108, 115, 101] := rfl

/-- C9 (as stated, refuted): the input `null` is neither an integer nor a boolean, yet
`Bool.UnmarshalJSON` succeeds on it and stores `false`; and the JSON integer `2^63`, which
is not zero, is rejected with an error instead of storing `true`. -/
theorem Bool_UnmarshalJSON_null_and_overflow :
    Bool.UnmarshalJSON (fun _ => "") true (lit "null") = (false, none) ∧
    json.integerLiteral (lit "9223372036854775808") = some 9223372036854775808 ∧
    Bool.UnmarshalJSON (fun _ => "") false (lit "9223372036854775808")
      = (false, some (.errorf "couldn't unmarshal bool as int or true/false: ")) := by
  decide

/-- C9 (amended): `Bool.UnmarshalJSON` accepts numeric input in addition to `true` and
`false`.  With white space around the value ignored: every JSON integer `n` in the range of
a 64-bit `int` stores `n != 0` (so `0` stores `false` and `1` stores `true`); the literals
`true` and `false` store their own value; the literal `null` succeeds and stores `false`;
every other input, an integer outside that range included, leaves the receiver as it was
and fails with an error whose message is "couldn't unmarshal bool as int or true/false: "
followed by the text of the JSON decoder's error. -/
theorem Bool_UnmarshalJSON_cases (extText : ExtError → Text) (b : Bool) (data : Bytes) :
    (json.isLiteral (lit "null") (json.skipSpace data) = true →
      Bool.UnmarshalJSON extText b data = (false, none)) ∧
    (∀ n : Int, json.integerLiteral (json.skipSpace data) = some n →
      -(2 : Int) ^ 63 ≤ n → n < (2 : Int) ^ 63 →
      Bool.UnmarshalJSON extText b data = (decide (n ≠ 0), none)) ∧
    (json.isLiteral (lit "true") (json.skipSpace data) = true →
      Bool.UnmarshalJSON extText b data = (true, none)) ∧
    (json.isLiteral (lit "false") (json.skipSpace data) = true →
      Bool.UnmarshalJSON extText b data = (false, none)) ∧
    (json.isLiteral (lit "null") (json.skipSpace data) = false →
      json.isLiteral (lit "true") (json.skipSpace data) = false →
      json.isLiteral (lit "false") (json.skipSpace data) = false →
      (∀ n : Int, json.integerLiteral (json.skipSpace data) = some n →
        ¬ (-(2 : Int) ^ 63 ≤ n ∧ n < (2 : Int) ^ 63)) →
      Bool.UnmarshalJSON extText b data
        = (b, some (.errorf ("couldn't unmarshal bool as int or true/false: "
            ++ extText (.json data "bool"))))) := by
  refine ⟨?_, ?_, ?_, ?_, ?_⟩
  · intro hnull
    simp only [Bool.UnmarshalJSON, json.UnmarshalInt, hnull, if_true]
    rfl
  · intro n hn hlo hhi
    have hnull : json.isLiteral (lit "null") (json.skipSpace data) = false := by
      cases hl : json.isLiteral (lit "null") (json.skipSpace data) with
      | false => rfl
      | true =>
        rw [lit_null] at hl
        rw [integerLiteral_not_literal 110 _ _ (by decide) (by decide) hl] at hn
        exact Option.noConfusion hn
    simp only [Bool.UnmarshalJSON, json.UnmarshalInt, hnull, Bool.false_eq_true, if_false, hn,
      hlo, hhi, and_self, if_true, Option.getD_some]
  · intro ht
    have ht1 := ht
    rw [lit_true] at ht1
    have hnull : json.isLiteral (lit "null") (json.skipSpace data) = false := by
      rw [lit_null]; exact literal_exclusive 116 110 _ _ _ (by decide) ht1
    have hint := integerLiteral_not_literal 116 _ _ (by decide) (by decide) ht1
    simp only [Bool.UnmarshalJSON, json.UnmarshalInt, json.UnmarshalBool, hnull,
      Bool.false_eq_true, if_false, hint, ht, if_true, Option.getD_some]
  · intro hf
    have hf1 := hf
    rw [lit_false] at hf1
    have hnull : json.isLiteral (lit "null") (json.skipSpace data) = false := by
      rw [lit_null]; exact literal_exclusive 102 110 _ _ _ (by decide) hf1
    have htrue : json.isLiteral (lit "true") (json.skipSpace data) = false := by
      rw [lit_true]; exact literal_exclusive 102 116 _ _ _ (by decide) hf1
    have hint := integerLiteral_not_literal 102 _ _ (by decide) (by decide) hf1
    simp only [Bool.UnmarshalJSON, json.UnmarshalInt, json.UnmarshalBool, hnull,
      Bool.false_eq_true, if_false, hint, htrue, hf, if_true, Option.getD_some]
  · intro hnull htrue hfalse hint
    cases hn : json.integerLiteral (json.skipSpace data) with
    | none =>
      simp only [Bool.UnmarshalJSON, json.UnmarshalInt, json.UnmarshalBool, hnull,
        Bool.false_eq_true, if_false, hn, htrue, hfalse, GoError.Error]
    | some n =>
      have hr := hint n hn
      simp only [Bool.UnmarshalJSON, json.UnmarshalInt, json.UnmarshalBool, hnull,
        Bool.false_eq_true, if_false, hn, hr, htrue, hfalse, GoError.Error]

/-- C9 (amended) on the inputs `1`, `0`, ` 2 ` and `true`, and on the string `"1"`. -/
theorem Bool_UnmarshalJSON_cases_witness :
    Bool.UnmarshalJSON (fun _ => "") false (lit "1") = (decide ((1 : Int) ≠ 0), none) ∧
    Bool.UnmarshalJSON (fun _ => "") true (lit "0") = (decide ((0 : Int) ≠ 0), none) ∧
    Bool.UnmarshalJSON (fun _ => "") false (lit " 2 ") = (decide ((2 : Int) ≠ 0), none) ∧
    Bool.UnmarshalJSON (fun _ => "") false (lit "true") = (true, none) ∧
    Bool.UnmarshalJSON (fun _ => "json: cannot unmarshal string") true (lit "\"1\"")
      = (true, some (.errorf ("couldn't unmarshal bool as int or true/false: "
          ++ "json: cannot unmarshal string"))) :=
  ⟨(Bool_UnmarshalJSON_cases (fun _ => "") false (lit "1")).2.1 1
      (by decide) (by decide) (by decide),
   (Bool_UnmarshalJSON_cases (fun _ => "") true (lit "0")).2.1 0
      (by decide) (by decide) (by decide),
   (Bool_UnmarshalJSON_cases (fun _ => "") false (lit " 2 ")).2.1 2
      (by decide) (by decide) (by decide),
   (Bool_UnmarshalJSON_cases (fun _ => "") false (lit "true")).2.2.1 (by decide),
   (Bool_UnmarshalJSON_cases (fun _ => "json: cannot unmarshal string") true
      (lit "\"1\"")).2.2.2.2 (by decide) (by decide) (by decide) (by decide)⟩

/-! ## `Varuint32` on the wire -/

/-- C10: `Varuint32.UnmarshalBinary` reads through the decoder's 64-bit unsigned varint read
and truncates: whenever `Decoder.ReadUvarint64` returns a value `v` without error, leaving
the decoder in state `d1`, the call returns no error, the destination becomes `v mod 2^32`
whatever it held before, and the decoder is left in that same state `d1`. -/
theorem Varuint32_UnmarshalBinary_truncates (extText : ExtError → Text)
    (ReadUvarint64 : Read Nat) (o v : Nat) (d d1 : Decoder)
    (h : ReadUvarint64 d = (d1, v, none)) :
    Varuint32.UnmarshalBinary extText ReadUvarint64 o d = (v % 2 ^ 32, d1, none) := by
  unfold Varuint32.UnmarshalBinary
  rw [h]

/-- C10 on the wire bytes `85 80 80 80 10`, the varint of `2^32 + 5`: the read returns
`2^32 + 5` and moves the cursor five bytes on, and the destination, which held 77, silently
becomes 5; and on the bytes `e7 07` of the decoder test, which give 999. -/
theorem Varuint32_UnmarshalBinary_truncates_witness :
    Decoder.ReadUvarint64 ⟨[0x85, 0x80, 0x80, 0x80, 0x10], 0⟩
      = (⟨[0x85, 0x80, 0x80, 0x80, 0x10], 5⟩, 2 ^ 32 + 5, none) ∧
    Varuint32.UnmarshalBinary (fun _ => "") Decoder.ReadUvarint64 77
        ⟨[0x85, 0x80, 0x80, 0x80, 0x10], 0⟩
      = (5, ⟨[0x85, 0x80, 0x80, 0x80, 0x10], 5⟩, none) ∧
    Varuint32.UnmarshalBinary (fun _ => "") Decoder.ReadUvarint64 0 ⟨[0xe7, 0x07], 0⟩
      = (999, ⟨[0xe7, 0x07], 2⟩, none) :=
  ⟨by decide,
   Varuint32_UnmarshalBinary_truncates (fun _ => "") Decoder.ReadUvarint64 77 (2 ^ 32 + 5)
     ⟨[0x85, 0x80, 0x80, 0x80, 0x10], 0⟩ ⟨[0x85, 0x80, 0x80, 0x80, 0x10], 5⟩ (by decide),
   Varuint32_UnmarshalBinary_truncates (fun _ => "") Decoder.ReadUvarint64 0 999
     ⟨[0xe7, 0x07], 0⟩ ⟨[0xe7, 0x07], 2⟩ (by decide)⟩

/-! ## Errors of the leaf types on the wire -/

theorem text_ne_prefixed (label s : Text) (h : label.length ≠ 0) : s ≠ label ++ s := by
  intro heq
  have hlen := congrArg String.length heq
  rw [String.length_append] at hlen
  omega

/-- `HexBytes.UnmarshalBinary` puts `hex bytes: ` in front of the message of a failed read. -/
theorem HexBytes_UnmarshalBinary_error (extText : ExtError → Text) (ReadByteArray : Read Bytes)
    (o v : Bytes) (d d1 : Decoder) (e : GoError) (h : ReadByteArray d = (d1, v, some e)) :
    HexBytes.UnmarshalBinary extText ReadByteArray o d
      = (o, d1, some (.errorf ("hex bytes: " ++ e.Error extText))) := by
  unfold HexBytes.UnmarshalBinary
  rw [h]

/-- `Varint16.UnmarshalBinary` puts `varint16: ` in front of the message of a failed read. -/
theorem Varint16_UnmarshalBinary_error (extText : ExtError → Text) (ReadVarint16 : Read Int)
    (o v : Int) (d d1 : Decoder) (e : GoError) (h : ReadVarint16 d = (d1, v, some e)) :
    Varint16.UnmarshalBinary extText ReadVarint16 o d
      = (o, d1, some (.errorf ("varint16: " ++ e.Error extText))) := by
  unfold Varint16.UnmarshalBinary
  rw [h]

/-- `Varuint16.UnmarshalBinary` puts `varuint16: ` in front of the message of a failed
read. -/
theorem Varuint16_UnmarshalBinary_error (extText : ExtError → Text) (ReadUvarint16 : Read Nat)
    (o v : Nat) (d d1 : Decoder) (e : GoError) (h : ReadUvarint16 d = (d1, v, some e)) :
    Varuint16.UnmarshalBinary extText ReadUvarint16 o d
      = (o, d1, some (.errorf ("varuint16: " ++ e.Error extText))) := by
  unfold Varuint16.UnmarshalBinary
  rw [h]

/-- `Varuint32.UnmarshalBinary` puts `varuint32: ` in front of the message of a failed
read. -/
theorem Varuint32_UnmarshalBinary_error (extText : ExtError → Text) (ReadUvarint64 : Read Nat)
    (o v : Nat) (d d1 : Decoder) (e : GoError) (h : ReadUvarint64 d = (d1, v, some e)) :
    Varuint32.UnmarshalBinary extText ReadUvarint64 o d
      = (o, d1, some (.errorf ("varuint32: " ++ e.Error extText))) := by
  unfold Varuint32.UnmarshalBinary
  rw [h]

/-- C11 (the code at the failing input): when the decoder's read fails with cause `e`,
`Varint32.UnmarshalBinary` returns `e` itself, and the message of `e` is not the label
`varint32`, then `: `, then the message of `e`.  The read used here fails on every call,
leaving the decoder as it is. -/
theorem Varint32_UnmarshalBinary_no_label (extText : ExtError → Text) (e : GoError)
    (o : Int) (d : Decoder) :
    Varint32.UnmarshalBinary (fun d0 => (d0, 0, some e)) o d = (o, d, some e) ∧
    e.Error extText ≠ "varint32: " ++ e.Error extText ∧
    Varint16.UnmarshalBinary extText (fun d0 => (d0, 0, some e)) o d
      = (o, d, some (.errorf ("varint16: " ++ e.Error extText))) :=
  ⟨rfl, text_ne_prefixed _ _ (by decide), rfl⟩

/-! ## `Uint128.UnmarshalJSON` leaves the receiver alone on failure -/

theorem Uint128.parse_error_recv (i r : Uint128) (s : Bytes) (e : GoError)
    (h : i.parse s = .ret r (some e)) : r = i := by
  obtain ⟨h1, h2, h3, h4⟩ := Uint128.parse_cases i s
  by_cases hp : lit "0x" <+: s ∨ lit "0X" <+: s
  · by_cases hlen : (s.drop 2).length = 32
    · by_cases hall : ∀ c ∈ s.drop 2, isHexDigit c
      · obtain ⟨v, hv⟩ := h3 hp hlen hall
        rw [hv] at h
        simp only [Outcome.ret.injEq, reduceCtorEq, and_false] at h
      · obtain ⟨e1, he1⟩ := h4 hp hlen hall
        rw [he1] at h
        simp only [Outcome.ret.injEq] at h
        exact h.1.symm
    · rw [h2 hp hlen] at h
      simp only [Outcome.ret.injEq] at h
      exact h.1.symm
  · rw [h1 hp] at h
    simp only [Outcome.ret.injEq] at h
    exact h.1.symm

theorem Uint128_UnmarshalJSON_error_recv (i r : Uint128) (data : Bytes) (e : GoError)
    (h : i.UnmarshalJSON data = .ret r (some e)) : r = i := by
  rw [Uint128.UnmarshalJSON_eq] at h
  split at h
  · simp only [Outcome.ret.injEq, reduceCtorEq, and_false] at h
  · split at h
    · simp only [Outcome.ret.injEq] at h
      exact h.1.symm
    · exact Uint128.parse_error_recv i r _ e h

/-- C18: `Uint128.UnmarshalJSON` is atomic.  Whenever it returns an error the receiver's
`Lo` and `Hi` are both what they were before the call; that covers an input that is not a
JSON string, a missing prefix, a wrong body length and a digit that is not hexadecimal in
the first or in the second half of the body, each shown on an input; and on the literal
`null` it returns no error and leaves the receiver as it was. -/
theorem Uint128_UnmarshalJSON_atomic (i : Uint128) (data : Bytes) :
    (∀ r e, i.UnmarshalJSON data = .ret r (some e) → r.Lo = i.Lo ∧ r.Hi = i.Hi) ∧
    i.UnmarshalJSON (lit "null") = .ret i none ∧
    i.UnmarshalJSON (lit "12") = .ret i (some (.std (.json (lit "12") "string"))) ∧
    i.UnmarshalJSON (lit "\"12\"") = .ret i (some (.errorf "int128 expects 0x prefix")) ∧
    i.UnmarshalJSON (lit "\"0x12\"")
      = .ret i (some (.errorf "int128 expects 32 characters after 0x, had 2")) ∧
    i.UnmarshalJSON (lit "\"0x0g000000000000000000000000000000\"")
      = .ret i (some (.std (.hexInvalidByte 103))) ∧
    i.UnmarshalJSON (lit "\"0x00000000000000000000000000000g00\"")
      = .ret i (some (.std (.hexInvalidByte 103))) := by
  refine ⟨?_, rfl, rfl, rfl, rfl, rfl, rfl⟩
  intro r e h
  rw [Uint128_UnmarshalJSON_error_recv i r data e h]
  exact ⟨rfl, rfl⟩

/-- C18 on a receiver holding `{Lo: 3, Hi: 4}` and the input `"zz"`. -/
theorem Uint128_UnmarshalJSON_atomic_witness :
    Uint128.UnmarshalJSON ⟨3, 4⟩ (lit "\"zz\"")
      = .ret ⟨3, 4⟩ (some (.errorf "int128 expects 0x prefix")) ∧
    (⟨3, 4⟩ : Uint128).Lo = 3 ∧ (⟨3, 4⟩ : Uint128).Hi = 4 :=
  ⟨by decide, (Uint128_UnmarshalJSON_atomic ⟨3, 4⟩ (lit "\"zz\"")).1 ⟨3, 4⟩
    (.errorf "int128 expects 0x prefix") (by decide)⟩

/-! ## Decimal text read back -/

theorem digitChar_toNat : ∀ m, m < 10 → (Nat.digitChar m).toNat = 48 + m := by
  decide

/-- The digits `Nat.toDigitsCore` puts in front of `ds` are read back by
`json.digitsValue` as `n`; they start with `0` only for `n = 0`. -/
theorem toDigitsCore_value : ∀ (fuel n : Nat) (ds : List Char), n < fuel →
    ∃ pre : List Char, Nat.toDigitsCore 10 fuel n ds = pre ++ ds ∧ pre ≠ [] ∧
      (∀ c ∈ pre, 48 ≤ c.toNat ∧ c.toNat ≤ 57) ∧
      (∀ acc rest, json.digitsValue acc (pre.map Char.toNat ++ rest)
        = json.digitsValue (acc * 10 ^ pre.length + n) rest) ∧
      ((pre.map Char.toNat).head? = some 48 → n = 0 ∧ pre.length = 1) := by
  intro fuel
  induction fuel with
  | zero => intro n ds h; omega
  | succ k ih =>
    intro n ds hn
    have hd := digitChar_toNat (n % 10) (Nat.mod_lt n (by norm_num))
    by_cases h0 : n / 10 = 0
    · refine ⟨[Nat.digitChar (n % 10)], ?_, by simp, ?_, ?_, ?_⟩
      · simp [Nat.toDigitsCore, h0]
      · intro c hc
        rw [List.mem_singleton] at hc
        subst hc
        rw [hd]
        have := Nat.mod_lt n (show 0 < 10 by norm_num)
        omega
      · intro acc rest
        have hlt := Nat.mod_lt n (show 0 < 10 by norm_num)
        have hn10 : n % 10 = n := by omega
        simp only [List.map_cons, List.map_nil, List.singleton_append, json.digitsValue, hd,
          List.length_singleton, pow_one]
        rw [if_pos (by omega)]
        congr 1
        omega
      · intro hh
        simp only [List.map_cons, List.map_nil, List.head?_cons, Option.some.injEq, hd] at hh
        exact ⟨by omega, rfl⟩
    · obtain ⟨pre, hpre, hne, hdig, hval, hz⟩ := ih (n / 10) (Nat.digitChar (n % 10) :: ds)
        (by omega)
      refine ⟨pre ++ [Nat.digitChar (n % 10)], ?_, by simp, ?_, ?_, ?_⟩
      · simp [Nat.toDigitsCore, h0, hpre]
      · intro c hc
        rcases List.mem_append.mp hc with hc | hc
        · exact hdig c hc
        · rw [List.mem_singleton] at hc
          subst hc
          rw [hd]
          have := Nat.mod_lt n (show 0 < 10 by norm_num)
          omega
      · intro acc rest
        have hlt := Nat.mod_lt n (show 0 < 10 by norm_num)
        rw [List.map_append, List.append_assoc, hval]
        simp only [List.map_cons, List.map_nil, List.singleton_append, json.digitsValue, hd,
          List.length_append, List.length_singleton, pow_succ]
        rw [if_pos (by omega)]
        congr 1
        have hdm := Nat.div_add_mod n 10
        have e1 : 48 + n % 10 - 48 = n % 10 := by omega
        rw [e1]
        calc (acc * 10 ^ pre.length + n / 10) * 10 + n % 10
            = acc * (10 ^ pre.length * 10) + (10 * (n / 10) + n % 10) := by ring
          _ = acc * (10 ^ pre.length * 10) + n := by rw [hdm]
      · intro hh
        exfalso
        obtain ⟨c, t, hct⟩ := List.exists_cons_of_ne_nil hne
        subst hct
        exact h0 (hz (by simpa using hh)).1

theorem lit_repr (n : Nat) : lit (Nat.repr n) = (Nat.toDigits 10 n).map Char.toNat := rfl

/-- The decimal text of a natural number: digits only, not empty, read back as the number,
with a leading `0` only for zero. -/
theorem repr_value (n : Nat) :
    lit (Nat.repr n) ≠ [] ∧
    (∀ c ∈ lit (Nat.repr n), 48 ≤ c ∧ c ≤ 57) ∧
    (∀ rest, json.digitsValue 0 (lit (Nat.repr n) ++ rest) = json.digitsValue n rest) ∧
    ((lit (Nat.repr n)).head? = some 48 → lit (Nat.repr n) = [48] ∧ n = 0) := by
  obtain ⟨pre, hpre, hne, hdig, hval, hz⟩ := toDigitsCore_value (n + 1) n [] (Nat.lt_succ_self n)
  rw [List.append_nil] at hpre
  have hl : lit (Nat.repr n) = pre.map Char.toNat := by
    rw [lit_repr, Nat.toDigits, hpre]
  rw [hl]
  refine ⟨by simpa using hne, ?_, ?_, ?_⟩
  · intro c hc
    obtain ⟨ch, hch, rfl⟩ := List.mem_map.mp hc
    exact hdig ch hch
  · intro rest
    rw [hval 0 rest]
    simp
  · intro hh
    obtain ⟨h0, h1⟩ := hz hh
    refine ⟨?_, h0⟩
    match pre, h1, hh with
    | [c], _, hh =>
      simp only [List.map_cons, List.map_nil, List.head?_cons, Option.some.injEq] at hh
      simp [hh]

theorem digitsValue_nil (acc : Nat) : json.digitsValue acc [] = (acc, []) := rfl

/-- What `json.integerLiteral` makes of a run of digits without a superfluous leading
zero. -/
theorem integerLiteral_digits (D : Bytes) (n : Nat) (hne : D ≠ [])
    (hdig : ∀ c ∈ D, 48 ≤ c ∧ c ≤ 57)
    (hval : ∀ rest, json.digitsValue 0 (D ++ rest) = json.digitsValue n rest)
    (hz : D.head? = some 48 → D = [48] ∧ n = 0) :
    json.integerLiteral D = some (n : Int) ∧ json.integerLiteral (45 :: D) = some (-(n : Int)) := by
  obtain ⟨c, rest, rfl⟩ := List.exists_cons_of_ne_nil hne
  have hc := hdig c (List.mem_cons_self _ _)
  have hv : json.digitsValue 0 (c :: rest) = (n, []) := by
    have := hval []
    rwa [List.append_nil, digitsValue_nil] at this
  have hcond : ¬ (c = 48 ∧ ([] : Bytes) ≠ rest) := by
    rintro ⟨h48, hr⟩
    have := (hz (by rw [h48]; rfl)).1
    simp only [List.cons.injEq] at this
    exact hr this.2.symm
  have h45 : ¬ c = 45 := by omega
  constructor
  · simp only [json.integerLiteral, List.head?_cons, beq_iff_eq, Option.some.injEq, h45,
      Bool.false_eq_true, if_false, hc, and_self, if_true, hv, hcond, List.all_nil]
  · simp only [json.integerLiteral, List.head?_cons, beq_self_eq_true, if_true, List.drop_succ_cons,
      List.drop_zero, hc, and_self, hv, hcond, if_false, List.all_nil]

/-- The shape of `decimal`: the digits of the absolute value, after a minus sign when the
number is negative. -/
theorem decimal_eq (i : Int) :
    (0 ≤ i ∧ decimal i = lit (Nat.repr i.natAbs)) ∨
    (i < 0 ∧ decimal i = 45 :: lit (Nat.repr i.natAbs)) := by
  unfold decimal
  by_cases h : i < 0
  · right; exact ⟨h, by rw [if_pos h]⟩
  · left; exact ⟨not_lt.mp h, by rw [if_neg h]⟩

/-- The decimal text of an integer is read back as that integer. -/
theorem integerLiteral_decimal (i : Int) : json.integerLiteral (decimal i) = some i := by
  obtain ⟨hne, hdig, hval, hz⟩ := repr_value i.natAbs
  obtain ⟨h1, h2⟩ := integerLiteral_digits _ _ hne hdig hval hz
  rcases decimal_eq i with ⟨hi, hd⟩ | ⟨hi, hd⟩
  · rw [hd, h1, Int.natAbs_of_nonneg hi]
  · rw [hd, h2]
    congr 1
    omega

theorem decimal_head (i : Int) :
    ∃ c rest, decimal i = c :: rest ∧ (c = 45 ∨ (48 ≤ c ∧ c ≤ 57)) ∧ (0 ≤ i → c ≠ 45) := by
  obtain ⟨hne, hdig, _, _⟩ := repr_value i.natAbs
  obtain ⟨c, rest, hcr⟩ := List.exists_cons_of_ne_nil hne
  have hc := hdig c (by rw [hcr]; exact List.mem_cons_self _ _)
  rcases decimal_eq i with ⟨hi, hd⟩ | ⟨hi, hd⟩
  · exact ⟨c, rest, by rw [hd, hcr], Or.inr hc, fun _ => by omega⟩
  · exact ⟨45, _, hd, Or.inl rfl, fun h => absurd hi (not_lt.mpr h)⟩

theorem decimal_plain (i : Int) : ∀ c ∈ decimal i, plain c := by
  obtain ⟨_, hdig, _, _⟩ := repr_value i.natAbs
  intro c hc
  have hcase : c = 45 ∨ c ∈ lit (Nat.repr i.natAbs) := by
    rcases decimal_eq i with ⟨_, hd⟩ | ⟨_, hd⟩
    · rw [hd] at hc; exact Or.inr hc
    · rw [hd] at hc; exact List.mem_cons.mp hc
  rcases hcase with h | h
  · subst h; decide
  · have := hdig c h
    unfold plain
    omega

theorem skipSpace_decimal (i : Int) : json.skipSpace (decimal i) = decimal i := by
  obtain ⟨c, rest, hcr, hc, _⟩ := decimal_head i
  rw [hcr]
  unfold json.skipSpace
  rw [List.dropWhile_cons_of_neg]
  simp only [json.isSpace, Bool.or_eq_true, beq_iff_eq, not_or]
  omega

theorem not_null_decimal (i : Int) : json.isLiteral (lit "null") (decimal i) = false := by
  obtain ⟨c, rest, hcr, hc, _⟩ := decimal_head i
  cases h : json.isLiteral (lit "null") (decimal i) with
  | false => rfl
  | true =>
    rw [lit_null] at h
    obtain ⟨t, ht⟩ := isLiteral_cons 110 _ _ h
    rw [hcr] at ht
    injection ht with h1 _
    omega

theorem unmarshalInt64_decimal (i : Int) (hlo : -(2 : Int) ^ 63 ≤ i) (hhi : i < (2 : Int) ^ 63) :
    json.UnmarshalInt64 (decimal i) = .ok (some i) := by
  simp only [json.UnmarshalInt64, skipSpace_decimal, not_null_decimal, Bool.false_eq_true,
    if_false, integerLiteral_decimal, hlo, hhi, and_self, if_true]

theorem unmarshalUint64_decimal (u : Nat) (h : u < 2 ^ 64) :
    json.UnmarshalUint64 (decimal u) = .ok (some u) := by
  obtain ⟨c, rest, hcr, _, hc⟩ := decimal_head u
  have h45 : (decimal (u : Int)).head? ≠ some 45 := by
    rw [hcr]
    simp only [List.head?_cons, ne_eq, Option.some.injEq]
    exact hc (Int.ofNat_nonneg u)
  have hlt : (u : Int) < (2 : Int) ^ 64 := by exact_mod_cast h
  simp only [json.UnmarshalUint64, skipSpace_decimal, not_null_decimal, Bool.false_eq_true,
    if_false, h45, integerLiteral_decimal, hlt, if_true, Int.toNat_ofNat]

theorem parseUint_decimal (u : Nat) (h : u < 2 ^ 64) :
    strconv.ParseUint (decimal u) = .ok u := by
  obtain ⟨hne, _, hval, _⟩ := repr_value u
  have hd : decimal (u : Int) = lit (Nat.repr u) := by
    rcases decimal_eq u with ⟨_, hd⟩ | ⟨hi, _⟩
    · rw [hd, Int.natAbs_ofNat]
    · omega
  obtain ⟨c, rest, hcr⟩ := List.exists_cons_of_ne_nil hne
  have hv : json.digitsValue 0 (lit (Nat.repr u)) = (u, []) := by
    have := hval []
    rwa [List.append_nil, digitsValue_nil] at this
  rw [hd]
  unfold strconv.ParseUint
  rw [hcr] at hv ⊢
  simp only [hv, h, if_true]

theorem parseInt_decimal (i : Int) (hlo : -(2 : Int) ^ 63 ≤ i) (hhi : i < (2 : Int) ^ 63) :
    strconv.ParseInt (decimal i) = .ok i := by
  obtain ⟨hne, hdig, hval, _⟩ := repr_value i.natAbs
  obtain ⟨c, rest, hcr⟩ := List.exists_cons_of_ne_nil hne
  have hc := hdig c (by rw [hcr]; exact List.mem_cons_self _ _)
  have hv : json.digitsValue 0 (c :: rest) = (i.natAbs, []) := by
    have := hval []
    rwa [List.append_nil, digitsValue_nil, hcr] at this
  rcases decimal_eq i with ⟨hi, hd⟩ | ⟨hi, hd⟩
  · rw [hd, hcr]
    have h1 : ¬ (c = 43 ∨ c = 45) := by omega
    have h2 : ¬ (i.natAbs ≥ 2 ^ 63) := by omega
    have h3 : (c == 45) = false := by simp; omega
    simp only [strconv.ParseInt, h1, if_false, hv, h3, Bool.not_false, Bool.true_and,
      decide_eq_true_eq, h2, Bool.false_and, Bool.false_eq_true, Int.natAbs_of_nonneg hi]
  · rw [hd, hcr]
    have h2 : ¬ (i.natAbs > 2 ^ 63) := by omega
    have h4 : -(i.natAbs : Int) = i := by omega
    simp only [strconv.ParseInt, or_true, if_true, hv, beq_self_eq_true, Bool.not_true,
      Bool.false_and, Bool.false_eq_true, if_false, Bool.true_and, decide_eq_true_eq, h2, h4]

theorem Int64_UnmarshalJSON_quoted (r i : Int) (hlo : -(2 : Int) ^ 63 ≤ i)
    (hhi : i < (2 : Int) ^ 63) :
    Int64.UnmarshalJSON r (34 :: (decimal i ++ [34])) = (i, none) := by
  simp only [Int64.UnmarshalJSON, List.length_cons, Nat.add_one_ne_zero, if_false,
    List.head?_cons, if_true, unmarshalString_quoted _ (decimal_plain i), Option.getD_some,
    parseInt_decimal i hlo hhi]

theorem Int64_UnmarshalJSON_bare (r i : Int) (hlo : -(2 : Int) ^ 63 ≤ i)
    (hhi : i < (2 : Int) ^ 63) :
    Int64.UnmarshalJSON r (decimal i) = (i, none) := by
  obtain ⟨c, rest, hcr, hc, _⟩ := decimal_head i
  have hj := unmarshalInt64_decimal i hlo hhi
  rw [hcr] at hj
  have h34 : ¬ c = 34 := by omega
  rw [hcr]
  simp only [Int64.UnmarshalJSON, List.length_cons, Nat.add_one_ne_zero, if_false,
    List.head?_cons, Option.some.injEq, h34, hj, Option.getD_some]

theorem Uint64_UnmarshalJSON_quoted (r u : Nat) (h : u < 2 ^ 64) :
    Uint64.UnmarshalJSON r (34 :: (decimal u ++ [34])) = (u, none) := by
  simp only [Uint64.UnmarshalJSON, List.length_cons, Nat.add_one_ne_zero, if_false,
    List.head?_cons, if_true, unmarshalString_quoted _ (decimal_plain u), Option.getD_some,
    parseUint_decimal u h]

theorem Uint64_UnmarshalJSON_bare (r u : Nat) (h : u < 2 ^ 64) :
    Uint64.UnmarshalJSON r (decimal u) = (u, none) := by
  obtain ⟨c, rest, hcr, hc, _⟩ := decimal_head u
  have hj := unmarshalUint64_decimal u h
  rw [hcr] at hj
  have h34 : ¬ c = 34 := by omega
  rw [hcr]
  simp only [Uint64.UnmarshalJSON, List.length_cons, Nat.add_one_ne_zero, if_false,
    List.head?_cons, Option.some.injEq, h34, hj, Option.getD_some]

/-- C20: JSON round trip of the 64-bit wrappers.  For every `Int64` value `i` (an integer in
`[-2^63, 2^63)`) and every `Uint64` value `u` (below `2^64`), `MarshalJSON` returns no
error and `UnmarshalJSON` applied to its output succeeds and stores the original value,
whatever the receiver held, on the quoted-string branch and on the bare-number branch
alike; shown also on `-2^63` and on `2^64 - 1`. -/
theorem Int64_Uint64_json_roundtrip (i r : Int) (u ru : Nat)
    (hlo : -(2 : Int) ^ 63 ≤ i) (hhi : i < (2 : Int) ^ 63) (hu : u < 2 ^ 64) :
    (Int64.MarshalJSON i).2 = none ∧
    Int64.UnmarshalJSON r (Int64.MarshalJSON i).1 = (i, none) ∧
    (Uint64.MarshalJSON u).2 = none ∧
    Uint64.UnmarshalJSON ru (Uint64.MarshalJSON u).1 = (u, none) ∧
    Int64.UnmarshalJSON r (lit "\"-9223372036854775808\"") = (-9223372036854775808, none) ∧
    Uint64.UnmarshalJSON ru (lit "\"18446744073709551615\"") = (18446744073709551615, none) := by
  refine ⟨?_, ?_, ?_, ?_, rfl, rfl⟩
  · by_cases h : 2 ^ 32 ≤ |i|
    · rw [Int64_MarshalJSON_quoted i h]
    · rw [Int64_MarshalJSON_bare i (not_le.mp h)]
  · by_cases h : 2 ^ 32 ≤ |i|
    · rw [Int64_MarshalJSON_quoted i h]
      exact Int64_UnmarshalJSON_quoted r i hlo hhi
    · rw [Int64_MarshalJSON_bare i (not_le.mp h)]
      exact Int64_UnmarshalJSON_bare r i hlo hhi
  · by_cases h : 2 ^ 32 ≤ u
    · rw [Uint64_MarshalJSON_quoted u h]
    · rw [Uint64_MarshalJSON_bare u (not_le.mp h)]
  · by_cases h : 2 ^ 32 ≤ u
    · rw [Uint64_MarshalJSON_quoted u h]
      exact Uint64_UnmarshalJSON_quoted ru u hu
    · rw [Uint64_MarshalJSON_bare u (not_le.mp h)]
      exact Uint64_UnmarshalJSON_bare ru u hu

/-- C20 at `i = -2^63` (quoted branch) and `u = 7` (bare branch), receivers holding 1. -/
theorem Int64_Uint64_json_roundtrip_witness :
    -(2 : Int) ^ 63 ≤ -9223372036854775808 ∧ (-9223372036854775808 : Int) < (2 : Int) ^ 63 ∧
    (7 : Nat) < 2 ^ 64 ∧
    Int64.UnmarshalJSON 1 (Int64.MarshalJSON (-9223372036854775808)).1
      = (-9223372036854775808, none) ∧
    Uint64.UnmarshalJSON 1 (Uint64.MarshalJSON 7).1 = (7, none) :=
  ⟨by decide, by decide, by decide,
    (Int64_Uint64_json_roundtrip (-9223372036854775808) 1 7 1
      (by decide) (by decide) (by decide)).2.1,
    (Int64_Uint64_json_roundtrip (-9223372036854775808) 1 7 1
      (by decide) (by decide) (by decide)).2.2.2.1⟩

/-! ## The extent of a JSON string literal -/

/-- `getu4` reads six bytes and none of them is a double quote. -/
theorem getu4_some (x : Bytes) (v : Nat) (h : json.getu4 x = some v) :
    ∃ a b c d rest, x = 92 :: 117 :: a :: b :: c :: d :: rest ∧
      a ≠ 34 ∧ b ≠ 34 ∧ c ≠ 34 ∧ d ≠ 34 ∧
      ∀ rest1, json.getu4 (92 :: 117 :: a :: b :: c :: d :: rest1) = some v := by
  unfold json.getu4 at h
  split at h
  · rename_i a b c d rest
    refine ⟨a, b, c, d, rest, rfl, ?_, ?_, ?_, ?_, ?_⟩
    · rintro rfl; simp [hex.fromHexChar] at h
    · rintro rfl; simp [hex.fromHexChar] at h
    · rintro rfl; simp [hex.fromHexChar] at h
    · rintro rfl; simp [hex.fromHexChar] at h
    · intro rest1
      simp only [json.getu4]
      exact h
  · exact Option.noConfusion h

theorem getu4_quote_some (raw t t1 : Bytes) (v : Nat)
    (h : json.getu4 (raw ++ 34 :: t) = some v) : json.getu4 (raw ++ 34 :: t1) = some v := by
  obtain ⟨a, b, c, d, rest, hx, ha, hb, hc, hd, hall⟩ := getu4_some _ v h
  rcases raw with _ | ⟨r0, _ | ⟨r1, _ | ⟨r2, _ | ⟨r3, _ | ⟨r4, _ | ⟨r5, raw⟩⟩⟩⟩⟩⟩
  · simp at hx
  · simp at hx
  · simp at hx; omega
  · simp at hx; omega
  · simp at hx; omega
  · simp at hx; omega
  · simp only [List.cons_append, List.cons.injEq] at hx
    obtain ⟨h0, h1, h2, h3, h4, h5, _⟩ := hx
    subst h0 h1 h2 h3 h4 h5
    exact hall _

/-- The bytes after a double quote do not matter to `getu4`. -/
theorem getu4_quote_indep (raw t t1 : Bytes) :
    json.getu4 (raw ++ 34 :: t) = json.getu4 (raw ++ 34 :: t1) := by
  cases h : json.getu4 (raw ++ 34 :: t) with
  | some v => exact (getu4_quote_some raw t t1 v h).symm
  | none =>
    cases h1 : json.getu4 (raw ++ 34 :: t1) with
    | none => rfl
    | some v =>
      have := getu4_quote_some raw t1 t v h1
      rw [h] at this
      exact Option.noConfusion this

/-- The bytes after a double quote do not matter to `validLen`. -/
theorem validLen_quote_indep (raw t t1 : Bytes) :
    json.validLen (raw ++ 34 :: t) = json.validLen (raw ++ 34 :: t1) := by
  rcases raw with _ | ⟨p0, _ | ⟨b1, _ | ⟨b2, _ | ⟨b3, raw⟩⟩⟩⟩
  · rcases t with _ | ⟨x0, _ | ⟨x1, _ | ⟨x2, t⟩⟩⟩ <;>
      rcases t1 with _ | ⟨y0, _ | ⟨y1, _ | ⟨y2, t1⟩⟩⟩ <;>
      simp [json.validLen, json.isCont]
  · rcases t with _ | ⟨x0, _ | ⟨x1, t⟩⟩ <;>
      rcases t1 with _ | ⟨y0, _ | ⟨y1, t1⟩⟩ <;>
      simp only [json.validLen, json.isCont, List.nil_append, List.cons_append,
        Bool.and_eq_true, decide_eq_true_eq] <;>
      (repeat' split) <;> first | rfl | omega
  · rcases t with _ | ⟨x0, t⟩ <;>
      rcases t1 with _ | ⟨y0, t1⟩ <;>
      simp only [json.validLen, json.isCont, List.nil_append, List.cons_append,
        Bool.and_eq_true, decide_eq_true_eq] <;>
      (repeat' split) <;> first | rfl | omega
  · simp only [json.validLen, json.isCont, List.nil_append, List.cons_append,
      Bool.and_eq_true, decide_eq_true_eq]
  · simp [json.validLen, json.isCont]

theorem validLen_le_length (x : Bytes) : json.validLen x ≤ x.length := by
  rcases x with _ | ⟨p0, _ | ⟨b1, _ | ⟨b2, _ | ⟨b3, x⟩⟩⟩⟩ <;>
    simp only [json.validLen, List.length_cons, List.length_nil] <;>
    (repeat' split) <;> omega

/-- `json.unquoteAux` is `json.unquoteStep` repeated. -/
theorem unquoteAux_succ (fuel : Nat) (x : Bytes) :
    json.unquoteAux (fuel + 1) x =
      match json.unquoteStep x with
      | .fail => none
      | .stop tail => some ([], tail)
      | .emit out next =>
        match json.unquoteAux fuel next with
        | none => none
        | some (s, t) => some (out ++ s, t) := by
  cases x with
  | nil => rfl
  | cons c rest =>
    cases rest with
    | nil => simp only [json.unquoteAux, json.unquoteStep]; split_ifs <;> rfl
    | cons e rest1 =>
      simp only [json.unquoteAux, json.unquoteStep]
      by_cases h34 : c = 34
      · simp only [if_pos h34]
      by_cases h92 : c = 92
      · simp only [if_neg h34, if_pos h92]
        by_cases e1 : e = 34 ∨ e = 92 ∨ e = 47
        · simp only [if_pos e1]
        by_cases e2 : e = 98
        · simp only [if_neg e1, if_pos e2]
        by_cases e3 : e = 102
        · simp only [if_neg e1, if_neg e2, if_pos e3]
        by_cases e4 : e = 110
        · simp only [if_neg e1, if_neg e2, if_neg e3, if_pos e4]
        by_cases e5 : e = 114
        · simp only [if_neg e1, if_neg e2, if_neg e3, if_neg e4, if_pos e5]
        by_cases e6 : e = 116
        · simp only [if_neg e1, if_neg e2, if_neg e3, if_neg e4, if_neg e5, if_pos e6]
        by_cases e7 : e = 117
        · simp only [if_neg e1, if_neg e2, if_neg e3, if_neg e4, if_neg e5, if_neg e6, if_pos e7]
          cases h1 : json.getu4 (c :: e :: rest1) with
          | none => rfl
          | some rr =>
            simp only []
            by_cases hs : 0xD800 ≤ rr ∧ rr < 0xE000
            · simp only [if_pos hs]
              cases h2 : json.getu4 (List.drop 5 (e :: rest1)) with
              | none => rfl
              | some rr1 =>
                simp only []
                by_cases hp : rr < 0xDC00 ∧ 0xDC00 ≤ rr1 ∧ rr1 < 0xE000
                · simp only [if_pos hp]
                · simp only [if_neg hp]
            · simp only [if_neg hs]
        · simp only [if_neg e1, if_neg e2, if_neg e3, if_neg e4, if_neg e5, if_neg e6, if_neg e7]
      · simp only [if_neg h34, if_neg h92]
        by_cases h32 : c < 32
        · simp only [if_pos h32]
        by_cases h128 : c < 128
        · simp only [if_neg h32, if_pos h128]
        simp only [if_neg h32, if_neg h128]
        by_cases hk : json.validLen (c :: e :: rest1) = 0
        · simp only [if_pos hk]
        · simp only [if_neg hk]

theorem unquoteStep_stop (x tail : Bytes) (h : json.unquoteStep x = .stop tail) :
    x = 34 :: tail := by
  cases x with
  | nil => simp [json.unquoteStep] at h
  | cons c rest =>
    by_cases h34 : c = 34
    · simp only [json.unquoteStep, if_pos h34, Step.stop.injEq] at h
      rw [h34, h]
    exfalso
    by_cases h92 : c = 92
    · cases rest with
      | nil => simp only [json.unquoteStep, if_neg h34, if_pos h92, reduceCtorEq] at h
      | cons e rest1 =>
        simp only [json.unquoteStep, if_neg h34, if_pos h92] at h
        by_cases e1 : e = 34 ∨ e = 92 ∨ e = 47
        · simp only [if_pos e1, reduceCtorEq] at h
        by_cases e2 : e = 98
        · simp only [if_neg e1, if_pos e2, reduceCtorEq] at h
        by_cases e3 : e = 102
        · simp only [if_neg e1, if_neg e2, if_pos e3, reduceCtorEq] at h
        by_cases e4 : e = 110
        · simp only [if_neg e1, if_neg e2, if_neg e3, if_pos e4, reduceCtorEq] at h
        by_cases e5 : e = 114
        · simp only [if_neg e1, if_neg e2, if_neg e3, if_neg e4, if_pos e5, reduceCtorEq] at h
        by_cases e6 : e = 116
        · simp only [if_neg e1, if_neg e2, if_neg e3, if_neg e4, if_neg e5, if_pos e6, reduceCtorEq] at h
        by_cases e7 : e = 117
        · simp only [if_neg e1, if_neg e2, if_neg e3, if_neg e4, if_neg e5, if_neg e6, if_pos e7] at h
          cases h1 : json.getu4 (c :: e :: rest1) with
          | none => simp only [h1, reduceCtorEq] at h
          | some rr =>
            simp only [h1] at h
            by_cases hs : 0xD800 ≤ rr ∧ rr < 0xE000
            · simp only [if_pos hs] at h
              cases h2 : json.getu4 (List.drop 5 (e :: rest1)) with
              | none => simp only [h2, reduceCtorEq] at h
              | some rr1 =>
                simp only [h2] at h
                by_cases hp : rr < 0xDC00 ∧ 0xDC00 ≤ rr1 ∧ rr1 < 0xE000
                · simp only [if_pos hp, reduceCtorEq] at h
                · simp only [if_neg hp, reduceCtorEq] at h
            · simp only [if_neg hs, reduceCtorEq] at h
        · simp only [if_neg e1, if_neg e2, if_neg e3, if_neg e4, if_neg e5, if_neg e6, if_neg e7, reduceCtorEq] at h
    · simp only [json.unquoteStep, if_neg h34, if_neg h92] at h
      by_cases h32 : c < 32
      · simp only [if_pos h32, reduceCtorEq] at h
      by_cases h128 : c < 128
      · simp only [if_neg h32, if_pos h128, reduceCtorEq] at h
      simp only [if_neg h32, if_neg h128] at h
      by_cases hk : json.validLen (c :: rest) = 0
      · simp only [if_pos hk, reduceCtorEq] at h
      · simp only [if_neg hk, reduceCtorEq] at h

/-- A round of `json.unquoteStep` that decodes something consumes a non-empty front of the
input, and does the same whatever follows the closing quote of the literal. -/
theorem unquoteStep_emit (x out next : Bytes) (h : json.unquoteStep x = .emit out next) :
    ∃ pre, x = pre ++ next ∧ 0 < pre.length ∧
      ∀ raw t t1, next = raw ++ 34 :: t →
        json.unquoteStep (pre ++ (raw ++ 34 :: t1)) = .emit out (raw ++ 34 :: t1) := by
  cases x with
  | nil => simp [json.unquoteStep] at h
  | cons c rest =>
    by_cases h34 : c = 34
    · simp only [json.unquoteStep, if_pos h34, reduceCtorEq] at h
    by_cases h92 : c = 92
    · cases rest with
      | nil => simp only [json.unquoteStep, if_neg h34, if_pos h92, reduceCtorEq] at h
      | cons e rest1 =>
        simp only [json.unquoteStep, if_neg h34, if_pos h92] at h
        by_cases e1 : e = 34 ∨ e = 92 ∨ e = 47
        · simp only [if_pos e1] at h
          simp only [Step.emit.injEq] at h
          obtain ⟨ho, hn⟩ := h
          subst ho hn
          refine ⟨[c, e], rfl, by simp, ?_⟩
          intro raw t t1 hraw
          simp only [List.cons_append, List.nil_append, json.unquoteStep, if_neg h34, if_pos h92, if_pos e1]
        by_cases e2 : e = 98
        · simp only [if_neg e1, if_pos e2] at h
          simp only [Step.emit.injEq] at h
          obtain ⟨ho, hn⟩ := h
          subst ho hn
          refine ⟨[c, e], rfl, by simp, ?_⟩
          intro raw t t1 hraw
          simp only [List.cons_append, List.nil_append, json.unquoteStep, if_neg h34, if_pos h92, if_neg e1, if_pos e2]
        by_cases e3 : e = 102
        · simp only [if_neg e1, if_neg e2, if_pos e3] at h
          simp only [Step.emit.injEq] at h
          obtain ⟨ho, hn⟩ := h
          subst ho hn
          refine ⟨[c, e], rfl, by simp, ?_⟩
          intro raw t t1 hraw
          simp only [List.cons_append, List.nil_append, json.unquoteStep, if_neg h34, if_pos h92, if_neg e1, if_neg e2, if_pos e3]
        by_cases e4 : e = 110
        · simp only [if_neg e1, if_neg e2, if_neg e3, if_pos e4] at h
          simp only [Step.emit.injEq] at h
          obtain ⟨ho, hn⟩ := h
          subst ho hn
          refine ⟨[c, e], rfl, by simp, ?_⟩
          intro raw t t1 hraw
          simp only [List.cons_append, List.nil_append, json.unquoteStep, if_neg h34, if_pos h92, if_neg e1, if_neg e2, if_neg e3, if_pos e4]
        by_cases e5 : e = 114
        · simp only [if_neg e1, if_neg e2, if_neg e3, if_neg e4, if_pos e5] at h
          simp only [Step.emit.injEq] at h
          obtain ⟨ho, hn⟩ := h
          subst ho hn
          refine ⟨[c, e], rfl, by simp, ?_⟩
          intro raw t t1 hraw
          simp only [List.cons_append, List.nil_append, json.unquoteStep, if_neg h34, if_pos h92, if_neg e1, if_neg e2, if_neg e3, if_neg e4, if_pos e5]
        by_cases e6 : e = 116
        · simp only [if_neg e1, if_neg e2, if_neg e3, if_neg e4, if_neg e5, if_pos e6] at h
          simp only [Step.emit.injEq] at h
          obtain ⟨ho, hn⟩ := h
          subst ho hn
          refine ⟨[c, e], rfl, by simp, ?_⟩
          intro raw t t1 hraw
          simp only [List.cons_append, List.nil_append, json.unquoteStep, if_neg h34, if_pos h92, if_neg e1, if_neg e2, if_neg e3, if_neg e4, if_neg e5, if_pos e6]
        by_cases e7 : e = 117
        · simp only [if_neg e1, if_neg e2, if_neg e3, if_neg e4, if_neg e5, if_neg e6, if_pos e7] at h
          cases h1 : json.getu4 (c :: e :: rest1) with
          | none => simp only [h1, reduceCtorEq] at h
          | some rr =>
            simp only [h1] at h
            obtain ⟨a, b, c1, d, rest2, hx, _, _, _, _, hall⟩ := getu4_some _ rr h1
            simp only [List.cons.injEq] at hx
            obtain ⟨_, _, hr1⟩ := hx
            subst hr1
            simp only [List.drop_succ_cons, List.drop_zero] at h
            by_cases hs : 0xD800 ≤ rr ∧ rr < 0xE000
            · simp only [if_pos hs] at h
              cases h2 : json.getu4 rest2 with
              | none =>
                simp only [h2, Step.emit.injEq] at h
                obtain ⟨ho, hn⟩ := h
                subst ho hn
                refine ⟨[c, e, a, b, c1, d], rfl, by simp, ?_⟩
                intro raw t t1 hraw
                have hg : json.getu4 (raw ++ 34 :: t1) = none := by
                  rw [getu4_quote_indep raw t1 t, ← hraw, h2]
                have hg1 : json.getu4 (c :: e :: a :: b :: c1 :: d :: (raw ++ 34 :: t1)) = some rr := by
                  rw [h92, e7]; exact hall _
                simp only [List.cons_append, List.nil_append, json.unquoteStep, if_neg h34,
                  if_pos h92, if_neg e1, if_neg e2, if_neg e3, if_neg e4, if_neg e5, if_neg e6, if_pos e7, hg1, List.drop_succ_cons, List.drop_zero,
                  if_pos hs, hg]
              | some rr1 =>
                simp only [h2] at h
                by_cases hp : rr < 0xDC00 ∧ 0xDC00 ≤ rr1 ∧ rr1 < 0xE000
                · simp only [if_pos hp, Step.emit.injEq] at h
                  obtain ⟨ho, hn⟩ := h
                  obtain ⟨w, x1, y, z, rest3, hx2, _, _, _, _, hall2⟩ := getu4_some _ rr1 h2
                  subst hx2
                  simp only [List.drop_succ_cons, List.drop_zero] at hn
                  subst ho hn
                  refine ⟨[c, e, a, b, c1, d, 92, 117, w, x1, y, z], rfl, by simp, ?_⟩
                  intro raw t t1 hraw
                  have hg1 : json.getu4 (c :: e :: a :: b :: c1 :: d ::
                      92 :: 117 :: w :: x1 :: y :: z :: (raw ++ 34 :: t1)) = some rr := by
                    rw [h92, e7]; exact hall _
                  simp only [List.cons_append, List.nil_append, json.unquoteStep, if_neg h34,
                    if_pos h92, if_neg e1, if_neg e2, if_neg e3, if_neg e4, if_neg e5, if_neg e6, if_pos e7, hg1, List.drop_succ_cons,
                    List.drop_zero, if_pos hs, hall2 _, if_pos hp]
                · simp only [if_neg hp, Step.emit.injEq] at h
                  obtain ⟨ho, hn⟩ := h
                  subst ho hn
                  refine ⟨[c, e, a, b, c1, d], rfl, by simp, ?_⟩
                  intro raw t t1 hraw
                  have hg : json.getu4 (raw ++ 34 :: t1) = some rr1 := by
                    rw [getu4_quote_indep raw t1 t, ← hraw, h2]
                  have hg1 : json.getu4 (c :: e :: a :: b :: c1 :: d :: (raw ++ 34 :: t1))
                      = some rr := by
                    rw [h92, e7]; exact hall _
                  simp only [List.cons_append, List.nil_append, json.unquoteStep, if_neg h34,
                    if_pos h92, if_neg e1, if_neg e2, if_neg e3, if_neg e4, if_neg e5, if_neg e6, if_pos e7, hg1, List.drop_succ_cons,
                    List.drop_zero, if_pos hs, hg, if_neg hp]
            · simp only [if_neg hs, Step.emit.injEq] at h
              obtain ⟨ho, hn⟩ := h
              subst ho hn
              refine ⟨[c, e, a, b, c1, d], rfl, by simp, ?_⟩
              intro raw t t1 hraw
              have hg1 : json.getu4 (c :: e :: a :: b :: c1 :: d :: (raw ++ 34 :: t1))
                  = some rr := by
                rw [h92, e7]; exact hall _
              simp only [List.cons_append, List.nil_append, json.unquoteStep, if_neg h34,
                if_pos h92, if_neg e1, if_neg e2, if_neg e3, if_neg e4, if_neg e5, if_neg e6, if_pos e7, hg1, List.drop_succ_cons, List.drop_zero,
                if_neg hs]
        · simp only [if_neg e1, if_neg e2, if_neg e3, if_neg e4, if_neg e5, if_neg e6, if_neg e7, reduceCtorEq] at h
    · simp only [json.unquoteStep, if_neg h34, if_neg h92] at h
      by_cases h32 : c < 32
      · simp only [if_pos h32, reduceCtorEq] at h
      by_cases h128 : c < 128
      · simp only [if_neg h32, if_pos h128, Step.emit.injEq] at h
        obtain ⟨ho, hn⟩ := h
        subst ho hn
        refine ⟨[c], rfl, by simp, ?_⟩
        intro raw t t1 hraw
        simp only [List.cons_append, List.nil_append, json.unquoteStep, if_neg h34, if_neg h92,
          if_neg h32, if_pos h128]
      simp only [if_neg h32, if_neg h128] at h
      by_cases hk : json.validLen (c :: rest) = 0
      · simp only [if_pos hk, Step.emit.injEq] at h
        obtain ⟨ho, hn⟩ := h
        subst ho hn
        refine ⟨[c], rfl, by simp, ?_⟩
        intro raw t t1 hraw
        have hv : json.validLen (c :: (raw ++ 34 :: t1)) = 0 := by
          have := validLen_quote_indep (c :: raw) t1 t
          simp only [List.cons_append] at this
          rw [this, ← hraw, hk]
        simp only [List.cons_append, List.nil_append, json.unquoteStep, if_neg h34, if_neg h92,
          if_neg h32, if_neg h128, if_pos hv]
      · simp only [if_neg hk, Step.emit.injEq] at h
        obtain ⟨ho, hn⟩ := h
        have hle := validLen_le_length (c :: rest)
        obtain ⟨k, hk1⟩ : ∃ k, json.validLen (c :: rest) = k + 1 :=
          ⟨json.validLen (c :: rest) - 1, by omega⟩
        rw [hk1] at ho hn hle
        simp only [List.take_succ_cons, List.drop_succ_cons] at ho hn
        simp only [List.length_cons] at hle
        have hlen : (List.take k rest).length = k := by
          rw [List.length_take]; omega
        subst ho hn
        refine ⟨c :: List.take k rest, ?_, by simp, ?_⟩
        · rw [List.cons_append, List.take_append_drop]
        intro raw t t1 hraw
        have hv : json.validLen (c :: (List.take k rest ++ (raw ++ 34 :: t1))) = k + 1 := by
          have := validLen_quote_indep (c :: (List.take k rest ++ raw)) t1 t
          simp only [List.cons_append, List.append_assoc] at this
          rw [this, ← hraw, List.take_append_drop, hk1]
        simp only [List.cons_append, json.unquoteStep, if_neg h34, if_neg h92,
          if_neg h32, if_neg h128, hv, Nat.add_one_ne_zero, if_false, List.take_succ_cons,
          List.drop_succ_cons, List.take_left' hlen, List.drop_left' hlen]

/-- Where `json.unquoteAux` succeeds it has read a literal up to its closing quote, and it
reads that literal the same way whatever follows the quote. -/
theorem unquoteAux_extent : ∀ (fuel : Nat) (x s tail : Bytes),
    json.unquoteAux fuel x = some (s, tail) →
    ∃ raw, x = raw ++ 34 :: tail ∧
      ∀ (fuel1 : Nat) (t1 : Bytes), raw.length < fuel1 →
        json.unquoteAux fuel1 (raw ++ 34 :: t1) = some (s, t1) := by
  intro fuel
  induction fuel with
  | zero => intro x s tail h; simp [json.unquoteAux] at h
  | succ k ih =>
    intro x s tail h
    rw [unquoteAux_succ] at h
    cases hstep : json.unquoteStep x with
    | fail => simp only [hstep, reduceCtorEq] at h
    | stop tl =>
      simp only [hstep, Option.some.injEq, Prod.mk.injEq] at h
      obtain ⟨hs, ht⟩ := h
      subst hs ht
      refine ⟨[], by rw [unquoteStep_stop x tl hstep]; rfl, ?_⟩
      intro fuel1 t1 hf
      obtain ⟨f, rfl⟩ : ∃ f, fuel1 = f + 1 := ⟨fuel1 - 1, by omega⟩
      rw [unquoteAux_succ]
      simp [json.unquoteStep]
    | emit out next =>
      simp only [hstep] at h
      cases hrec : json.unquoteAux k next with
      | none => simp only [hrec, reduceCtorEq] at h
      | some r =>
        obtain ⟨s1, tl1⟩ := r
        simp only [hrec, Option.some.injEq, Prod.mk.injEq] at h
        obtain ⟨hs, ht⟩ := h
        subst hs ht
        obtain ⟨raw1, hnext, hall⟩ := ih next s1 tl1 hrec
        obtain ⟨pre, hx, hpos, hstep1⟩ := unquoteStep_emit x out next hstep
        refine ⟨pre ++ raw1, by rw [hx, hnext, List.append_assoc], ?_⟩
        intro fuel1 t1 hf
        rw [List.length_append] at hf
        obtain ⟨f, rfl⟩ : ∃ f, fuel1 = f + 1 := ⟨fuel1 - 1, by omega⟩
        rw [unquoteAux_succ, List.append_assoc, hstep1 raw1 tl1 t1 hnext]
        simp only [hall f t1 (by omega)]

/-! ## `Int128.UnmarshalJSON` and `Float128.UnmarshalJSON` -/

/-- `Uint128.parse` on a string with the prefix and a body of 32 bytes. -/
theorem Uint128.parse_body (i : Uint128) (s : Bytes)
    (hp : lit "0x" <+: s ∨ lit "0X" <+: s) (hlen : (s.drop 2).length = 32) :
    i.parse s =
      match hex.DecodeString ((s.drop 2).take 16) with
      | .error err => .ret i (some (.std err))
      | .ok lo =>
        match hex.DecodeString ((s.drop 2).drop 16) with
        | .error err => .ret i (some (.std err))
        | .ok hi =>
          match binary.LittleEndian.Uint64 lo, binary.LittleEndian.Uint64 hi with
          | some loUint, some hiUint => .ret { Lo := loUint, Hi := hiUint } none
          | _, _ => .panic := by
  have h2len : 2 ≤ s.length := by
    rcases hp with hp | hp <;> exact hp.length_le
  have hs2 : sliceFrom s 2 = some (s.drop 2) := by simp only [sliceFrom, h2len, if_true]
  have hto : sliceTo (s.drop 2) 16 = some ((s.drop 2).take 16) := by
    simp only [sliceTo, hlen, Nat.reduceLeDiff, if_true]
  have hfrom : sliceFrom (s.drop 2) 16 = some ((s.drop 2).drop 16) := by
    simp only [sliceFrom, hlen, Nat.reduceLeDiff, if_true]
  have hcond : (!strings.HasPrefix s (lit "0x") && !strings.HasPrefix s (lit "0X")) = false := by
    rcases hp with hp | hp
    · rw [(hasPrefix_iff s _).mpr hp]; rfl
    · rw [(hasPrefix_iff s _).mpr hp]; simp
  unfold Uint128.parse
  simp only [hcond, Bool.false_eq_true, if_false, hs2, hlen, ne_eq, not_true_eq_false, hto,
    hfrom]

/-- A successful parse stores a value that does not depend on the receiver. -/
theorem Uint128.parse_ok_indep (i j v : Uint128) (s : Bytes) (h : i.parse s = .ret v none) :
    j.parse s = .ret v none := by
  obtain ⟨h1, h2, _, _⟩ := Uint128.parse_cases i s
  have hp : lit "0x" <+: s ∨ lit "0X" <+: s := by
    by_contra hp
    rw [h1 hp] at h
    simp only [Outcome.ret.injEq, reduceCtorEq, and_false] at h
  have hlen : (s.drop 2).length = 32 := by
    by_contra hlen
    rw [h2 hp hlen] at h
    simp only [Outcome.ret.injEq, reduceCtorEq, and_false] at h
  rw [Uint128.parse_body i s hp hlen] at h
  rw [Uint128.parse_body j s hp hlen]
  cases hlo : hex.DecodeString ((s.drop 2).take 16) with
  | error e => simp only [hlo, Outcome.ret.injEq, reduceCtorEq, and_false] at h
  | ok lo =>
    cases hhi : hex.DecodeString ((s.drop 2).drop 16) with
    | error e => simp only [hlo, hhi, Outcome.ret.injEq, reduceCtorEq, and_false] at h
    | ok hi =>
      simp only [hlo, hhi] at h ⊢
      exact h

theorem Uint128_UnmarshalJSON_no_panic (i : Uint128) (data : Bytes) :
    i.UnmarshalJSON data ≠ .panic := by
  rw [Uint128.UnmarshalJSON_eq]
  split
  · exact fun h => Outcome.noConfusion h
  · split
    · exact fun h => Outcome.noConfusion h
    · exact Uint128.parse_no_panic i _

theorem unmarshalString_inv (data s : Bytes) (hs : json.UnmarshalString data = .ok (some s)) :
    ∃ body tail, json.skipSpace data = 34 :: body ∧
      json.unquoteAux body.length body = some (s, tail) ∧ tail.all json.isSpace = true := by
  unfold json.UnmarshalString at hs
  split at hs
  · rename_i body hskip
    split at hs
    · rename_i s1 tail hq
      split at hs
      · rename_i hall
        simp only [Except.ok.injEq, Option.some.injEq] at hs
        subst hs
        exact ⟨body, tail, hskip, hq, hall⟩
      · simp only [reduceCtorEq] at hs
    · simp only [reduceCtorEq] at hs
  · split at hs
    · simp only [Except.ok.injEq, reduceCtorEq] at hs
    · simp only [reduceCtorEq] at hs

theorem not_null_quote (body : Bytes) : json.isLiteral (lit "null") (34 :: body) = false := by
  cases h : json.isLiteral (lit "null") (34 :: body) with
  | false => rfl
  | true =>
    rw [lit_null] at h
    obtain ⟨t, ht⟩ := isLiteral_cons 110 _ _ h
    simp at ht

theorem skipSpace_quote (body : Bytes) : json.skipSpace (34 :: body) = 34 :: body := by
  unfold json.skipSpace
  rw [List.dropWhile_cons_of_neg]
  simp [json.isSpace]

/-- On a JSON string `json.Unmarshal` into a `Uint128` parses the decoded string. -/
theorem unmarshalUint128_string (el : Uint128) (data s : Bytes)
    (hs : json.UnmarshalString data = .ok (some s)) :
    json.UnmarshalUint128 el data = el.parse s := by
  obtain ⟨body, tail, hskip, hq, hall⟩ := unmarshalString_inv data s hs
  obtain ⟨raw, hbody, hext⟩ := unquoteAux_extent _ _ _ _ hq
  have hitem : (34 :: body).take ((34 :: body).length - tail.length) = 34 :: (raw ++ [34]) := by
    rw [hbody]
    have hl : (34 :: (raw ++ 34 :: tail)).length - tail.length = (34 :: (raw ++ [34])).length := by
      simp only [List.length_cons, List.length_append, List.length_nil]
      omega
    rw [hl]
    have : 34 :: (raw ++ 34 :: tail) = (34 :: (raw ++ [34])) ++ tail := by simp
    rw [this, List.take_left]
  have hstr : json.UnmarshalString (34 :: (raw ++ [34])) = .ok (some s) := by
    have hq1 := hext (raw ++ [34]).length [] (by simp)
    simp only [json.UnmarshalString, skipSpace_quote, hq1, List.all_nil, if_true]
  have hne : ¬ (34 :: (raw ++ [34]) = lit "null") := by
    rw [lit_null]; simp
  unfold json.UnmarshalUint128
  simp only [hskip, not_null_quote, Bool.false_eq_true, if_false, hq, hall, if_true, hitem]
  rw [Uint128.UnmarshalJSON_eq, if_neg hne, hstr]
  rfl

theorem unmarshalUint128_error (el r : Uint128) (data : Bytes) (e : GoError)
    (h : json.UnmarshalUint128 el data = .ret r (some e)) : r = el := by
  unfold json.UnmarshalUint128 at h
  simp only at h
  split at h
  · exact Uint128_UnmarshalJSON_error_recv el r _ e h
  · split at h
    · split at h
      · split at h
        · exact Uint128_UnmarshalJSON_error_recv el r _ e h
        · simp only [Outcome.ret.injEq] at h; exact h.1.symm
      · simp only [Outcome.ret.injEq] at h; exact h.1.symm
    · simp only [Outcome.ret.injEq] at h; exact h.1.symm

theorem unmarshalUint128_no_panic (el : Uint128) (data : Bytes) :
    json.UnmarshalUint128 el data ≠ .panic := by
  unfold json.UnmarshalUint128
  simp only
  split
  · exact Uint128_UnmarshalJSON_no_panic el _
  · split
    · split
      · split
        · exact Uint128_UnmarshalJSON_no_panic el _
        · exact fun h => Outcome.noConfusion h
      · exact fun h => Outcome.noConfusion h
    · exact fun h => Outcome.noConfusion h

theorem Int128_UnmarshalJSON_of_ok (i : Int128) (data : Bytes) (el : Uint128)
    (h : json.UnmarshalUint128 ⟨0, 0⟩ data = .ret el none) :
    i.UnmarshalJSON data = .ret ⟨el.Lo, el.Hi⟩ none := by
  unfold Int128.UnmarshalJSON
  simp only [h]

theorem Float128_UnmarshalJSON_of_ok (f : Float128) (data : Bytes) (el : Uint128)
    (h : json.UnmarshalUint128 ⟨0, 0⟩ data = .ret el none) :
    f.UnmarshalJSON data = .ret ⟨el.Lo, el.Hi⟩ none := by
  unfold Float128.UnmarshalJSON
  simp only [h]

theorem Int128_UnmarshalJSON_error_recv (i x : Int128) (data : Bytes) (e : GoError)
    (h : i.UnmarshalJSON data = .ret x (some e)) : x = i := by
  unfold Int128.UnmarshalJSON at h
  simp only at h
  split at h
  · exact Outcome.noConfusion h
  · simp only [Outcome.ret.injEq] at h; exact h.1.symm
  · simp only [Outcome.ret.injEq, reduceCtorEq, and_false] at h

theorem Float128_UnmarshalJSON_error_recv (f x : Float128) (data : Bytes) (e : GoError)
    (h : f.UnmarshalJSON data = .ret x (some e)) : x = f := by
  unfold Float128.UnmarshalJSON at h
  simp only at h
  split at h
  · exact Outcome.noConfusion h
  · simp only [Outcome.ret.injEq] at h; exact h.1.symm
  · simp only [Outcome.ret.injEq, reduceCtorEq, and_false] at h

theorem Int128_UnmarshalJSON_no_panic (i : Int128) (data : Bytes) :
    i.UnmarshalJSON data ≠ .panic := by
  have hnp := unmarshalUint128_no_panic ⟨0, 0⟩ data
  unfold Int128.UnmarshalJSON
  simp only
  split
  · rename_i h; exact absurd h hnp
  · exact fun h => Outcome.noConfusion h
  · exact fun h => Outcome.noConfusion h

theorem Float128_UnmarshalJSON_no_panic (f : Float128) (data : Bytes) :
    f.UnmarshalJSON data ≠ .panic := by
  have hnp := unmarshalUint128_no_panic ⟨0, 0⟩ data
  unfold Float128.UnmarshalJSON
  simp only
  split
  · rename_i h; exact absurd h hnp
  · exact fun h => Outcome.noConfusion h
  · exact fun h => Outcome.noConfusion h

/-- C19: `Int128.UnmarshalJSON` and `Float128.UnmarshalJSON` parse into a fresh zero
`Uint128` and overwrite the receiver with it on success.  So for a JSON string that
`Uint128.UnmarshalJSON` accepts they store the same `{Lo, Hi}` as it would; on the literal
`null` they succeed and reset the receiver to `{Lo: 0, Hi: 0}`, where
`Uint128.UnmarshalJSON` leaves its receiver untouched; on an error the receiver is as it
was; and they never panic. -/
theorem Int128_Float128_UnmarshalJSON (i : Int128) (f : Float128) (r : Uint128)
    (data : Bytes) :
    (∀ el, json.UnmarshalUint128 ⟨0, 0⟩ data = .ret el none →
      i.UnmarshalJSON data = .ret ⟨el.Lo, el.Hi⟩ none ∧
      f.UnmarshalJSON data = .ret ⟨el.Lo, el.Hi⟩ none) ∧
    (∀ s v, data ≠ lit "null" → json.UnmarshalString data = .ok (some s) →
      r.UnmarshalJSON data = .ret v none →
      i.UnmarshalJSON data = .ret ⟨v.Lo, v.Hi⟩ none ∧
      f.UnmarshalJSON data = .ret ⟨v.Lo, v.Hi⟩ none) ∧
    i.UnmarshalJSON (lit "null") = .ret ⟨0, 0⟩ none ∧
    f.UnmarshalJSON (lit "null") = .ret ⟨0, 0⟩ none ∧
    r.UnmarshalJSON (lit "null") = .ret r none ∧
    (∀ x e, i.UnmarshalJSON data = .ret x (some e) → x = i) ∧
    (∀ x e, f.UnmarshalJSON data = .ret x (some e) → x = f) ∧
    i.UnmarshalJSON data ≠ .panic ∧ f.UnmarshalJSON data ≠ .panic := by
  refine ⟨fun el h => ⟨Int128_UnmarshalJSON_of_ok i data el h,
      Float128_UnmarshalJSON_of_ok f data el h⟩, ?_, rfl, rfl, rfl,
    fun x e h => Int128_UnmarshalJSON_error_recv i x data e h,
    fun x e h => Float128_UnmarshalJSON_error_recv f x data e h,
    Int128_UnmarshalJSON_no_panic i data, Float128_UnmarshalJSON_no_panic f data⟩
  intro s v hnull hs hv
  have hr : r.UnmarshalJSON data = r.parse s := by
    rw [Uint128.UnmarshalJSON_eq, if_neg hnull, hs]
    rfl
  rw [hr] at hv
  have hel : json.UnmarshalUint128 ⟨0, 0⟩ data = .ret v none := by
    rw [unmarshalUint128_string _ data s hs]
    exact Uint128.parse_ok_indep r ⟨0, 0⟩ v s hv
  exact ⟨Int128_UnmarshalJSON_of_ok i data v hel, Float128_UnmarshalJSON_of_ok f data v hel⟩

/-- C19 on the string form of `{Lo: 10, Hi: 82}` with white space around it, receivers
holding other values. -/
theorem Int128_Float128_UnmarshalJSON_witness :
    Uint128.UnmarshalJSON ⟨1, 2⟩ (lit " \"0x0a000000000000005200000000000000\" ")
      = .ret ⟨10, 82⟩ none ∧
    Int128.UnmarshalJSON ⟨3, 4⟩ (lit " \"0x0a000000000000005200000000000000\" ")
      = .ret ⟨10, 82⟩ none ∧
    Float128.UnmarshalJSON ⟨5, 6⟩ (lit " \"0x0a000000000000005200000000000000\" ")
      = .ret ⟨10, 82⟩ none :=
  ⟨by decide,
    (Int128_Float128_UnmarshalJSON ⟨3, 4⟩ ⟨5, 6⟩ ⟨1, 2⟩
      (lit " \"0x0a000000000000005200000000000000\" ")).2.1
      (lit "0x0a000000000000005200000000000000") ⟨10, 82⟩ (by decide) (by decide) (by decide)⟩

/-! ## The reads of the decoder -/

theorem drop_length_remaining (d : Decoder) : (d.data.drop d.pos).length = d.remaining := by
  simp [Decoder.remaining]

theorem readFixed_ok (what : Text) (w : Nat) (d : Decoder) (h : w ≤ d.remaining) :
    Decoder.readFixed what w d
      = ({ d with pos := d.pos + w }, (d.data.drop d.pos).take w, none) := by
  unfold Decoder.readFixed
  rw [if_neg (by omega)]

theorem readFixed_short (what : Text) (w : Nat) (d : Decoder) (h : d.remaining < w) :
    Decoder.readFixed what w d
      = (d, [], some (.std (.bufferTooSmall what w d.remaining))) := by
  unfold Decoder.readFixed
  rw [if_pos h]

theorem leVal_take_drop (l : Bytes) : ∀ (w pos : Nat), w ≤ l.length - pos →
    leVal ((l.drop pos).take w) = ∑ k in Finset.range w, l.getD (pos + k) 0 * 256 ^ k := by
  intro w
  induction w with
  | zero => intro pos _; simp [leVal]
  | succ w ih =>
    intro pos h
    have hp : pos < l.length := by omega
    rw [List.drop_eq_getElem_cons hp, List.take_succ_cons, leVal, ih (pos + 1) (by omega),
      Finset.sum_range_succ', Finset.mul_sum]
    have : l.getD (pos + 0) 0 * 256 ^ 0 = l[pos] := by
      simp [List.getD_eq_getElem?_getD, List.getElem?_eq_getElem hp]
    rw [this, Nat.add_comm]
    congr 1
    apply Finset.sum_congr rfl
    intro k _
    have : pos + 1 + k = pos + (k + 1) := by omega
    rw [this, pow_succ]
    ring

theorem leVal_lt : ∀ (l : Bytes), (∀ b ∈ l, b < 256) → leVal l < 256 ^ l.length := by
  intro l
  induction l with
  | nil => intro _; simp [leVal]
  | cons b bs ih =>
    intro h
    have hb : b < 256 := h b (List.mem_cons_self _ _)
    have := ih (fun x hx => h x (List.mem_cons_of_mem _ hx))
    simp only [leVal, List.length_cons, pow_succ]
    omega

theorem readUint_ok (what : Text) (w : Nat) (d : Decoder) (h : w ≤ d.remaining) :
    Decoder.readUint what w d
      = ({ d with pos := d.pos + w },
          ∑ k in Finset.range w, d.data.getD (d.pos + k) 0 * 256 ^ k, none) := by
  unfold Decoder.readUint
  rw [readFixed_ok what w d h]
  simp only [leVal_take_drop d.data w d.pos h]

theorem readInt_ok (what : Text) (w : Nat) (d : Decoder) (h : w ≤ d.remaining) :
    Decoder.readInt what w d
      = ({ d with pos := d.pos + w },
          toSigned w (∑ k in Finset.range w, d.data.getD (d.pos + k) 0 * 256 ^ k), none) := by
  unfold Decoder.readInt
  rw [readFixed_ok what w d h]
  simp only [leVal_take_drop d.data w d.pos h]

/-- The signed reading is the one number in the signed range of the width that agrees with
the unsigned reading modulo `2^(8w)`. -/
theorem toSigned_spec (w u : Nat) (hw : 0 < w) (hu : u < 256 ^ w) :
    -(2 : Int) ^ (8 * w - 1) ≤ toSigned w u ∧ toSigned w u < 2 ^ (8 * w - 1) ∧
      toSigned w u % 2 ^ (8 * w) = u := by
  have h256 : (256 : Int) ^ w = 2 ^ (8 * w) := by
    rw [show (256 : Int) = 2 ^ 8 by norm_num, ← pow_mul]
  have h2 : (2 : Int) ^ (8 * w) = 2 * 2 ^ (8 * w - 1) := by
    rw [← pow_succ']
    congr 1
    omega
  have hu' : (u : Int) < 256 ^ w := by exact_mod_cast hu
  have hpos : (0 : Int) < 2 ^ (8 * w - 1) := by positivity
  unfold toSigned
  split
  · rename_i hlt
    have hlt' : 2 * (u : Int) < 256 ^ w := by exact_mod_cast hlt
    refine ⟨by omega, by omega, ?_⟩
    rw [← h256]
    exact Int.emod_eq_of_lt (by omega) hu'
  · rename_i hge
    have hge' : ¬ 2 * (u : Int) < 256 ^ w := by exact_mod_cast hge
    refine ⟨by omega, by omega, ?_⟩
    rw [← h256, Int.sub_emod, Int.emod_self, Int.sub_zero, Int.emod_emod]
    exact Int.emod_eq_of_lt (by omega) hu'

theorem sum_bytes_lt (l : Bytes) (hb : ∀ b ∈ l, b < 256) (w pos : Nat) (h : w ≤ l.length - pos) :
    ∑ k in Finset.range w, l.getD (pos + k) 0 * 256 ^ k < 256 ^ w := by
  rw [← leVal_take_drop l w pos h]
  have := leVal_lt ((l.drop pos).take w) (fun b hx => hb b (List.mem_of_mem_drop (List.mem_of_mem_take hx)))
  simpa [List.length_take, List.length_drop, Nat.min_eq_left h] using this

/-! ## The unsigned varint at the front of the input -/

theorem uvarint_length : ∀ (bs : Bytes) (n k : Nat), uvarint bs = some (n, k) →
    0 < k ∧ k ≤ bs.length := by
  intro bs
  induction bs with
  | nil => intro n k h; simp [uvarint] at h
  | cons b rest ih =>
    intro n k h
    unfold uvarint at h
    by_cases hb : b < 128
    · rw [if_pos hb] at h
      simp only [Option.some.injEq, Prod.mk.injEq] at h
      simp only [List.length_cons]
      omega
    · rw [if_neg hb] at h
      cases hr : uvarint rest with
      | none => rw [hr] at h; simp at h
      | some p =>
        obtain ⟨v, m⟩ := p
        rw [hr] at h
        simp only [Option.some.injEq, Prod.mk.injEq] at h
        have := ih v m hr
        simp only [List.length_cons]
        omega

theorem ReadUvarint64_ok (d : Decoder) (n k : Nat)
    (hv : uvarint (d.data.drop d.pos) = some (n, k)) :
    Decoder.ReadUvarint64 d = ({ d with pos := d.pos + k }, n % 2 ^ 64, none) := by
  unfold Decoder.ReadUvarint64
  rw [hv]

theorem ReadUvarint64_none (d : Decoder) (hv : uvarint (d.data.drop d.pos) = none) :
    Decoder.ReadUvarint64 d = (d, 0, some (.std (.sentinel "ErrVarIntBufferSize"))) := by
  unfold Decoder.ReadUvarint64
  rw [hv]

theorem ReadByteArray_ok (d : Decoder) (n k : Nat)
    (hv : uvarint (d.data.drop d.pos) = some (n, k)) (hn : n < 2 ^ 64)
    (hl : k + n ≤ d.remaining) :
    Decoder.ReadByteArray d
      = ({ d with pos := d.pos + k + n }, (d.data.drop (d.pos + k)).take n, none) := by
  unfold Decoder.ReadByteArray
  rw [ReadUvarint64_ok d n k hv, Nat.mod_eq_of_lt hn]
  have : ¬ (Decoder.remaining { d with pos := d.pos + k }) < n := by
    unfold Decoder.remaining at hl ⊢
    simp only
    omega
  simp only [if_neg this]

theorem ReadByteArray_short (d : Decoder) (n k : Nat)
    (hv : uvarint (d.data.drop d.pos) = some (n, k)) (hn : n < 2 ^ 64)
    (hl : d.remaining - k < n) :
    Decoder.ReadByteArray d
      = ({ d with pos := d.pos + k }, [],
          some (.errorf ("byte array: varlen=" ++ Nat.repr n ++ ", missing "
            ++ Nat.repr (n - (d.remaining - k)) ++ " bytes"))) := by
  unfold Decoder.ReadByteArray
  rw [ReadUvarint64_ok d n k hv, Nat.mod_eq_of_lt hn]
  have hr : Decoder.remaining { d with pos := d.pos + k } = d.remaining - k := by
    unfold Decoder.remaining
    simp only
    omega
  simp only [hr, if_pos hl]

/-! ## The fixed-width reads -/

/-- C13: with at least `w` bytes remaining, `w` being 1, 2, 4 or 8, the read
`ReadUint8/16/32/64` of that width succeeds with the little-endian value `u` of the next
`w` bytes, and `ReadInt8/16/32/64` succeeds with the two's-complement reading `s` of the
same bytes: the number of the signed range of the width that agrees with `u` modulo
`2^(8w)`.  Both leave the same decoder, whose `remaining()` is smaller by exactly `w` and
whose cursor is within the buffer. -/
theorem fixed_width_reads (d : Decoder) (w : Nat) (hw : w = 1 ∨ w = 2 ∨ w = 4 ∨ w = 8)
    (hb : ∀ b ∈ d.data, b < 256) (h : w ≤ d.remaining) :
    ∃ (u : Nat) (s : Int) (d1 : Decoder),
      u = ∑ k in Finset.range w, d.data.getD (d.pos + k) 0 * 256 ^ k ∧
      (-(2 : Int) ^ (8 * w - 1) ≤ s ∧ s < 2 ^ (8 * w - 1) ∧ s % 2 ^ (8 * w) = u) ∧
      d1.data = d.data ∧ d1.remaining + w = d.remaining ∧ d1.pos ≤ d1.data.length ∧
      (w = 1 → Decoder.ReadUint8 d = (d1, u, none) ∧ Decoder.ReadInt8 d = (d1, s, none)) ∧
      (w = 2 → Decoder.ReadUint16 d = (d1, u, none) ∧ Decoder.ReadInt16 d = (d1, s, none)) ∧
      (w = 4 → Decoder.ReadUint32 d = (d1, u, none) ∧ Decoder.ReadInt32 d = (d1, s, none)) ∧
      (w = 8 → Decoder.ReadUint64 d = (d1, u, none) ∧ Decoder.ReadInt64 d = (d1, s, none)) := by
  have hw0 : 0 < w := by omega
  have hu := sum_bytes_lt d.data hb w d.pos h
  refine ⟨_, toSigned w (∑ k in Finset.range w, d.data.getD (d.pos + k) 0 * 256 ^ k),
    { d with pos := d.pos + w }, rfl, toSigned_spec w _ hw0 hu, rfl, ?_, ?_, ?_, ?_, ?_, ?_⟩
  · unfold Decoder.remaining at h ⊢
    simp only
    omega
  · unfold Decoder.remaining at h
    simp only
    omega
  · intro h1
    subst h1
    exact ⟨readUint_ok "uint8" 1 d h, readInt_ok "int8" 1 d h⟩
  · intro h1
    subst h1
    exact ⟨readUint_ok "uint16" 2 d h, readInt_ok "int16" 2 d h⟩
  · intro h1
    subst h1
    exact ⟨readUint_ok "uint32" 4 d h, readInt_ok "int32" 4 d h⟩
  · intro h1
    subst h1
    exact ⟨readUint_ok "uint64" 8 d h, readInt_ok "int64" 8 d h⟩

/-- The reads of `TestDecoder_int8` and `TestDecoder_int16`: the byte `9d` is `-99`, the
byte `64` is `100`, the bytes `ae ff` are `-82`; the theorem at the first of them. -/
theorem fixed_width_reads_witness :
    (1 ≤ (Decoder.mk [0x9d] 0).remaining ∧
      ∃ (u : Nat) (s : Int) (d1 : Decoder),
        u = ∑ k in Finset.range 1, (Decoder.mk [0x9d] 0).data.getD ((Decoder.mk [0x9d] 0).pos + k) 0 * 256 ^ k ∧
        (-(2 : Int) ^ (8 * 1 - 1) ≤ s ∧ s < 2 ^ (8 * 1 - 1) ∧ s % 2 ^ (8 * 1) = u) ∧
        d1.data = [0x9d] ∧ d1.remaining + 1 = (Decoder.mk [0x9d] 0).remaining ∧
        d1.pos ≤ d1.data.length ∧
        (1 = 1 → Decoder.ReadUint8 ⟨[0x9d], 0⟩ = (d1, u, none) ∧
          Decoder.ReadInt8 ⟨[0x9d], 0⟩ = (d1, s, none)) ∧
        (1 = 2 → Decoder.ReadUint16 ⟨[0x9d], 0⟩ = (d1, u, none) ∧
          Decoder.ReadInt16 ⟨[0x9d], 0⟩ = (d1, s, none)) ∧
        (1 = 4 → Decoder.ReadUint32 ⟨[0x9d], 0⟩ = (d1, u, none) ∧
          Decoder.ReadInt32 ⟨[0x9d], 0⟩ = (d1, s, none)) ∧
        (1 = 8 → Decoder.ReadUint64 ⟨[0x9d], 0⟩ = (d1, u, none) ∧
          Decoder.ReadInt64 ⟨[0x9d], 0⟩ = (d1, s, none))) ∧
    Decoder.ReadInt8 ⟨[0x9d, 0x64], 0⟩ = (⟨[0x9d, 0x64], 1⟩, -99, none) ∧
    Decoder.ReadInt8 ⟨[0x9d, 0x64], 1⟩ = (⟨[0x9d, 0x64], 2⟩, 100, none) ∧
    Decoder.ReadInt16 ⟨[0xae, 0xff], 0⟩ = (⟨[0xae, 0xff], 2⟩, -82, none) ∧
    Decoder.ReadUint16 ⟨[0xae, 0xff], 0⟩ = (⟨[0xae, 0xff], 2⟩, 65454, none) :=
  ⟨⟨by decide, fixed_width_reads ⟨[0x9d], 0⟩ 1 (Or.inl rfl) (by decide) (by decide)⟩,
    by decide, by decide, by decide, by decide⟩

/-! ## Strings and byte arrays -/

/-- C14: when the unread part of the buffer starts with an unsigned varint `n` that takes
`k` bytes and at least `n` bytes follow it, `ReadString` and `ReadByteArray` succeed with
exactly the `n` bytes after the prefix, whatever they are, and `remaining()` is smaller by
`k + n`; in particular, when the byte at the cursor is `0x00` the result is the empty string
and one byte is consumed. -/
theorem ReadString_ReadByteArray_exact (d : Decoder) :
    (∀ n k, uvarint (d.data.drop d.pos) = some (n, k) → n < 2 ^ 64 → k + n ≤ d.remaining →
      ∃ (bytes : Bytes) (d1 : Decoder),
        Decoder.ReadByteArray d = (d1, bytes, none) ∧
        Decoder.ReadString d = (d1, bytes, none) ∧
        bytes = (d.data.drop (d.pos + k)).take n ∧ bytes.length = n ∧
        d1.data = d.data ∧ d1.remaining + (k + n) = d.remaining) ∧
    (∀ rest, d.data.drop d.pos = 0 :: rest →
      Decoder.ReadString d = ({ d with pos := d.pos + 1 }, [], none) ∧
      Decoder.ReadByteArray d = ({ d with pos := d.pos + 1 }, [], none) ∧
      (Decoder.remaining { d with pos := d.pos + 1 }) + 1 = d.remaining) := by
  constructor
  · intro n k hv hn hl
    have hr := ReadByteArray_ok d n k hv hn hl
    refine ⟨_, _, hr, hr, rfl, ?_, rfl, ?_⟩
    · unfold Decoder.remaining at hl
      simp only [List.length_take, List.length_drop]
      omega
    · unfold Decoder.remaining at hl ⊢
      simp only
      omega
  · intro rest hrest
    have hv : uvarint (d.data.drop d.pos) = some (0, 1) := by
      rw [hrest]
      rfl
    have hl : 1 + 0 ≤ d.remaining := by
      rw [← drop_length_remaining, hrest]
      simp
    have hr := ReadByteArray_ok d 0 1 hv (by norm_num) hl
    simp only [List.take_zero, Nat.add_zero] at hr
    refine ⟨hr, hr, ?_⟩
    unfold Decoder.remaining at hl ⊢
    simp only
    omega

/-- The three reads of `TestDecoder_string` on `03 31 32 33 00 03 61 62 63`: `123`, the empty
string and `abc`, with 5, 4 and 0 bytes remaining; and bytes that are not UTF-8 come back as
they are. -/
theorem ReadString_ReadByteArray_exact_witness :
    (uvarint ((Decoder.mk [3, 0x31, 0x32, 0x33, 0, 3, 0x61, 0x62, 0x63] 0).data.drop 0) = some (3, 1) ∧
      (3 : Nat) < 2 ^ 64 ∧
      1 + 3 ≤ (Decoder.mk [3, 0x31, 0x32, 0x33, 0, 3, 0x61, 0x62, 0x63] 0).remaining) ∧
    (∃ (bytes : Bytes) (d1 : Decoder),
      Decoder.ReadByteArray ⟨[3, 0x31, 0x32, 0x33, 0, 3, 0x61, 0x62, 0x63], 0⟩ = (d1, bytes, none) ∧
      Decoder.ReadString ⟨[3, 0x31, 0x32, 0x33, 0, 3, 0x61, 0x62, 0x63], 0⟩ = (d1, bytes, none) ∧
      bytes = (List.drop (0 + 1) [3, 0x31, 0x32, 0x33, 0, 3, 0x61, 0x62, 0x63]).take 3 ∧
      bytes.length = 3 ∧
      d1.data = [3, 0x31, 0x32, 0x33, 0, 3, 0x61, 0x62, 0x63] ∧
      d1.remaining + (1 + 3) = (Decoder.mk [3, 0x31, 0x32, 0x33, 0, 3, 0x61, 0x62, 0x63] 0).remaining) ∧
    Decoder.ReadString ⟨[3, 0x31, 0x32, 0x33, 0, 3, 0x61, 0x62, 0x63], 0⟩
      = (⟨[3, 0x31, 0x32, 0x33, 0, 3, 0x61, 0x62, 0x63], 4⟩, lit "123", none) ∧
    (Decoder.mk [3, 0x31, 0x32, 0x33, 0, 3, 0x61, 0x62, 0x63] 4).remaining = 5 ∧
    Decoder.ReadString ⟨[3, 0x31, 0x32, 0x33, 0, 3, 0x61, 0x62, 0x63], 4⟩
      = (⟨[3, 0x31, 0x32, 0x33, 0, 3, 0x61, 0x62, 0x63], 5⟩, [], none) ∧
    (Decoder.mk [3, 0x31, 0x32, 0x33, 0, 3, 0x61, 0x62, 0x63] 5).remaining = 4 ∧
    Decoder.ReadString ⟨[3, 0x31, 0x32, 0x33, 0, 3, 0x61, 0x62, 0x63], 5⟩
      = (⟨[3, 0x31, 0x32, 0x33, 0, 3, 0x61, 0x62, 0x63], 9⟩, lit "abc", none) ∧
    (Decoder.mk [3, 0x31, 0x32, 0x33, 0, 3, 0x61, 0x62, 0x63] 9).remaining = 0 ∧
    Decoder.ReadString ⟨[2, 0xff, 0xc0], 0⟩ = (⟨[2, 0xff, 0xc0], 3⟩, [0xff, 0xc0], none) :=
  ⟨⟨by decide, by decide, by decide⟩,
    (ReadString_ReadByteArray_exact ⟨[3, 0x31, 0x32, 0x33, 0, 3, 0x61, 0x62, 0x63], 0⟩).1 3 1
      (by decide) (by decide) (by decide),
    by decide, by decide, by decide, by decide, by decide, by decide, by decide⟩

/-- C15: when the unread part of the buffer starts with an unsigned varint `n` that takes
`k` bytes and only `m < n` bytes follow it, `ReadByteArray`, `ReadString` and `Decode` into
a string all fail with the message `byte array: varlen=<n>, missing <n - m> bytes`; the
reads return no bytes and `Decode` leaves the destination as it was. -/
theorem byte_array_shortfall (extText : ExtError → Text) (d : Decoder) (n k m : Nat)
    (hv : uvarint (d.data.drop d.pos) = some (n, k)) (hn : n < 2 ^ 64)
    (hm : m + k = d.remaining) (hlt : m < n) :
    ∃ (err : GoError) (d1 : Decoder),
      err.Error extText
        = "byte array: varlen=" ++ Nat.repr n ++ ", missing " ++ Nat.repr (n - m) ++ " bytes" ∧
      Decoder.ReadByteArray d = (d1, [], some err) ∧
      Decoder.ReadString d = (d1, [], some err) ∧
      ∀ dest, Decoder.Decode extText .string dest d = (dest, d1, some err) := by
  have hm' : d.remaining - k = m := by omega
  have hr := ReadByteArray_short d n k hv hn (by omega)
  rw [hm'] at hr
  refine ⟨.errorf ("byte array: varlen=" ++ Nat.repr n ++ ", missing "
    ++ Nat.repr (n - m) ++ " bytes"), _, rfl, hr, hr, ?_⟩
  intro dest
  unfold Decoder.Decode Decoder.ReadString
  rw [hr]

/-- The buffer `0a` of `TestDecoder_ByteArray_MissingData`: `varlen=10, missing 10 bytes`;
and with three of the ten bytes present, `missing 7 bytes`. -/
theorem byte_array_shortfall_witness :
    (uvarint ((Decoder.mk [0x0a] 0).data.drop 0) = some (10, 1) ∧ (10 : Nat) < 2 ^ 64 ∧
      0 + 1 = (Decoder.mk [0x0a] 0).remaining ∧ 0 < 10) ∧
    (∃ (err : GoError) (d1 : Decoder),
      err.Error (fun _ => "")
        = "byte array: varlen=" ++ Nat.repr 10 ++ ", missing " ++ Nat.repr (10 - 0) ++ " bytes" ∧
      Decoder.ReadByteArray ⟨[0x0a], 0⟩ = (d1, [], some err) ∧
      Decoder.ReadString ⟨[0x0a], 0⟩ = (d1, [], some err) ∧
      ∀ dest, Decoder.Decode (fun _ => "") .string dest ⟨[0x0a], 0⟩ = (dest, d1, some err)) ∧
    (Decoder.ReadByteArray ⟨[0x0a], 0⟩).2
      = ([], some (.errorf "byte array: varlen=10, missing 10 bytes")) ∧
    (Decoder.ReadString ⟨[0x0a, 1, 2, 3], 0⟩).2
      = ([], some (.errorf "byte array: varlen=10, missing 7 bytes")) :=
  ⟨⟨by decide, by decide, by decide, by decide⟩,
    byte_array_shortfall (fun _ => "") ⟨[0x0a], 0⟩ 10 1 0 (by decide) (by decide) (by decide)
      (by decide),
    by decide, by decide⟩

/-! ## The varint and the little-endian words written and read back -/

theorem uvarint_putUvarintAux (rest : Bytes) : ∀ (fuel n : Nat), n ≤ fuel →
    uvarint (putUvarintAux fuel n ++ rest) = some (n, (putUvarintAux fuel n).length) := by
  intro fuel
  induction fuel with
  | zero =>
    intro n h
    have : n = 0 := by omega
    subst this
    rfl
  | succ fuel ih =>
    intro n h
    unfold putUvarintAux
    by_cases hn : n < 128
    · rw [if_pos hn]
      simp only [List.singleton_append, uvarint, if_pos hn, List.length_singleton]
    · rw [if_neg hn]
      have hb : ¬ n % 128 + 128 < 128 := by omega
      simp only [List.cons_append, uvarint, if_neg hb, List.append_eq, ih (n / 128) (by omega),
        List.length_cons, Option.some.injEq, Prod.mk.injEq, and_true]
      omega

theorem uvarint_putUvarint (n : Nat) (rest : Bytes) :
    uvarint (putUvarint n ++ rest) = some (n, (putUvarint n).length) :=
  uvarint_putUvarintAux rest n n (Nat.le_refl n)

theorem uvarint_take_putUvarintAux : ∀ (fuel n j : Nat), j < (putUvarintAux fuel n).length →
    uvarint ((putUvarintAux fuel n).take j) = none := by
  intro fuel
  induction fuel with
  | zero =>
    intro n j h
    simp only [putUvarintAux, List.length_singleton] at h
    have : j = 0 := by omega
    subst this
    rfl
  | succ fuel ih =>
    intro n j h
    unfold putUvarintAux at h ⊢
    by_cases hn : n < 128
    · rw [if_pos hn] at h ⊢
      simp only [List.length_singleton] at h
      have : j = 0 := by omega
      subst this
      rfl
    · rw [if_neg hn] at h ⊢
      cases j with
      | zero => rfl
      | succ j =>
        simp only [List.length_cons] at h
        have hb : ¬ n % 128 + 128 < 128 := by omega
        simp only [List.take_succ_cons, uvarint, if_neg hb, ih (n / 128) j (by omega)]

theorem uvarint_take_putUvarint (n j : Nat) (h : j < (putUvarint n).length) :
    uvarint ((putUvarint n).take j) = none :=
  uvarint_take_putUvarintAux n n j h

theorem putUvarint_length_pos (n : Nat) : 0 < (putUvarint n).length := by
  have h := uvarint_putUvarint n []
  exact (uvarint_length _ _ _ h).1

theorem unzigzag_zigzag (x : Int) : unzigzag (zigzag x) = x := by
  unfold unzigzag zigzag
  by_cases hx : 0 ≤ x
  · rw [if_pos hx]
    have h1 : (2 * x).toNat % 2 = 0 := by omega
    rw [if_pos h1]
    omega
  · rw [if_neg hx]
    have h1 : ¬ (-2 * x - 1).toNat % 2 = 0 := by omega
    rw [if_neg h1]
    omega

theorem zigzag_lt (x : Int) (b : Nat) (h1 : -(2 : Int) ^ b ≤ x) (h2 : x < (2 : Int) ^ b) :
    zigzag x < 2 ^ (b + 1) := by
  have hp : ((2 ^ (b + 1) : Nat) : Int) = 2 * 2 ^ b := by
    push_cast
    ring
  generalize (2 : Int) ^ b = p at *
  unfold zigzag
  split <;> omega

theorem leBytesN_length : ∀ (w x : Nat), (leBytesN w x).length = w := by
  intro w
  induction w with
  | zero => intro x; rfl
  | succ w ih => intro x; simp [leBytesN, ih]

theorem leVal_leBytesN : ∀ (w x : Nat), leVal (leBytesN w x) = x % 256 ^ w := by
  intro w
  induction w with
  | zero => intro x; simp [leBytesN, leVal, Nat.mod_one]
  | succ w ih =>
    intro x
    simp only [leBytesN, leVal, ih]
    rw [pow_succ, Nat.mul_comm (256 ^ w) 256, Nat.mod_mul]

theorem toSigned_write (w : Nat) (v : Int) (h1 : -((256 : Int) ^ w) ≤ 2 * v)
    (h2 : 2 * v < (256 : Int) ^ w) :
    toSigned w ((v % 256 ^ w).toNat % 256 ^ w) = v := by
  have hp : (0 : Int) < 256 ^ w := by positivity
  have hc : ((256 ^ w : Nat) : Int) = (256 : Int) ^ w := by push_cast; rfl
  have hm0 : 0 ≤ v % 256 ^ w := Int.emod_nonneg _ (by omega)
  have hm1 : v % 256 ^ w < 256 ^ w := Int.emod_lt_of_pos _ hp
  have hlt : (v % 256 ^ w).toNat < 256 ^ w := by
    have : ((v % 256 ^ w).toNat : Int) < ((256 ^ w : Nat) : Int) := by
      rw [Int.toNat_of_nonneg hm0, hc]
      exact hm1
    exact_mod_cast this
  rw [Nat.mod_eq_of_lt hlt]
  unfold toSigned
  have hcast : (((v % 256 ^ w).toNat : Nat) : Int) = v % 256 ^ w := Int.toNat_of_nonneg hm0
  by_cases hv : 0 ≤ v
  · have hmod : v % 256 ^ w = v := Int.emod_eq_of_lt hv (by omega)
    have hc2 : 2 * (v % 256 ^ w).toNat < 256 ^ w := by
      have : ((2 * (v % 256 ^ w).toNat : Nat) : Int) < ((256 ^ w : Nat) : Int) := by
        push_cast
        rw [hcast, hmod]
        exact h2
      exact_mod_cast this
    rw [if_pos hc2, hcast, hmod]
  · have hmod : v % 256 ^ w = v + 256 ^ w := by
      rw [← Int.add_emod_self]
      exact Int.emod_eq_of_lt (by omega) (by omega)
    have hc2 : ¬ 2 * (v % 256 ^ w).toNat < 256 ^ w := by
      intro hh
      have : ((2 * (v % 256 ^ w).toNat : Nat) : Int) < ((256 ^ w : Nat) : Int) := by
        exact_mod_cast hh
      push_cast at this
      rw [hcast, hmod] at this
      omega
    rw [if_neg hc2, hcast, hmod]
    omega

theorem fit_exact (n : Nat) (z : Value) (items : List Value) (h : items.length = n) :
    fit n z items = items := by
  unfold fit
  subst h
  simp

theorem fit_length (n : Nat) (z : Value) (items : List Value) : (fit n z items).length = n := by
  unfold fit
  simp only [List.length_append, List.length_take, List.length_replicate]
  omega

/-! ## Reading what was written, and reading a part of it -/

theorem drop_advance (l bs rest : Bytes) (pos : Nat) (h : l.drop pos = bs ++ rest) :
    l.drop (pos + bs.length) = rest := by
  rw [← List.drop_drop, h, List.drop_left]

theorem front_within (d : Decoder) (bs rest : Bytes) (h : d.data.drop d.pos = bs ++ rest) :
    bs.length ≤ d.remaining := by
  rw [← drop_length_remaining, h, List.length_append]
  omega

theorem front_cursor (d : Decoder) (bs rest : Bytes) (hp : d.pos ≤ d.data.length)
    (h : d.data.drop d.pos = bs ++ rest) : d.pos + bs.length ≤ d.data.length := by
  have := front_within d bs rest h
  unfold Decoder.remaining at this
  omega

theorem part_remaining (d : Decoder) (bs : Bytes) (j : Nat) (hj : j < bs.length)
    (h : d.data.drop d.pos = bs.take j) : d.remaining = j := by
  rw [← drop_length_remaining, h, List.length_take]
  omega

theorem readFixed_front (what : Text) (d : Decoder) (bs rest : Bytes)
    (h : d.data.drop d.pos = bs ++ rest) :
    Decoder.readFixed what bs.length d = ({ d with pos := d.pos + bs.length }, bs, none) := by
  rw [readFixed_ok what bs.length d (front_within d bs rest h), h, List.take_left]

theorem readFixed_part (what : Text) (d : Decoder) (bs : Bytes) (j : Nat) (hj : j < bs.length)
    (h : d.data.drop d.pos = bs.take j) :
    Decoder.readFixed what bs.length d
      = (d, [], some (.std (.bufferTooSmall what bs.length j))) := by
  have hr := part_remaining d bs j hj h
  rw [readFixed_short what bs.length d (by omega), hr]

theorem ReadUvarint64_front (d : Decoder) (n : Nat) (rest : Bytes)
    (h : d.data.drop d.pos = putUvarint n ++ rest) :
    Decoder.ReadUvarint64 d
      = ({ d with pos := d.pos + (putUvarint n).length }, n % 2 ^ 64, none) :=
  ReadUvarint64_ok d n _ (by rw [h]; exact uvarint_putUvarint n rest)

theorem ReadUvarint64_part (d : Decoder) (n j : Nat) (hj : j < (putUvarint n).length)
    (h : d.data.drop d.pos = (putUvarint n).take j) :
    Decoder.ReadUvarint64 d = (d, 0, some (.std (.sentinel "ErrVarIntBufferSize"))) :=
  ReadUvarint64_none d (by rw [h]; exact uvarint_take_putUvarint n j hj)

theorem short_fixed (extText : ExtError → Text) (what : Text) (w j : Nat) (h : j < w) :
    GoError.Truncation extText (.std (.bufferTooSmall what w j)) :=
  .bare _ (.fixed what w j h)

theorem short_varint (extText : ExtError → Text) :
    GoError.Truncation extText (.std (.sentinel "ErrVarIntBufferSize")) :=
  .bare _ .varint

/-- The wire form of a value followed by the wire form of the values after it is the wire
form of the whole, for a loop that stops at the first failure. -/
theorem wire_cons (extText : ExtError → Text) (bs1 bs2 : Bytes)
    (enc1 enc2 encAll : Encoder → Encoder × Option GoError)
    (dec1 : Decoder → Decoded Value) (dec2 decAll : Decoder → Decoded (List Value))
    (v : Value) (vs tl : List Value)
    (h1 : WireAs extText bs1 enc1 dec1 v) (h2 : WireAs extText bs2 enc2 dec2 vs)
    (henc : ∀ e, encAll e = match enc1 e with
      | (e1, some err) => (e1, some err)
      | (e1, none) => enc2 e1)
    (hdec : ∀ d, decAll d = match dec1 d with
      | (v1, d1, some e) => (v1 :: tl, d1, some e)
      | (v1, d1, none) =>
        match dec2 d1 with
        | (vs1, d2, err) => (v1 :: vs1, d2, err)) :
    WireAs extText (bs1 ++ bs2) encAll decAll (v :: vs) := by
  obtain ⟨e1, f1, t1⟩ := h1
  obtain ⟨e2, f2, t2⟩ := h2
  refine ⟨?_, ?_, ?_⟩
  · intro e
    rw [henc, e1]
    simp only [e2, List.append_assoc]
  · intro d rest h
    rw [List.append_assoc] at h
    rw [hdec, f1 d (bs2 ++ rest) h]
    have h' : (Decoder.mk d.data (d.pos + bs1.length)).data.drop
        (Decoder.mk d.data (d.pos + bs1.length)).pos = bs2 ++ rest :=
      drop_advance d.data bs1 (bs2 ++ rest) d.pos h
    simp only [f2 _ rest h', List.length_append, Nat.add_assoc]
  · intro d j hj hp h
    rw [List.length_append] at hj
    rw [hdec]
    by_cases hlt : j < bs1.length
    · rw [List.take_append_of_le_length (by omega)] at h
      obtain ⟨v1, d1, err, hd, he, hdata, hpos⟩ := t1 d j hlt hp h
      rw [hd]
      exact ⟨_, _, _, rfl, he, hdata, hpos⟩
    · have hge : bs1.length ≤ j := by omega
      rw [List.take_append_eq_append_take, List.take_of_length_le hge] at h
      rw [f1 d _ h]
      have h' : (Decoder.mk d.data (d.pos + bs1.length)).data.drop
          (Decoder.mk d.data (d.pos + bs1.length)).pos = bs2.take (j - bs1.length) :=
        drop_advance d.data bs1 _ d.pos h
      obtain ⟨vs1, d2, err, hd, he, hdata, hpos⟩ :=
        t2 _ (j - bs1.length) (by omega) (front_cursor d bs1 _ hp h) h'
      simp only [hd]
      exact ⟨_, _, _, rfl, he, hdata, hpos⟩

/-- The wire form of nothing. -/
theorem wire_nil (extText : ExtError → Text)
    (enc : Encoder → Encoder × Option GoError) (dec : Decoder → Decoded (List Value))
    (henc : ∀ e, enc e = (e, none)) (hdec : ∀ d, dec d = ([], d, none)) :
    WireAs extText [] enc dec [] := by
  refine ⟨?_, ?_, ?_⟩
  · intro e
    rw [henc, List.append_nil]
  · intro d rest _
    rw [hdec]
    rfl
  · intro d j hj
    simp at hj

/-- The elements of an array or sequence, one after the other. -/
theorem wire_each (extText : ExtError → Text)
    (enc : Value → Encoder → Encoder × Option GoError)
    (dec : Value → Decoder → Decoded Value) :
    ∀ (vs : List Value), (∀ v ∈ vs, ∃ bs, ∀ dest, WireAs extText bs (enc v) (dec dest) v) →
      ∃ bs, ∀ dests : List Value, dests.length = vs.length →
        WireAs extText bs (encodeEach enc vs) (decodeEach dec dests) vs := by
  intro vs
  induction vs with
  | nil =>
    intro _
    refine ⟨[], ?_⟩
    intro dests hl
    have : dests = [] := List.length_eq_zero.mp hl
    subst this
    exact wire_nil extText _ _ (fun _ => rfl) (fun _ => rfl)
  | cons v vs ih =>
    intro h
    obtain ⟨bs1, h1⟩ := h v (List.mem_cons_self _ _)
    obtain ⟨bs2, h2⟩ := ih (fun x hx => h x (List.mem_cons_of_mem _ hx))
    refine ⟨bs1 ++ bs2, ?_⟩
    intro dests hl
    cases dests with
    | nil => simp at hl
    | cons t ts =>
      simp only [List.length_cons, Nat.add_right_cancel_iff] at hl
      exact wire_cons extText bs1 bs2 (enc v) (encodeEach enc vs) _ (dec t)
        (decodeEach dec ts) _ v vs ts (h1 t) (h2 ts hl) (fun _ => rfl) (fun _ => rfl)

/-! ## The wire form of the built-in kinds and of the leaf types -/

/-- A value written as `w` bytes and read back through the bounds check of the fixed-size
reads. -/
theorem wire_fixed {α : Type} (extText : ExtError → Text) (what : Text) (w : Nat) (bs : Bytes)
    (enc : Encoder → Encoder × Option GoError) (dec : Decoder → Decoded α) (v : α)
    (hlen : bs.length = w)
    (henc : ∀ e, enc e = ({ out := e.out ++ bs }, none))
    (hok : ∀ d, Decoder.readFixed what w d = ({ d with pos := d.pos + w }, bs, none) →
      dec d = (v, { d with pos := d.pos + w }, none))
    (hfail : ∀ d err, Decoder.readFixed what w d = (d, [], some err) →
      ∃ v1, dec d = (v1, d, some err)) :
    WireAs extText bs enc dec v := by
  subst hlen
  refine ⟨henc, ?_, ?_⟩
  · intro d rest h
    exact hok d (readFixed_front what d bs rest h)
  · intro d j hj hp h
    obtain ⟨v1, hv⟩ := hfail d _ (readFixed_part what d bs j hj h)
    exact ⟨v1, d, _, hv, short_fixed extText what _ j hj, rfl, hp⟩

/-- A value written as the unsigned varint of `n` and read back through the varint read. -/
theorem wire_varint {α : Type} (extText : ExtError → Text) (n : Nat)
    (enc : Encoder → Encoder × Option GoError) (dec : Decoder → Decoded α) (v : α)
    (henc : ∀ e, enc e = ({ out := e.out ++ putUvarint n }, none))
    (hok : ∀ d d1, Decoder.ReadUvarint64 d = (d1, n % 2 ^ 64, none) → dec d = (v, d1, none))
    (hfail : ∀ d, Decoder.ReadUvarint64 d = (d, 0, some (.std (.sentinel "ErrVarIntBufferSize"))) →
      ∃ v1 err, dec d = (v1, d, some err) ∧ err.Truncation extText) :
    WireAs extText (putUvarint n) enc dec v := by
  refine ⟨henc, ?_, ?_⟩
  · intro d rest h
    exact hok d _ (ReadUvarint64_front d n rest h)
  · intro d j hj hp h
    obtain ⟨v1, err, hv, he⟩ := hfail d (ReadUvarint64_part d n j hj h)
    exact ⟨v1, d, err, hv, he, rfl, hp⟩

theorem ReadByteArray_front (d : Decoder) (b rest : Bytes) (hb : b.length < 2 ^ 64)
    (h : d.data.drop d.pos = (putUvarint b.length ++ b) ++ rest) :
    Decoder.ReadByteArray d
      = ({ d with pos := d.pos + (putUvarint b.length ++ b).length }, b, none) := by
  have hw := front_within d _ rest h
  rw [List.append_assoc] at h
  have hv : uvarint (d.data.drop d.pos) = some (b.length, (putUvarint b.length).length) := by
    rw [h]
    exact uvarint_putUvarint _ _
  rw [List.length_append] at hw
  rw [ReadByteArray_ok d b.length _ hv hb hw]
  have := drop_advance d.data _ _ d.pos h
  rw [this, List.take_left, List.length_append, Nat.add_assoc]

theorem ReadByteArray_part (d : Decoder) (b : Bytes) (j : Nat) (hb : b.length < 2 ^ 64)
    (hj : j < (putUvarint b.length ++ b).length) (hp : d.pos ≤ d.data.length)
    (h : d.data.drop d.pos = (putUvarint b.length ++ b).take j) :
    ∃ (d1 : Decoder) (err : GoError), Decoder.ReadByteArray d = (d1, [], some err) ∧
      err.Short ∧ d1.data = d.data ∧ d1.pos ≤ d1.data.length := by
  have hr := part_remaining d _ j hj h
  rw [List.length_append] at hj
  by_cases hlt : j < (putUvarint b.length).length
  · rw [List.take_append_of_le_length (by omega)] at h
    have h0 := ReadUvarint64_part d b.length j hlt h
    refine ⟨d, _, ?_, .varint, rfl, hp⟩
    unfold Decoder.ReadByteArray
    rw [h0]
  · have hge : (putUvarint b.length).length ≤ j := by omega
    rw [List.take_append_eq_append_take, List.take_of_length_le hge] at h
    have hv : uvarint (d.data.drop d.pos) = some (b.length, (putUvarint b.length).length) := by
      rw [h]
      exact uvarint_putUvarint _ _
    have hs := ReadByteArray_short d b.length _ hv hb (by omega)
    refine ⟨_, _, hs, ?_, rfl, ?_⟩
    · exact .bytes b.length (d.remaining - (putUvarint b.length).length) (by omega)
    · have := front_cursor d _ _ hp h
      exact this

/-- A byte array written with its length in front and read back. -/
theorem wire_bytes {α : Type} (extText : ExtError → Text) (b : Bytes) (hb : b.length < 2 ^ 64)
    (enc : Encoder → Encoder × Option GoError) (dec : Decoder → Decoded α) (v : α)
    (henc : ∀ e, enc e = ({ out := e.out ++ (putUvarint b.length ++ b) }, none))
    (hok : ∀ d d1, Decoder.ReadByteArray d = (d1, b, none) → dec d = (v, d1, none))
    (hfail : ∀ d d1 err, Decoder.ReadByteArray d = (d1, [], some err) → err.Short →
      ∃ v1 err1, dec d = (v1, d1, some err1) ∧ err1.Truncation extText) :
    WireAs extText (putUvarint b.length ++ b) enc dec v := by
  refine ⟨henc, ?_, ?_⟩
  · intro d rest h
    exact hok d _ (ReadByteArray_front d b rest hb h)
  · intro d j hj hp h
    obtain ⟨d1, err, hr, hs, hdata, hpos⟩ := ReadByteArray_part d b j hb hj hp h
    obtain ⟨v1, err1, hv, he⟩ := hfail d d1 err hr hs
    exact ⟨v1, d1, err1, hv, he, hdata, hpos⟩

theorem wire_uint (extText : ExtError → Text) (w n : Nat) (h : n < 256 ^ w) (dest : Value) :
    WireAs extText (leBytesN w n) (Encoder.Encode (.uint w) (.uint n))
      (Decoder.Decode extText (.uint w) dest) (.uint n) := by
  apply wire_fixed extText "uint" w _ _ _ _ (leBytesN_length w n)
  · intro e
    rfl
  · intro d hd
    simp only [Decoder.Decode, Decoder.readUint, hd, leVal_leBytesN, Nat.mod_eq_of_lt h]
  · intro d err hd
    exact ⟨dest, by simp only [Decoder.Decode, Decoder.readUint, hd]⟩

theorem wire_float (extText : ExtError → Text) (w n : Nat) (h : n < 256 ^ w) (dest : Value) :
    WireAs extText (leBytesN w n) (Encoder.Encode (.float w) (.uint n))
      (Decoder.Decode extText (.float w) dest) (.uint n) := by
  apply wire_fixed extText "float" w _ _ _ _ (leBytesN_length w n)
  · intro e
    rfl
  · intro d hd
    simp only [Decoder.Decode, Decoder.readUint, hd, leVal_leBytesN, Nat.mod_eq_of_lt h]
  · intro d err hd
    exact ⟨dest, by simp only [Decoder.Decode, Decoder.readUint, hd]⟩

theorem wire_int (extText : ExtError → Text) (w : Nat) (n : Int)
    (h1 : -((256 : Int) ^ w) ≤ 2 * n) (h2 : 2 * n < (256 : Int) ^ w) (dest : Value) :
    WireAs extText (leBytesN w (n % 256 ^ w).toNat) (Encoder.Encode (.int w) (.int n))
      (Decoder.Decode extText (.int w) dest) (.int n) := by
  apply wire_fixed extText "int" w _ _ _ _ (leBytesN_length w _)
  · intro e
    rfl
  · intro d hd
    simp only [Decoder.Decode, Decoder.readInt, hd, leVal_leBytesN, toSigned_write w n h1 h2]
  · intro d err hd
    exact ⟨dest, by simp only [Decoder.Decode, Decoder.readInt, hd]⟩

theorem leVal_bool (b : Bool) : decide (leVal [if b then 1 else 0] ≠ 0) = b := by
  cases b <;> simp [leVal]

theorem wire_bool (extText : ExtError → Text) (b : Bool) (dest : Value) :
    WireAs extText [if b then 1 else 0] (Encoder.Encode .bool (.bool b))
      (Decoder.Decode extText .bool dest) (.bool b) := by
  apply wire_fixed extText "bool" 1 [if b then 1 else 0] _ _ _ rfl
  · intro e
    rfl
  · intro d hd
    simp only [Decoder.Decode, Decoder.ReadBool, hd, leVal_bool]
  · intro d err hd
    exact ⟨dest, by simp only [Decoder.Decode, Decoder.ReadBool, hd]⟩

theorem wire_string (extText : ExtError → Text) (b : Bytes) (hb : b.length < 2 ^ 64)
    (dest : Value) :
    WireAs extText (putUvarint b.length ++ b) (Encoder.Encode .string (.bytes b))
      (Decoder.Decode extText .string dest) (.bytes b) := by
  apply wire_bytes extText b hb
  · intro e
    rfl
  · intro d d1 hd
    simp only [Decoder.Decode, Decoder.ReadString, hd]
  · intro d d1 err hd hs
    exact ⟨dest, err, by simp only [Decoder.Decode, Decoder.ReadString, hd], .bare _ hs⟩

theorem wire_leaf_bool (extText : ExtError → Text) (b : Bool) (dest : Value) :
    WireAs extText [if b then 1 else 0] (Leaf.Encode .bool (.bool b))
      (Leaf.Decode extText .bool dest) (.bool b) := by
  apply wire_fixed extText "bool" 1 [if b then 1 else 0] _ _ _ rfl
  · intro e
    rfl
  · intro d hd
    simp only [Leaf.Decode, Bool.UnmarshalBinary, Decoder.ReadBool, hd, leVal_bool]
  · intro d err hd
    exact ⟨_, by simp only [Leaf.Decode, Bool.UnmarshalBinary, Decoder.ReadBool, hd]; rfl⟩

theorem wire_leaf_hexBytes (extText : ExtError → Text) (b : Bytes) (hb : b.length < 2 ^ 64)
    (dest : Value) :
    WireAs extText (putUvarint b.length ++ b) (Leaf.Encode .hexBytes (.bytes b))
      (Leaf.Decode extText .hexBytes dest) (.bytes b) := by
  apply wire_bytes extText b hb
  · intro e
    rfl
  · intro d d1 hd
    simp only [Leaf.Decode, HexBytes.UnmarshalBinary, hd]
  · intro d d1 err hd hs
    exact ⟨_, _, by simp only [Leaf.Decode, HexBytes.UnmarshalBinary, hd]; rfl,
      .labelled "hex bytes: " err (by simp) hs⟩

theorem int16_back (n : Int) (h1 : -(2 : Int) ^ 15 ≤ n) (h2 : n < (2 : Int) ^ 15) :
    toSigned 2 (n % 2 ^ 16).toNat = n := by
  unfold toSigned
  norm_num at h1 h2 ⊢
  split <;> omega

theorem int32_back (n : Int) (h1 : -(2 : Int) ^ 31 ≤ n) (h2 : n < (2 : Int) ^ 31) :
    toSigned 4 (n % 2 ^ 32).toNat = n := by
  unfold toSigned
  norm_num at h1 h2 ⊢
  split <;> omega

theorem wire_leaf_varint16 (extText : ExtError → Text) (n : Int)
    (h1 : -(2 : Int) ^ 15 ≤ n) (h2 : n < (2 : Int) ^ 15) (dest : Value) :
    WireAs extText (putUvarint (zigzag n)) (Leaf.Encode .varint16 (.int n))
      (Leaf.Decode extText .varint16 dest) (.int n) := by
  have hz : zigzag n < 2 ^ 64 :=
    Nat.lt_of_lt_of_le (zigzag_lt n 15 h1 h2) (by norm_num)
  apply wire_varint extText
  · intro e
    rfl
  · intro d d1 hd
    simp only [Leaf.Decode, Varint16.UnmarshalBinary, Decoder.ReadVarint16,
      Decoder.ReadVarint64, hd, Nat.mod_eq_of_lt hz, unzigzag_zigzag, int16_back n h1 h2]
  · intro d hd
    exact ⟨_, _, by simp only [Leaf.Decode, Varint16.UnmarshalBinary, Decoder.ReadVarint16,
      Decoder.ReadVarint64, hd]; rfl, .labelled "varint16: " _ (by simp) .varint⟩

theorem wire_leaf_varint32 (extText : ExtError → Text) (n : Int)
    (h1 : -(2 : Int) ^ 31 ≤ n) (h2 : n < (2 : Int) ^ 31) (dest : Value) :
    WireAs extText (putUvarint (zigzag n)) (Leaf.Encode .varint32 (.int n))
      (Leaf.Decode extText .varint32 dest) (.int n) := by
  have hz : zigzag n < 2 ^ 64 :=
    Nat.lt_of_lt_of_le (zigzag_lt n 31 h1 h2) (by norm_num)
  apply wire_varint extText
  · intro e
    rfl
  · intro d d1 hd
    simp only [Leaf.Decode, Varint32.UnmarshalBinary, Decoder.ReadVarint32,
      Decoder.ReadVarint64, hd, Nat.mod_eq_of_lt hz, unzigzag_zigzag, int32_back n h1 h2]
  · intro d hd
    exact ⟨_, _, by simp only [Leaf.Decode, Varint32.UnmarshalBinary, Decoder.ReadVarint32,
      Decoder.ReadVarint64, hd]; rfl, .bare _ .varint⟩

theorem uvarint_arg (n : Nat) (h : n < 2 ^ 64) : ((n : Int) % 2 ^ 64).toNat = n := by
  omega

theorem wire_leaf_varuint16 (extText : ExtError → Text) (n : Nat) (h : n < 2 ^ 16)
    (dest : Value) :
    WireAs extText (putUvarint n) (Leaf.Encode .varuint16 (.uint n))
      (Leaf.Decode extText .varuint16 dest) (.uint n) := by
  have h64 : n < 2 ^ 64 := Nat.lt_of_lt_of_le h (by norm_num)
  apply wire_varint extText
  · intro e
    simp only [Leaf.Encode, Varuint16.MarshalBinary, Encoder.writeUVarInt, Value.nat,
      uvarint_arg n h64, Encoder.toWriter]
  · intro d d1 hd
    simp only [Leaf.Decode, Varuint16.UnmarshalBinary, Decoder.ReadUvarint16, hd,
      Nat.mod_eq_of_lt h64, Nat.mod_eq_of_lt h]
  · intro d hd
    exact ⟨_, _, by simp only [Leaf.Decode, Varuint16.UnmarshalBinary, Decoder.ReadUvarint16,
                      hd]; rfl, .labelled "varuint16: " _ (by simp) .varint⟩

theorem wire_leaf_varuint32 (extText : ExtError → Text) (n : Nat) (h : n < 2 ^ 32)
    (dest : Value) :
    WireAs extText (putUvarint n) (Leaf.Encode .varuint32 (.uint n))
      (Leaf.Decode extText .varuint32 dest) (.uint n) := by
  have h64 : n < 2 ^ 64 := Nat.lt_of_lt_of_le h (by norm_num)
  apply wire_varint extText
  · intro e
    simp only [Leaf.Encode, Varuint32.MarshalBinary, Encoder.writeUVarInt, Value.nat,
      uvarint_arg n h64, Encoder.toWriter]
  · intro d d1 hd
    simp only [Leaf.Decode, Varuint32.UnmarshalBinary, hd,
      Nat.mod_eq_of_lt h64, Nat.mod_eq_of_lt h]
  · intro d hd
    exact ⟨_, _, by simp only [Leaf.Decode, Varuint32.UnmarshalBinary, hd]; rfl,
      .labelled "varuint32: " _ (by simp) .varint⟩

theorem wire_leaf_jsonFloat64 (extText : ExtError → Text) (n : Nat) (h : n < 2 ^ 64)
    (dest : Value) :
    WireAs extText (leBytesN 8 n) (Leaf.Encode .jsonFloat64 (.uint n))
      (Leaf.Decode extText .jsonFloat64 dest) (.uint n) := by
  apply wire_fixed extText "float64" 8 _ _ _ _ (leBytesN_length 8 n)
  · intro e
    rfl
  · intro d hd
    simp only [Leaf.Decode, JSONFloat64.UnmarshalBinary, Decoder.ReadFloat64, Decoder.readUint,
      hd, leVal_leBytesN, Nat.mod_eq_of_lt (show n < 256 ^ 8 from h)]
  · intro d err hd
    exact ⟨_, by simp only [Leaf.Decode, JSONFloat64.UnmarshalBinary, Decoder.ReadFloat64,
      Decoder.readUint, hd]; rfl⟩

theorem wire_leaf_uint64 (extText : ExtError → Text) (n : Nat) (h : n < 2 ^ 64)
    (dest : Value) :
    WireAs extText (leBytesN 8 n) (Leaf.Encode .uint64 (.uint n))
      (Leaf.Decode extText .uint64 dest) (.uint n) := by
  apply wire_fixed extText "uint64" 8 _ _ _ _ (leBytesN_length 8 n)
  · intro e
    rfl
  · intro d hd
    simp only [Leaf.Decode, Uint64.UnmarshalBinary, Decoder.ReadUint64, Decoder.readUint,
      hd, leVal_leBytesN, Nat.mod_eq_of_lt (show n < 256 ^ 8 from h)]
  · intro d err hd
    exact ⟨_, by simp only [Leaf.Decode, Uint64.UnmarshalBinary, Decoder.ReadUint64,
      Decoder.readUint, hd]; rfl⟩

theorem wire_leaf_int64 (extText : ExtError → Text) (n : Int)
    (h1 : -(2 : Int) ^ 63 ≤ n) (h2 : n < (2 : Int) ^ 63) (dest : Value) :
    WireAs extText (leBytesN 8 (n % 256 ^ 8).toNat) (Leaf.Encode .int64 (.int n))
      (Leaf.Decode extText .int64 dest) (.int n) := by
  have hb := toSigned_write 8 n (by norm_num at h1 ⊢; omega) (by norm_num at h2 ⊢; omega)
  apply wire_fixed extText "int64" 8 _ _ _ _ (leBytesN_length 8 _)
  · intro e
    rfl
  · intro d hd
    simp only [Leaf.Decode, Int64.UnmarshalBinary, Decoder.ReadInt64, Decoder.readInt,
      hd, leVal_leBytesN, hb]
  · intro d err hd
    exact ⟨_, by simp only [Leaf.Decode, Int64.UnmarshalBinary, Decoder.ReadInt64,
      Decoder.readInt, hd]; rfl⟩

theorem wide_length (lo hi : Nat) : (leBytesN 8 lo ++ leBytesN 8 hi).length = 16 := by
  simp [leBytesN_length]

theorem wide_lo (lo hi : Nat) (h : lo < 2 ^ 64) :
    leVal ((leBytesN 8 lo ++ leBytesN 8 hi).take 8) = lo := by
  have : (leBytesN 8 lo ++ leBytesN 8 hi).take 8 = leBytesN 8 lo := by
    have := List.take_left (leBytesN 8 lo) (leBytesN 8 hi)
    rwa [leBytesN_length] at this
  rw [this, leVal_leBytesN, Nat.mod_eq_of_lt (show lo < 256 ^ 8 from h)]

theorem wide_hi (lo hi : Nat) (h : hi < 2 ^ 64) :
    leVal ((leBytesN 8 lo ++ leBytesN 8 hi).drop 8) = hi := by
  have : (leBytesN 8 lo ++ leBytesN 8 hi).drop 8 = leBytesN 8 hi := by
    have := List.drop_left (leBytesN 8 lo) (leBytesN 8 hi)
    rwa [leBytesN_length] at this
  rw [this, leVal_leBytesN, Nat.mod_eq_of_lt (show hi < 256 ^ 8 from h)]

theorem wire_leaf_uint128 (extText : ExtError → Text) (lo hi : Nat) (h1 : lo < 2 ^ 64)
    (h2 : hi < 2 ^ 64) (dest : Value) :
    WireAs extText (leBytesN 8 lo ++ leBytesN 8 hi) (Leaf.Encode .uint128 (.wide lo hi))
      (Leaf.Decode extText .uint128 dest) (.wide lo hi) := by
  apply wire_fixed extText "uint128" 16 _ _ _ _ (wide_length lo hi)
  · intro e
    rfl
  · intro d hd
    simp only [Leaf.Decode, Uint128.UnmarshalBinary, Decoder.ReadUint128, hd,
      wide_lo lo hi h1, wide_hi lo hi h2]
  · intro d err hd
    exact ⟨_, by simp only [Leaf.Decode, Uint128.UnmarshalBinary, Decoder.ReadUint128, hd]; rfl⟩

theorem wire_leaf_int128 (extText : ExtError → Text) (lo hi : Nat) (h1 : lo < 2 ^ 64)
    (h2 : hi < 2 ^ 64) (dest : Value) :
    WireAs extText (leBytesN 8 lo ++ leBytesN 8 hi) (Leaf.Encode .int128 (.wide lo hi))
      (Leaf.Decode extText .int128 dest) (.wide lo hi) := by
  apply wire_fixed extText "int128" 16 _ _ _ _ (wide_length lo hi)
  · intro e
    rfl
  · intro d hd
    simp only [Leaf.Decode, Int128.UnmarshalBinary, Decoder.ReadInt128, Decoder.ReadUint128,
      hd, wide_lo lo hi h1, wide_hi lo hi h2]
  · intro d err hd
    exact ⟨_, by simp only [Leaf.Decode, Int128.UnmarshalBinary, Decoder.ReadInt128,
      Decoder.ReadUint128, hd]; rfl⟩

theorem wire_leaf_float128 (extText : ExtError → Text) (lo hi : Nat) (h1 : lo < 2 ^ 64)
    (h2 : hi < 2 ^ 64) (dest : Value) :
    WireAs extText (leBytesN 8 lo ++ leBytesN 8 hi) (Leaf.Encode .float128 (.wide lo hi))
      (Leaf.Decode extText .float128 dest) (.wide lo hi) := by
  apply wire_fixed extText "float128" 16 _ _ _ _ (wide_length lo hi)
  · intro e
    rfl
  · intro d hd
    simp only [Leaf.Decode, Float128.UnmarshalBinary, Decoder.ReadFloat128,
      Decoder.ReadUint128, hd, wide_lo lo hi h1, wide_hi lo hi h2]
  · intro d err hd
    exact ⟨_, by simp only [Leaf.Decode, Float128.UnmarshalBinary, Decoder.ReadFloat128,
      Decoder.ReadUint128, hd]; rfl⟩

/-- Every value of a leaf type has a wire form. -/
theorem wire_leaf (extText : ExtError → Text) (k : Leaf) (v : Value) (h : k.Holds v) :
    ∃ bs, ∀ dest, WireAs extText bs (Leaf.Encode k v) (Leaf.Decode extText k dest) v := by
  cases k <;> cases v <;> simp only [Leaf.Holds] at h
  · exact ⟨_, wire_leaf_bool extText _⟩
  · exact ⟨_, wire_leaf_hexBytes extText _ h⟩
  · exact ⟨_, wire_leaf_varint16 extText _ h.1 h.2⟩
  · exact ⟨_, wire_leaf_varuint16 extText _ h⟩
  · exact ⟨_, wire_leaf_varuint32 extText _ h⟩
  · exact ⟨_, wire_leaf_varint32 extText _ h.1 h.2⟩
  · exact ⟨_, wire_leaf_jsonFloat64 extText _ h⟩
  · exact ⟨_, wire_leaf_int64 extText _ h.1 h.2⟩
  · exact ⟨_, wire_leaf_uint64 extText _ h⟩
  · exact ⟨_, wire_leaf_uint128 extText _ _ h.1 h.2⟩
  · exact ⟨_, wire_leaf_int128 extText _ _ h.1 h.2⟩
  · exact ⟨_, wire_leaf_float128 extText _ _ h.1 h.2⟩

/-! ## The wire form of every value of a supported shape -/

/-- The wire form is kept when the result of the decoding is wrapped. -/
theorem wire_map {α β : Type} (extText : ExtError → Text) (f : α → β) (bs : Bytes)
    (enc : Encoder → Encoder × Option GoError) (dec : Decoder → Decoded α)
    (decAll : Decoder → Decoded β) (v : α) (h : WireAs extText bs enc dec v)
    (hdec : ∀ d, decAll d = match dec d with
      | (x, d1, err) => (f x, d1, err)) :
    WireAs extText bs enc decAll (f v) := by
  obtain ⟨e1, f1, t1⟩ := h
  refine ⟨e1, ?_, ?_⟩
  · intro d rest hd
    rw [hdec, f1 d rest hd]
  · intro d j hj hp hd
    obtain ⟨v1, d1, err, hv, he, hdata, hpos⟩ := t1 d j hj hp hd
    rw [hdec, hv]
    exact ⟨_, _, _, rfl, he, hdata, hpos⟩

/-- A count written as an unsigned varint in front of the wire form of the elements. -/
theorem wire_count {α β : Type} (extText : ExtError → Text) (n : Nat) (bs2 : Bytes)
    (enc2 encAll : Encoder → Encoder × Option GoError) (dec2 : Decoder → Decoded α)
    (decAll : Decoder → Decoded β) (f : α → β) (dest : β) (v : α)
    (h2 : WireAs extText bs2 enc2 dec2 v)
    (henc : ∀ e, encAll e = enc2 { out := e.out ++ putUvarint n })
    (hok : ∀ d d1, Decoder.ReadUvarint64 d = (d1, n % 2 ^ 64, none) →
      decAll d = match dec2 d1 with
        | (x, d2, err) => (f x, d2, err))
    (hfail : ∀ d e, Decoder.ReadUvarint64 d = (d, 0, some e) → decAll d = (dest, d, some e)) :
    WireAs extText (putUvarint n ++ bs2) encAll decAll (f v) := by
  obtain ⟨e2, f2, t2⟩ := h2
  refine ⟨?_, ?_, ?_⟩
  · intro e
    rw [henc, e2]
    simp only [List.append_assoc]
  · intro d rest h
    rw [List.append_assoc] at h
    rw [hok d _ (ReadUvarint64_front d n _ h)]
    have h' : (Decoder.mk d.data (d.pos + (putUvarint n).length)).data.drop
        (Decoder.mk d.data (d.pos + (putUvarint n).length)).pos = bs2 ++ rest :=
      drop_advance d.data _ (bs2 ++ rest) d.pos h
    simp only [f2 _ rest h', List.length_append, Nat.add_assoc]
  · intro d j hj hp h
    rw [List.length_append] at hj
    by_cases hlt : j < (putUvarint n).length
    · rw [List.take_append_of_le_length (by omega)] at h
      rw [hfail d _ (ReadUvarint64_part d n j hlt h)]
      exact ⟨_, _, _, rfl, short_varint extText, rfl, hp⟩
    · have hge : (putUvarint n).length ≤ j := by omega
      rw [List.take_append_eq_append_take, List.take_of_length_le hge] at h
      rw [hok d _ (ReadUvarint64_front d n _ h)]
      have h' : (Decoder.mk d.data (d.pos + (putUvarint n).length)).data.drop
          (Decoder.mk d.data (d.pos + (putUvarint n).length)).pos
            = bs2.take (j - (putUvarint n).length) :=
        drop_advance d.data _ _ d.pos h
      obtain ⟨v1, d2, err, hv, he, hdata, hpos⟩ :=
        t2 _ (j - (putUvarint n).length) (by omega) (front_cursor d _ _ hp h) h'
      simp only [hv]
      exact ⟨_, _, _, rfl, he, hdata, hpos⟩

mutual
/-- Every value of a supported shape has a wire form: `Encode` appends it, `Decode` reads
the value back from it into any destination, and `Decode` fails on a buffer that ends
inside it. -/
theorem wire_shape (extText : ExtError → Text) : ∀ (sh : Shape) (v : Value), Shape.Holds sh v →
    ∃ bs, ∀ dest,
      WireAs extText bs (Encoder.Encode sh v) (Decoder.Decode extText sh dest) v
  | .uint w, v, h => by
    cases v <;> simp only [Shape.Holds] at h
    exact ⟨_, wire_uint extText w _ h⟩
  | .int w, v, h => by
    cases v <;> simp only [Shape.Holds] at h
    exact ⟨_, wire_int extText w _ h.2.1 h.2.2⟩
  | .float w, v, h => by
    cases v <;> simp only [Shape.Holds] at h
    exact ⟨_, wire_float extText w _ h⟩
  | .bool, v, h => by
    cases v <;> simp only [Shape.Holds] at h
    exact ⟨_, wire_bool extText _⟩
  | .string, v, h => by
    cases v <;> simp only [Shape.Holds] at h
    exact ⟨_, wire_string extText _ h⟩
  | .array n elem, v, h => by
    cases v <;> simp only [Shape.Holds] at h
    rename_i items
    obtain ⟨hl, hall⟩ := h
    obtain ⟨bs, hbs⟩ := wire_each extText (Encoder.Encode elem) (Decoder.Decode extText elem)
      items (fun x hx => wire_shape extText elem x (hall x hx))
    refine ⟨bs, fun dest => ?_⟩
    have h1 := hbs (fit n elem.zero dest.items) (by rw [fit_length, hl])
    have henc : Encoder.Encode (.array n elem) (.list items)
        = encodeEach (Encoder.Encode elem) items := by
      funext e
      simp only [Encoder.Encode, Value.items, fit_exact n _ items hl]
    rw [henc]
    exact wire_map extText Value.list bs _ _ _ items h1
      (fun d => by simp only [Decoder.Decode])
  | .slice elem, v, h => by
    cases v <;> simp only [Shape.Holds] at h
    rename_i items
    obtain ⟨hl, hall⟩ := h
    obtain ⟨bs, hbs⟩ := wire_each extText (Encoder.Encode elem) (Decoder.Decode extText elem)
      items (fun x hx => wire_shape extText elem x (hall x hx))
    refine ⟨putUvarint items.length ++ bs, fun dest => ?_⟩
    have h1 := hbs (List.replicate items.length elem.zero) (by simp)
    apply wire_count extText items.length bs _ _ _ _ Value.list dest items h1
    · intro e
      simp only [Encoder.Encode, Encoder.writeUVarInt, Encoder.toWriter, Value.items,
        uvarint_arg items.length hl]
    · intro d d1 hd
      simp only [Decoder.Decode, hd, Nat.mod_eq_of_lt hl]
    · intro d e hd
      simp only [Decoder.Decode, hd]
  | .record fields, v, h => by
    cases v <;> simp only [Shape.Holds] at h
    rename_i items
    obtain ⟨bs, hbs⟩ := wire_fields extText fields items h
    refine ⟨bs, fun dest => ?_⟩
    have henc : Encoder.Encode (.record fields) (.list items)
        = Encoder.encodeFields fields items := by
      funext e
      simp only [Encoder.Encode, Value.items]
    rw [henc]
    exact wire_map extText Value.list bs _ _ _ items (hbs dest.items)
      (fun d => by simp only [Decoder.Decode])
  | .leaf k, v, h => by
    simp only [Shape.Holds] at h
    obtain ⟨bs, hbs⟩ := wire_leaf extText k v h
    refine ⟨bs, fun dest => ?_⟩
    have henc : Encoder.Encode (.leaf k) v = Leaf.Encode k v := by
      funext e
      simp only [Encoder.Encode]
    have hdec : Decoder.Decode extText (.leaf k) dest = Leaf.Decode extText k dest := by
      funext d
      simp only [Decoder.Decode]
    rw [henc, hdec]
    exact hbs dest
  | .unsupported name, v, h => by
    simp only [Shape.Holds] at h
/-- The values of the fields of a record have a wire form, one after the other. -/
theorem wire_fields (extText : ExtError → Text) : ∀ (fs : List Shape) (vs : List Value),
    Shape.HoldAll fs vs →
    ∃ bs, ∀ dests,
      WireAs extText bs (Encoder.encodeFields fs vs) (Decoder.decodeFields extText fs dests) vs
  | [], vs, h => by
    cases vs <;> simp only [Shape.HoldAll] at h
    exact ⟨[], fun dests => wire_nil extText _ _ (fun e => by simp only [Encoder.encodeFields])
      (fun d => by simp only [Decoder.decodeFields])⟩
  | f :: fs, vs, h => by
    cases vs <;> simp only [Shape.HoldAll] at h
    rename_i v vs
    obtain ⟨bs1, h1⟩ := wire_shape extText f v h.1
    obtain ⟨bs2, h2⟩ := wire_fields extText fs vs h.2
    refine ⟨bs1 ++ bs2, fun dests => ?_⟩
    exact wire_cons extText bs1 bs2 (Encoder.Encode f v) (Encoder.encodeFields fs vs) _
      (Decoder.Decode extText f (dests.headD f.zero)) (Decoder.decodeFields extText fs dests.tail)
      _ v vs dests.tail (h1 _) (h2 _)
      (fun e => by simp only [Encoder.encodeFields, List.headD_cons, List.tail_cons])
      (fun d => by simp only [Decoder.decodeFields])
end

/-! ## The round trip on the wire -/

/-- C12: for every value `v` of a supported shape, `Encode` succeeds, and decoding the
bytes it produced into a fresh destination succeeds, gives `v` back exactly, and leaves the
cursor at the end of the buffer: `remaining()` is zero. -/
theorem wire_roundtrip (extText : ExtError → Text) (sh : Shape) (v : Value)
    (h : Shape.Holds sh v) :
    ∃ bytes : Bytes, Encode sh v = (bytes, none) ∧
      Decoder.Decode extText sh sh.zero (NewDecoder bytes) = (v, ⟨bytes, bytes.length⟩, none) ∧
      (Decoder.mk bytes bytes.length).remaining = 0 := by
  obtain ⟨bs, hbs⟩ := wire_shape extText sh v h
  obtain ⟨henc, hdec, _⟩ := hbs sh.zero
  refine ⟨bs, ?_, ?_, ?_⟩
  · unfold Encode
    rw [henc]
    rfl
  · have := hdec (NewDecoder bs) [] (by simp [NewDecoder])
    simpa [NewDecoder] using this
  · simp [Decoder.remaining]

/-- The struct of `TestDecoder_BinaryStruct`: the expected field values are a value of its
shape, they encode to the bytes of the test, and those bytes decode to them, all 152 bytes
consumed. -/
theorem wire_roundtrip_witness :
    Shape.Holds binaryTestStruct binaryTestValue ∧
    (∃ bytes : Bytes, Encode binaryTestStruct binaryTestValue = (bytes, none) ∧
      Decoder.Decode (fun _ => "") binaryTestStruct binaryTestStruct.zero (NewDecoder bytes)
        = (binaryTestValue, ⟨bytes, bytes.length⟩, none) ∧
      (Decoder.mk bytes bytes.length).remaining = 0) ∧
    Encode binaryTestStruct binaryTestValue = (binaryTestBytes, none) ∧
    binaryTestBytes.length = 152 :=
  have hh : Shape.Holds binaryTestStruct binaryTestValue := by
    simp [binaryTestStruct, binaryTestValue, Shape.Holds, Shape.HoldAll, Leaf.Holds, lit]
  ⟨hh, wire_roundtrip (fun _ => "") binaryTestStruct binaryTestValue hh, by rfl, by rfl⟩

/-! ## Decoding a buffer that ends too early -/

theorem encode_bytes (extText : ExtError → Text) (sh : Shape) (v : Value) (bs : Bytes)
    (dest : Value)
    (h : WireAs extText bs (Encoder.Encode sh v) (Decoder.Decode extText sh dest) v) :
    Encode sh v = (bs, none) := by
  unfold Encode
  rw [h.1]
  rfl

theorem labelled_not_short (label rest : Text) (h : label.data.head? = some 'v' ∨
    label.data.head? = some 'h') : ¬ GoError.Short (.errorf (label ++ rest)) := by
  intro hs
  generalize he : GoError.errorf (label ++ rest) = e at hs
  cases hs with
  | fixed what required available hlt => simp at he
  | varint => simp at he
  | bytes n m hlt =>
    simp only [GoError.errorf.injEq] at he
    have hd := congrArg (fun s => s.data.head?) he
    simp only [String.data_append, List.head?_append] at hd
    rcases h with h | h <;> rw [h] at hd <;> simp at hd

/-! ## The reads of the decoder on a buffer cut short -/

theorem uvarint_append : ∀ (a b : Bytes) (n k : Nat), uvarint (a ++ b) = some (n, k) →
    (k ≤ a.length → uvarint a = some (n, k)) ∧ (a.length < k → uvarint a = none) := by
  intro a
  induction a with
  | nil =>
    intro b n k h
    have := (uvarint_length _ _ _ h).1
    refine ⟨fun hk => ?_, fun _ => rfl⟩
    simp only [List.length_nil] at hk
    omega
  | cons x xs ih =>
    intro b n k h
    simp only [List.cons_append, uvarint] at h
    by_cases hx : x < 128
    · rw [if_pos hx] at h
      simp only [Option.some.injEq, Prod.mk.injEq] at h
      obtain ⟨h1, h2⟩ := h
      subst h1 h2
      refine ⟨fun _ => by simp only [uvarint, if_pos hx], fun hk => ?_⟩
      simp only [List.length_cons] at hk
      omega
    · rw [if_neg hx] at h
      simp only [List.append_eq] at h
      cases hr : uvarint (xs ++ b) with
      | none => rw [hr] at h; simp at h
      | some p =>
        obtain ⟨v, m⟩ := p
        rw [hr] at h
        simp only [Option.some.injEq, Prod.mk.injEq] at h
        obtain ⟨h1, h2⟩ := h
        subst h1 h2
        obtain ⟨ia, ib⟩ := ih b v m hr
        refine ⟨fun hk => ?_, fun hk => ?_⟩
        · simp only [List.length_cons] at hk
          simp only [uvarint, if_neg hx, ia (by omega)]
        · simp only [List.length_cons] at hk
          simp only [uvarint, if_neg hx, ib (by omega)]

theorem drop_append_within (data ext : Bytes) (pos : Nat) (h : pos ≤ data.length) :
    (data ++ ext).drop pos = data.drop pos ++ ext :=
  List.drop_append_of_le_length h

theorem remaining_mk (data : Bytes) (pos : Nat) :
    (Decoder.mk data pos).remaining = data.length - pos := rfl

theorem readFixed_cut (what : Text) (w : Nat) : CutShort (Decoder.readFixed what w) := by
  intro data ext pos v d1 hp h
  unfold Decoder.readFixed at h
  by_cases hr : (Decoder.mk (data ++ ext) pos).remaining < w
  · rw [if_pos hr] at h
    simp at h
  · rw [if_neg hr] at h
    simp only [Prod.mk.injEq, and_true] at h
    obtain ⟨h1, h2⟩ := h
    subst h1 h2
    rw [remaining_mk, List.length_append] at hr
    refine ⟨rfl, Nat.le_add_right _ _, ?_, ?_, ?_⟩
    · simp only [List.length_append]
      omega
    · intro hle
      simp only at hle
      have hw : w ≤ (Decoder.mk data pos).remaining := by
        rw [remaining_mk]
        omega
      rw [readFixed_ok what w ⟨data, pos⟩ hw]
      simp only [drop_append_within data ext pos hp]
      rw [List.take_append_of_le_length (by rw [List.length_drop]; omega)]
    · intro hlt
      simp only at hlt
      have hw : (Decoder.mk data pos).remaining < w := by
        rw [remaining_mk]
        omega
      exact ⟨_, _, _, readFixed_short what w ⟨data, pos⟩ hw,
        .fixed what w _ hw, rfl, hp⟩

theorem ReadUvarint64_cut : CutShort Decoder.ReadUvarint64 := by
  intro data ext pos v d1 hp h
  unfold Decoder.ReadUvarint64 at h
  simp only [drop_append_within data ext pos hp] at h
  cases hu : uvarint (data.drop pos ++ ext) with
  | none => rw [hu] at h; simp at h
  | some p =>
    obtain ⟨n, k⟩ := p
    rw [hu] at h
    simp only [Prod.mk.injEq, and_true] at h
    obtain ⟨h1, h2⟩ := h
    subst h1 h2
    have hk := (uvarint_length _ _ _ hu).2
    rw [List.length_append, List.length_drop] at hk
    obtain ⟨ua, ub⟩ := uvarint_append (data.drop pos) ext n k hu
    rw [List.length_drop] at ua ub
    refine ⟨rfl, Nat.le_add_right _ _, ?_, ?_, ?_⟩
    · simp only [List.length_append]
      omega
    · intro hle
      simp only at hle
      exact ReadUvarint64_ok ⟨data, pos⟩ n k (ua (by omega))
    · intro hlt
      simp only at hlt
      exact ⟨_, _, _, ReadUvarint64_none ⟨data, pos⟩ (ub (by omega)), .varint, rfl, hp⟩

theorem ReadByteArray_cut : CutShort Decoder.ReadByteArray := by
  intro data ext pos v d1 hp h
  unfold Decoder.ReadByteArray at h
  rcases hv : Decoder.ReadUvarint64 ⟨data ++ ext, pos⟩ with ⟨d0, l, _ | e⟩
  · obtain ⟨c1, c2, c3, ca, cb⟩ := ReadUvarint64_cut data ext pos l d0 hp hv
    rw [hv] at h
    simp only at h
    by_cases hr : d0.remaining < l
    · rw [if_pos hr] at h
      simp at h
    · rw [if_neg hr] at h
      simp only [Prod.mk.injEq, and_true] at h
      obtain ⟨h1, h2⟩ := h
      subst h1 h2
      have hr' : l ≤ (data ++ ext).length - d0.pos := by
        unfold Decoder.remaining at hr
        rw [c1] at hr
        omega
      rw [List.length_append] at hr' c3
      refine ⟨c1, by simp only; omega, ?_, ?_, ?_⟩
      · simp only [List.length_append]
        omega
      · intro hle
        simp only at hle
        have h0 := ca (by omega)
        unfold Decoder.ReadByteArray
        rw [h0]
        have hnr : ¬ (Decoder.mk data d0.pos).remaining < l := by
          rw [remaining_mk]
          omega
        simp only [if_neg hnr, c1]
        rw [drop_append_within data ext d0.pos (by omega),
          List.take_append_of_le_length (by rw [List.length_drop]; omega)]
      · intro hlt
        simp only at hlt
        by_cases hin : d0.pos ≤ data.length
        · have h0 := ca hin
          have hsr : (Decoder.mk data d0.pos).remaining < l := by
            rw [remaining_mk]
            omega
          refine ⟨[], ⟨data, d0.pos⟩, _, ?_, .bytes l (Decoder.mk data d0.pos).remaining hsr,
            rfl, hin⟩
          unfold Decoder.ReadByteArray
          rw [h0]
          simp only [if_pos hsr]
        · obtain ⟨v1, d2, err, hf, hs, hd, hq⟩ := cb (by omega)
          refine ⟨[], d2, err, ?_, hs, hd, hq⟩
          unfold Decoder.ReadByteArray
          rw [hf]
  · rw [hv] at h
    simp at h

/-- A read made of another read and a conversion of its result. -/
theorem cutShort_map {α β : Type} (read : Read α) (read2 : Read β) (g : α → β) (z : β)
    (h : CutShort read)
    (hdef : ∀ d, read2 d = match read d with
      | (d1, _, some e) => (d1, z, some e)
      | (d1, x, none) => (d1, g x, none)) :
    CutShort read2 := by
  intro data ext pos v d1 hp hr
  rw [hdef] at hr
  rcases hv : read ⟨data ++ ext, pos⟩ with ⟨d0, x, _ | e⟩
  · rw [hv] at hr
    simp only [Prod.mk.injEq, and_true] at hr
    obtain ⟨h1, h2⟩ := hr
    subst h1 h2
    obtain ⟨c1, c2, c3, ca, cb⟩ := h data ext pos x d0 hp hv
    refine ⟨c1, c2, c3, ?_, ?_⟩
    · intro hle
      rw [hdef, ca hle]
    · intro hlt
      obtain ⟨v1, d2, err, hf, hs, hd, hq⟩ := cb hlt
      refine ⟨z, d2, err, ?_, hs, hd, hq⟩
      rw [hdef, hf]
  · rw [hv] at hr
    simp at hr

theorem readUint_cut (what : Text) (w : Nat) : CutShort (Decoder.readUint what w) :=
  cutShort_map _ _ leVal 0 (readFixed_cut what w) (fun d => by
    unfold Decoder.readUint
    rcases Decoder.readFixed what w d with ⟨d0, x, _ | e⟩ <;> rfl)

theorem readInt_cut (what : Text) (w : Nat) : CutShort (Decoder.readInt what w) :=
  cutShort_map _ _ (fun bs => toSigned w (leVal bs)) 0 (readFixed_cut what w) (fun d => by
    unfold Decoder.readInt
    rcases Decoder.readFixed what w d with ⟨d0, x, _ | e⟩ <;> rfl)

theorem ReadBool_cut : CutShort Decoder.ReadBool :=
  cutShort_map _ _ (fun bs => decide (leVal bs ≠ 0)) false (readFixed_cut "bool" 1) (fun d => by
    unfold Decoder.ReadBool
    rcases Decoder.readFixed "bool" 1 d with ⟨d0, x, _ | e⟩ <;> rfl)

theorem ReadVarint64_cut : CutShort Decoder.ReadVarint64 :=
  cutShort_map _ _ unzigzag 0 ReadUvarint64_cut (fun d => by
    unfold Decoder.ReadVarint64
    rcases Decoder.ReadUvarint64 d with ⟨d0, x, _ | e⟩ <;> rfl)

theorem ReadUvarint16_cut : CutShort Decoder.ReadUvarint16 :=
  cutShort_map _ _ (fun v => v % 2 ^ 16) 0 ReadUvarint64_cut (fun d => by
    unfold Decoder.ReadUvarint16
    rcases Decoder.ReadUvarint64 d with ⟨d0, x, _ | e⟩ <;> rfl)

theorem ReadVarint16_cut : CutShort Decoder.ReadVarint16 :=
  cutShort_map _ _ (fun (v : Int) => toSigned 2 (v % 2 ^ 16).toNat) 0 ReadVarint64_cut (fun d => by
    unfold Decoder.ReadVarint16
    rcases Decoder.ReadVarint64 d with ⟨d0, x, _ | e⟩ <;> rfl)

theorem ReadVarint32_cut : CutShort Decoder.ReadVarint32 :=
  cutShort_map _ _ (fun (v : Int) => toSigned 4 (v % 2 ^ 32).toNat) 0 ReadVarint64_cut (fun d => by
    unfold Decoder.ReadVarint32
    rcases Decoder.ReadVarint64 d with ⟨d0, x, _ | e⟩ <;> rfl)

theorem ReadUint128_cut (label : Text) : CutShort (Decoder.ReadUint128 label) :=
  cutShort_map _ _ (fun bs => { Lo := leVal (bs.take 8), Hi := leVal (bs.drop 8) })
    { Lo := 0, Hi := 0 } (readFixed_cut label 16) (fun d => by
    unfold Decoder.ReadUint128
    rcases Decoder.readFixed label 16 d with ⟨d0, x, _ | e⟩ <;> rfl)

theorem ReadInt128_cut : CutShort Decoder.ReadInt128 := by
  refine cutShort_map (Decoder.ReadUint128 "int128") _
    (fun v => { Lo := v.Lo, Hi := v.Hi }) { Lo := 0, Hi := 0 } (ReadUint128_cut "int128") ?_
  intro d
  unfold Decoder.ReadInt128
  rcases hv : Decoder.ReadUint128 "int128" d with ⟨d0, x, _ | e⟩
  · rfl
  · have : x = { Lo := 0, Hi := 0 } := by
      unfold Decoder.ReadUint128 at hv
      rcases hf : Decoder.readFixed "int128" 16 d with ⟨d3, bs, _ | e3⟩
      · rw [hf] at hv
        simp at hv
      · rw [hf] at hv
        simp only [Prod.mk.injEq] at hv
        exact hv.2.1.symm
    subst this
    rfl

theorem ReadFloat128_cut : CutShort Decoder.ReadFloat128 := by
  refine cutShort_map (Decoder.ReadUint128 "float128") _
    (fun v => { Lo := v.Lo, Hi := v.Hi }) { Lo := 0, Hi := 0 } (ReadUint128_cut "float128") ?_
  intro d
  unfold Decoder.ReadFloat128
  rcases hv : Decoder.ReadUint128 "float128" d with ⟨d0, x, _ | e⟩
  · rfl
  · have : x = { Lo := 0, Hi := 0 } := by
      unfold Decoder.ReadUint128 at hv
      rcases hf : Decoder.readFixed "float128" 16 d with ⟨d3, bs, _ | e3⟩
      · rw [hf] at hv
        simp at hv
      · rw [hf] at hv
        simp only [Prod.mk.injEq] at hv
        exact hv.2.1.symm
    subst this
    rfl

/-! ## Decoding on a buffer cut short -/

theorem cut_pure {α : Type} (extText : ExtError → Text) (x : α) :
    CutSafe extText (fun d => (x, d, none)) := by
  intro data ext pos v d1 hp h
  simp only [Prod.mk.injEq, and_true] at h
  obtain ⟨h1, h2⟩ := h
  subst h1 h2
  refine ⟨rfl, Nat.le_refl _, ?_, fun _ => rfl, fun hlt => ?_⟩
  · simp only [List.length_append]
    omega
  · simp only at hlt
    omega

theorem cut_of_read {α : Type} (extText : ExtError → Text) (read : Read α)
    (wrap : GoError → GoError) (h : CutShort read)
    (hwrap : ∀ e, e.Short → (wrap e).Truncation extText) :
    CutSafe extText (asDecoding read wrap) := by
  intro data ext pos v d1 hp hr
  unfold asDecoding at hr
  rcases hv : read ⟨data ++ ext, pos⟩ with ⟨d0, x, _ | e⟩
  · rw [hv] at hr
    simp only [Prod.mk.injEq, and_true] at hr
    obtain ⟨h1, h2⟩ := hr
    subst h1 h2
    obtain ⟨c1, c2, c3, ca, cb⟩ := h data ext pos x d0 hp hv
    refine ⟨c1, c2, c3, ?_, ?_⟩
    · intro hle
      unfold asDecoding
      rw [ca hle]
    · intro hlt
      obtain ⟨v1, d2, err, hf, hs, hd, hq⟩ := cb hlt
      refine ⟨v1, d2, wrap err, ?_, hwrap err hs, hd, hq⟩
      unfold asDecoding
      rw [hf]
  · rw [hv] at hr
    simp at hr

/-- Two decodings one after the other, the second from where the first stopped. -/
theorem cut_seq {α β γ : Type} (extText : ExtError → Text) (dec1 : Decoder → Decoded β)
    (h1 : CutSafe extText dec1) (dec2 : β → Decoder → Decoded γ)
    (h2 : ∀ x, CutSafe extText (dec2 x)) (decAll : Decoder → Decoded α)
    (onFail : β → α) (f : β → γ → α)
    (hdef : ∀ d, decAll d = match dec1 d with
      | (x, d1, some e) => (onFail x, d1, some e)
      | (x, d1, none) =>
        match dec2 x d1 with
        | (y, d2, err) => (f x y, d2, err)) :
    CutSafe extText decAll := by
  intro data ext pos v dF hp h
  rw [hdef] at h
  rcases hv : dec1 ⟨data ++ ext, pos⟩ with ⟨x, d0, _ | e⟩
  · rw [hv] at h
    simp only at h
    obtain ⟨c1, c2, c3, ca, cb⟩ := h1 data ext pos x d0 hp hv
    obtain ⟨dd, dp⟩ := d0
    simp only at c1 c2 c3 ca cb
    subst c1
    rcases hw : dec2 x ⟨data ++ ext, dp⟩ with ⟨y, d3, err⟩
    rw [hw] at h
    simp only [Prod.mk.injEq] at h
    obtain ⟨g1, g2, g3⟩ := h
    subst g1 g2 g3
    by_cases hin : dp ≤ data.length
    · obtain ⟨e1, e2, e3, ea, eb⟩ := h2 x data ext dp y d3 hin hw
      refine ⟨e1, Nat.le_trans c2 e2, e3, ?_, ?_⟩
      · intro hle
        rw [hdef, ca hin]
        simp only [ea hle]
      · intro hlt
        obtain ⟨v1, d2, err, hf, hs, hd, hq⟩ := eb hlt
        refine ⟨f x v1, d2, err, ?_, hs, hd, hq⟩
        rw [hdef, ca hin]
        simp only [hf]
    · have hw' : dec2 x ⟨(data ++ ext) ++ [], dp⟩ = (y, d3, none) := by
        rw [List.append_nil]
        exact hw
      obtain ⟨e1, e2, e3, _, _⟩ := h2 x (data ++ ext) [] dp y d3 c3 hw'
      rw [List.append_nil] at e1 e3
      refine ⟨e1, Nat.le_trans c2 e2, e3, ?_, ?_⟩
      · intro hle
        omega
      · intro hlt
        obtain ⟨v1, d2, err, hf, hs, hd, hq⟩ := cb (by omega)
        refine ⟨onFail v1, d2, err, ?_, hs, hd, hq⟩
        rw [hdef, hf]
  · rw [hv] at h
    simp at h

theorem bare_truncation (extText : ExtError → Text) :
    ∀ e : GoError, e.Short → (id e).Truncation extText :=
  fun e h => .bare e h

theorem cut_each (extText : ExtError → Text) (dec : Value → Decoder → Decoded Value)
    (h : ∀ dest, CutSafe extText (dec dest)) :
    ∀ dests : List Value, CutSafe extText (decodeEach dec dests) := by
  intro dests
  induction dests with
  | nil => exact cut_pure extText []
  | cons t ts ih =>
    exact cut_seq extText (dec t) (h t) (fun _ => decodeEach dec ts) (fun _ => ih) _
      (fun v1 => v1 :: ts) (fun v1 vs1 => v1 :: vs1) (fun d => by
        rw [decodeEach]
        rcases dec t d with ⟨x, d1, _ | e⟩ <;> rfl)

theorem cut_leaf (extText : ExtError → Text) (k : Leaf) (dest : Value) :
    CutSafe extText (Leaf.Decode extText k dest) := by
  cases k
  · exact cut_seq extText (asDecoding Decoder.ReadBool id)
      (cut_of_read extText _ id ReadBool_cut (bare_truncation extText))
      (fun x d => (x, d, none)) (fun x => cut_pure extText x) _
      (fun _ => .bool dest.toBool) (fun x _ => .bool x) (fun d => by
        simp only [Leaf.Decode, Bool.UnmarshalBinary, asDecoding]
        rcases Decoder.ReadBool d with ⟨d0, x, _ | e⟩ <;> rfl)
  · exact cut_seq extText
      (asDecoding Decoder.ReadByteArray (fun e => .errorf ("hex bytes: " ++ e.Error extText)))
      (cut_of_read extText _ _ ReadByteArray_cut
        (fun e h => .labelled "hex bytes: " e (by simp) h))
      (fun x d => (x, d, none)) (fun x => cut_pure extText x) _
      (fun _ => .bytes dest.toBytes) (fun x _ => .bytes x) (fun d => by
        simp only [Leaf.Decode, HexBytes.UnmarshalBinary, asDecoding]
        rcases Decoder.ReadByteArray d with ⟨d0, x, _ | e⟩ <;> rfl)
  · exact cut_seq extText
      (asDecoding Decoder.ReadVarint16 (fun e => .errorf ("varint16: " ++ e.Error extText)))
      (cut_of_read extText _ _ ReadVarint16_cut
        (fun e h => .labelled "varint16: " e (by simp) h))
      (fun x d => (x, d, none)) (fun x => cut_pure extText x) _
      (fun _ => .int dest.toInt) (fun x _ => .int x) (fun d => by
        simp only [Leaf.Decode, Varint16.UnmarshalBinary, asDecoding]
        rcases Decoder.ReadVarint16 d with ⟨d0, x, _ | e⟩ <;> rfl)
  · exact cut_seq extText
      (asDecoding Decoder.ReadUvarint16 (fun e => .errorf ("varuint16: " ++ e.Error extText)))
      (cut_of_read extText _ _ ReadUvarint16_cut
        (fun e h => .labelled "varuint16: " e (by simp) h))
      (fun x d => (x, d, none)) (fun x => cut_pure extText x) _
      (fun _ => .uint dest.nat) (fun x _ => .uint x) (fun d => by
        simp only [Leaf.Decode, Varuint16.UnmarshalBinary, asDecoding]
        rcases Decoder.ReadUvarint16 d with ⟨d0, x, _ | e⟩ <;> rfl)
  · exact cut_seq extText
      (asDecoding Decoder.ReadUvarint64 (fun e => .errorf ("varuint32: " ++ e.Error extText)))
      (cut_of_read extText _ _ ReadUvarint64_cut
        (fun e h => .labelled "varuint32: " e (by simp) h))
      (fun x d => (x, d, none)) (fun x => cut_pure extText x) _
      (fun _ => .uint dest.nat) (fun x _ => .uint (x % 2 ^ 32)) (fun d => by
        simp only [Leaf.Decode, Varuint32.UnmarshalBinary, asDecoding]
        rcases Decoder.ReadUvarint64 d with ⟨d0, x, _ | e⟩ <;> rfl)
  · exact cut_seq extText (asDecoding Decoder.ReadVarint32 id)
      (cut_of_read extText _ id ReadVarint32_cut (bare_truncation extText))
      (fun x d => (x, d, none)) (fun x => cut_pure extText x) _
      (fun _ => .int dest.toInt) (fun x _ => .int x) (fun d => by
        simp only [Leaf.Decode, Varint32.UnmarshalBinary, asDecoding]
        rcases Decoder.ReadVarint32 d with ⟨d0, x, _ | e⟩ <;> rfl)
  · exact cut_seq extText (asDecoding Decoder.ReadFloat64 id)
      (cut_of_read extText _ id (readUint_cut "float64" 8) (bare_truncation extText))
      (fun x d => (x, d, none)) (fun x => cut_pure extText x) _
      (fun _ => .uint dest.nat) (fun x _ => .uint x) (fun d => by
        simp only [Leaf.Decode, JSONFloat64.UnmarshalBinary, asDecoding]
        rcases Decoder.ReadFloat64 d with ⟨d0, x, _ | e⟩ <;> rfl)
  · exact cut_seq extText (asDecoding Decoder.ReadInt64 id)
      (cut_of_read extText _ id (readInt_cut "int64" 8) (bare_truncation extText))
      (fun x d => (x, d, none)) (fun x => cut_pure extText x) _
      (fun _ => .int dest.toInt) (fun x _ => .int x) (fun d => by
        simp only [Leaf.Decode, Int64.UnmarshalBinary, asDecoding]
        rcases Decoder.ReadInt64 d with ⟨d0, x, _ | e⟩ <;> rfl)
  · exact cut_seq extText (asDecoding Decoder.ReadUint64 id)
      (cut_of_read extText _ id (readUint_cut "uint64" 8) (bare_truncation extText))
      (fun x d => (x, d, none)) (fun x => cut_pure extText x) _
      (fun _ => .uint dest.nat) (fun x _ => .uint x) (fun d => by
        simp only [Leaf.Decode, Uint64.UnmarshalBinary, asDecoding]
        rcases Decoder.ReadUint64 d with ⟨d0, x, _ | e⟩ <;> rfl)
  · exact cut_seq extText (asDecoding (Decoder.ReadUint128 "uint128") id)
      (cut_of_read extText _ id (ReadUint128_cut "uint128") (bare_truncation extText))
      (fun x d => (x, d, none)) (fun x => cut_pure extText x) _
      (fun _ => .wide dest.lo dest.hi) (fun x _ => .wide x.Lo x.Hi) (fun d => by
        simp only [Leaf.Decode, Uint128.UnmarshalBinary, asDecoding]
        rcases Decoder.ReadUint128 "uint128" d with ⟨d0, x, _ | e⟩ <;> rfl)
  · exact cut_seq extText (asDecoding Decoder.ReadInt128 id)
      (cut_of_read extText _ id ReadInt128_cut (bare_truncation extText))
      (fun x d => (x, d, none)) (fun x => cut_pure extText x) _
      (fun _ => .wide dest.lo dest.hi) (fun x _ => .wide x.Lo x.Hi) (fun d => by
        simp only [Leaf.Decode, Int128.UnmarshalBinary, asDecoding]
        rcases Decoder.ReadInt128 d with ⟨d0, x, _ | e⟩ <;> rfl)
  · exact cut_seq extText (asDecoding Decoder.ReadFloat128 id)
      (cut_of_read extText _ id ReadFloat128_cut (bare_truncation extText))
      (fun x d => (x, d, none)) (fun x => cut_pure extText x) _
      (fun _ => .wide dest.lo dest.hi) (fun x _ => .wide x.Lo x.Hi) (fun d => by
        simp only [Leaf.Decode, Float128.UnmarshalBinary, asDecoding]
        rcases Decoder.ReadFloat128 d with ⟨d0, x, _ | e⟩ <;> rfl)

mutual
/-- `Decode` on a buffer cut short, for every shape and destination: what it read before
the cut it reads again, and where it went past the cut it fails with an error of the end of
the buffer. -/
theorem cut_shape (extText : ExtError → Text) : ∀ (sh : Shape) (dest : Value),
    CutSafe extText (Decoder.Decode extText sh dest)
  | .leaf k, dest => by
    have hdec : Decoder.Decode extText (.leaf k) dest = Leaf.Decode extText k dest := by
      funext d
      simp only [Decoder.Decode]
    rw [hdec]
    exact cut_leaf extText k dest
  | .array n elem, dest =>
    cut_seq extText (decodeEach (Decoder.Decode extText elem) (fit n elem.zero dest.items))
      (cut_each extText _ (fun t => cut_shape extText elem t) _)
      (fun x d => (x, d, none)) (fun x => cut_pure extText x) _
      (fun items => .list items) (fun items _ => .list items) (fun d => by
        simp only [Decoder.Decode]
        rcases decodeEach (Decoder.Decode extText elem) (fit n elem.zero dest.items) d
          with ⟨x, d1, _ | e⟩ <;> rfl)
  | .slice elem, dest =>
    cut_seq extText (asDecoding Decoder.ReadUvarint64 id)
      (cut_of_read extText _ id ReadUvarint64_cut (bare_truncation extText))
      (fun l => decodeEach (Decoder.Decode extText elem) (List.replicate l elem.zero))
      (fun l => cut_each extText _ (fun t => cut_shape extText elem t) _) _
      (fun _ => dest) (fun _ items => .list items) (fun d => by
        simp only [Decoder.Decode, asDecoding]
        rcases Decoder.ReadUvarint64 d with ⟨d0, x, _ | e⟩ <;> rfl)
  | .string, dest =>
    cut_seq extText (asDecoding Decoder.ReadString id)
      (cut_of_read extText _ id ReadByteArray_cut (bare_truncation extText))
      (fun x d => (x, d, none)) (fun x => cut_pure extText x) _
      (fun _ => dest) (fun x _ => .bytes x) (fun d => by
        simp only [Decoder.Decode, asDecoding]
        rcases Decoder.ReadString d with ⟨d0, x, _ | e⟩ <;> rfl)
  | .record fields, dest =>
    cut_seq extText (Decoder.decodeFields extText fields dest.items)
      (cut_fields extText fields dest.items)
      (fun x d => (x, d, none)) (fun x => cut_pure extText x) _
      (fun items => .list items) (fun items _ => .list items) (fun d => by
        simp only [Decoder.Decode]
        rcases Decoder.decodeFields extText fields dest.items d with ⟨x, d1, _ | e⟩ <;> rfl)
  | .uint w, dest =>
    cut_seq extText (asDecoding (Decoder.readUint "uint" w) id)
      (cut_of_read extText _ id (readUint_cut "uint" w) (bare_truncation extText))
      (fun x d => (x, d, none)) (fun x => cut_pure extText x) _
      (fun _ => dest) (fun x _ => .uint x) (fun d => by
        simp only [Decoder.Decode, asDecoding]
        rcases Decoder.readUint "uint" w d with ⟨d0, x, _ | e⟩ <;> rfl)
  | .int w, dest =>
    cut_seq extText (asDecoding (Decoder.readInt "int" w) id)
      (cut_of_read extText _ id (readInt_cut "int" w) (bare_truncation extText))
      (fun x d => (x, d, none)) (fun x => cut_pure extText x) _
      (fun _ => dest) (fun x _ => .int x) (fun d => by
        simp only [Decoder.Decode, asDecoding]
        rcases Decoder.readInt "int" w d with ⟨d0, x, _ | e⟩ <;> rfl)
  | .float w, dest =>
    cut_seq extText (asDecoding (Decoder.readUint "float" w) id)
      (cut_of_read extText _ id (readUint_cut "float" w) (bare_truncation extText))
      (fun x d => (x, d, none)) (fun x => cut_pure extText x) _
      (fun _ => dest) (fun x _ => .uint x) (fun d => by
        simp only [Decoder.Decode, asDecoding]
        rcases Decoder.readUint "float" w d with ⟨d0, x, _ | e⟩ <;> rfl)
  | .bool, dest =>
    cut_seq extText (asDecoding Decoder.ReadBool id)
      (cut_of_read extText _ id ReadBool_cut (bare_truncation extText))
      (fun x d => (x, d, none)) (fun x => cut_pure extText x) _
      (fun _ => dest) (fun x _ => .bool x) (fun d => by
        simp only [Decoder.Decode, asDecoding]
        rcases Decoder.ReadBool d with ⟨d0, x, _ | e⟩ <;> rfl)
  | .unsupported name, dest => by
    intro data ext pos v d1 _ h
    simp [Decoder.Decode] at h
/-- The same of the fields of a record. -/
theorem cut_fields (extText : ExtError → Text) : ∀ (fs : List Shape) (dests : List Value),
    CutSafe extText (Decoder.decodeFields extText fs dests)
  | [], dests => by
    have hdec : Decoder.decodeFields extText [] dests = fun d => ([], d, none) := by
      funext d
      simp only [Decoder.decodeFields]
    rw [hdec]
    exact cut_pure extText []
  | f :: fs, dests =>
    cut_seq extText (Decoder.Decode extText f (dests.headD f.zero))
      (cut_shape extText f _) (fun _ => Decoder.decodeFields extText fs dests.tail)
      (fun _ => cut_fields extText fs dests.tail) _
      (fun v1 => v1 :: dests.tail) (fun v1 vs1 => v1 :: vs1) (fun d => by
        simp only [Decoder.decodeFields]
        rcases Decoder.Decode extText f (dests.headD f.zero) d with ⟨x, d1, _ | e⟩ <;> rfl)
end

/-- A decoding that succeeds keeps the buffer and leaves the cursor within it. -/
theorem cut_steady {α : Type} (extText : ExtError → Text) (dec : Decoder → Decoded α)
    (h : CutSafe extText dec) (d d1 : Decoder) (v : α) (hp : d.pos ≤ d.data.length)
    (hd : dec d = (v, d1, none)) : d1.data = d.data ∧ d1.pos ≤ d1.data.length := by
  obtain ⟨dd, dp⟩ := d
  have hd' : dec ⟨dd ++ [], dp⟩ = (v, d1, none) := by
    rw [List.append_nil]
    exact hd
  obtain ⟨c1, _, c3, _, _⟩ := h dd [] dp v d1 hp hd'
  rw [List.append_nil] at c1 c3
  simp only
  rw [c1]
  exact ⟨rfl, c3⟩

/-! ## The offsets a decoding looks at -/

theorem readFixedOffsets_within (w : Nat) (d : Decoder) :
    ∀ i ∈ d.readFixedOffsets w, i < d.data.length := by
  intro i hi
  unfold Decoder.readFixedOffsets at hi
  by_cases hr : d.remaining < w
  · rw [if_pos hr] at hi
    simp at hi
  · rw [if_neg hr] at hi
    rw [List.mem_range'_1] at hi
    unfold Decoder.remaining at hr
    omega

theorem ReadUvarint64Offsets_within (d : Decoder) :
    ∀ i ∈ d.ReadUvarint64Offsets, i < d.data.length := by
  intro i hi
  unfold Decoder.ReadUvarint64Offsets at hi
  cases hu : uvarint (d.data.drop d.pos) with
  | none =>
    rw [hu] at hi
    simp only [List.mem_range'_1] at hi
    unfold Decoder.remaining at hi
    omega
  | some p =>
    obtain ⟨n, k⟩ := p
    rw [hu] at hi
    simp only [List.mem_range'_1] at hi
    have := (uvarint_length _ _ _ hu).2
    rw [List.length_drop] at this
    omega

theorem ReadByteArrayOffsets_within (d : Decoder) :
    ∀ i ∈ d.ReadByteArrayOffsets, i < d.data.length := by
  intro i hi
  unfold Decoder.ReadByteArrayOffsets at hi
  rw [List.mem_append] at hi
  rcases hi with hi | hi
  · exact ReadUvarint64Offsets_within d i hi
  · unfold Decoder.ReadUvarint64 at hi
    cases hu : uvarint (d.data.drop d.pos) with
    | none =>
      rw [hu] at hi
      simp at hi
    | some p =>
      obtain ⟨n, k⟩ := p
      rw [hu] at hi
      simp only at hi
      by_cases hr : (Decoder.mk d.data (d.pos + k)).remaining < n % 2 ^ 64
      · rw [if_pos hr] at hi
        simp at hi
      · rw [if_neg hr] at hi
        rw [List.mem_range'_1] at hi
        rw [remaining_mk] at hr
        omega

theorem Leaf_offsets_within (k : Leaf) (d : Decoder) : ∀ i ∈ k.offsets d, i < d.data.length := by
  cases k <;> simp only [Leaf.offsets] <;>
    first
      | exact readFixedOffsets_within _ d
      | exact ReadUvarint64Offsets_within d
      | exact ReadByteArrayOffsets_within d

theorem offsetsEach_within (extText : ExtError → Text) (dec : Value → Decoder → Decoded Value)
    (off : Value → Decoder → List Nat) (hdec : ∀ dest, CutSafe extText (dec dest))
    (hoff : ∀ dest d, d.pos ≤ d.data.length → ∀ i ∈ off dest d, i < d.data.length) :
    ∀ (dests : List Value) (d : Decoder), d.pos ≤ d.data.length →
      ∀ i ∈ offsetsEach dec off dests d, i < d.data.length := by
  intro dests
  induction dests with
  | nil =>
    intro d _ i hi
    simp [offsetsEach] at hi
  | cons t ts ih =>
    intro d hp i hi
    simp only [offsetsEach, List.mem_append] at hi
    rcases hi with hi | hi
    · exact hoff t d hp i hi
    · rcases hv : dec t d with ⟨x, d1, _ | e⟩
      · rw [hv] at hi
        simp only at hi
        obtain ⟨s1, s2⟩ := cut_steady extText _ (hdec t) d d1 x hp hv
        have := ih d1 s2 i hi
        rwa [s1] at this
      · rw [hv] at hi
        simp at hi

mutual
/-- Every offset `Decode` looks at is an offset of the buffer. -/
theorem offsets_within (extText : ExtError → Text) : ∀ (sh : Shape) (dest : Value)
    (d : Decoder), d.pos ≤ d.data.length →
    ∀ i ∈ Decoder.offsets extText sh dest d, i < d.data.length
  | .leaf k, dest, d, _ => by
    simp only [Decoder.offsets]
    exact Leaf_offsets_within k d
  | .array n elem, dest, d, hp => by
    simp only [Decoder.offsets]
    exact offsetsEach_within extText _ _ (fun t => cut_shape extText elem t)
      (fun t d0 h0 => offsets_within extText elem t d0 h0) _ d hp
  | .slice elem, dest, d, hp => by
    simp only [Decoder.offsets]
    intro i hi
    rw [List.mem_append] at hi
    rcases hi with hi | hi
    · exact ReadUvarint64Offsets_within d i hi
    · rcases hv : Decoder.ReadUvarint64 d with ⟨d1, l, _ | e⟩
      · rw [hv] at hi
        simp only at hi
        have hs : asDecoding Decoder.ReadUvarint64 id d = (l, d1, none) := by
          simp only [asDecoding, hv]
        obtain ⟨s1, s2⟩ := cut_steady extText _
          (cut_of_read extText _ id ReadUvarint64_cut (bare_truncation extText)) d d1 l hp hs
        have := offsetsEach_within extText _ _ (fun t => cut_shape extText elem t)
          (fun t d0 h0 => offsets_within extText elem t d0 h0) _ d1 s2 i hi
        rwa [s1] at this
      · rw [hv] at hi
        simp at hi
  | .string, dest, d, _ => by
    simp only [Decoder.offsets]
    exact ReadByteArrayOffsets_within d
  | .record fields, dest, d, hp => by
    simp only [Decoder.offsets]
    exact offsetsFields_within extText fields dest.items d hp
  | .uint w, dest, d, _ => by
    simp only [Decoder.offsets]
    exact readFixedOffsets_within w d
  | .int w, dest, d, _ => by
    simp only [Decoder.offsets]
    exact readFixedOffsets_within w d
  | .float w, dest, d, _ => by
    simp only [Decoder.offsets]
    exact readFixedOffsets_within w d
  | .bool, dest, d, _ => by
    simp only [Decoder.offsets]
    exact readFixedOffsets_within 1 d
  | .unsupported name, dest, d, _ => by
    simp [Decoder.offsets]
theorem offsetsFields_within (extText : ExtError → Text) : ∀ (fs : List Shape)
    (dests : List Value) (d : Decoder), d.pos ≤ d.data.length →
    ∀ i ∈ Decoder.offsetsFields extText fs dests d, i < d.data.length
  | [], dests, d, _ => by
    simp [Decoder.offsetsFields]
  | f :: fs, dests, d, hp => by
    simp only [Decoder.offsetsFields]
    intro i hi
    rw [List.mem_append] at hi
    rcases hi with hi | hi
    · exact offsets_within extText f _ d hp i hi
    · rcases hv : Decoder.Decode extText f (dests.headD f.zero) d with ⟨x, d1, _ | e⟩
      · rw [hv] at hi
        simp only at hi
        obtain ⟨s1, s2⟩ := cut_steady extText _ (cut_shape extText f _) d d1 x hp hv
        have := offsetsFields_within extText fs dests.tail d1 s2 i hi
        rwa [s1] at this
      · rw [hv] at hi
        simp at hi
end

/-! ## A decoding depends on the buffer only at the offsets it looks at -/

theorem take_drop_agree (data data1 : Bytes) (hl : data.length = data1.length) :
    ∀ (w pos : Nat), w ≤ data.length - pos →
      (∀ i ∈ List.range' pos w, data.getD i 0 = data1.getD i 0) →
      (data.drop pos).take w = (data1.drop pos).take w := by
  intro w
  induction w with
  | zero => intro pos _ _; simp
  | succ w ih =>
    intro pos h hag
    have hp : pos < data.length := by omega
    have hp1 : pos < data1.length := by omega
    rw [List.drop_eq_getElem_cons hp, List.drop_eq_getElem_cons hp1, List.take_succ_cons,
      List.take_succ_cons]
    have h0 := hag pos (by rw [List.mem_range'_1]; omega)
    rw [List.getD_eq_getElem _ _ hp, List.getD_eq_getElem _ _ hp1] at h0
    rw [h0, ih (pos + 1) (by omega) (fun i hi => hag i (by
      rw [List.mem_range'_1] at hi ⊢
      omega))]

/-- How far the varint read goes into the bytes in front of it. -/
theorem uvarint_agree : ∀ (a a1 : Bytes), a.length = a1.length →
    (∀ j, j < (match uvarint a with
        | none => a.length
        | some (_, k) => k) → a.getD j 0 = a1.getD j 0) →
    uvarint a1 = uvarint a := by
  intro a
  induction a with
  | nil =>
    intro a1 hl _
    have : a1 = [] := List.length_eq_zero.mp hl.symm
    subst this
    rfl
  | cons x xs ih =>
    intro a1 hl hag
    cases a1 with
    | nil => simp at hl
    | cons y ys =>
      simp only [List.length_cons, Nat.add_right_cancel_iff] at hl
      have hpos : 0 < (match uvarint (x :: xs) with
          | none => (x :: xs).length
          | some (_, k) => k) := by
        cases hu : uvarint (x :: xs) with
        | none => simp
        | some p =>
          obtain ⟨n, k⟩ := p
          exact (uvarint_length _ _ _ hu).1
      have hxy : x = y := by
        have := hag 0 hpos
        simpa using this
      subst hxy
      by_cases hx : x < 128
      · simp only [uvarint, if_pos hx]
      · have hrec : uvarint ys = uvarint xs := by
          apply ih ys hl
          intro j hj
          have := hag (j + 1) (by
            simp only [uvarint, if_neg hx]
            cases hu : uvarint xs with
            | none =>
              rw [hu] at hj
              simp only at hj
              simp only [List.length_cons]
              exact Nat.succ_lt_succ hj
            | some p =>
              obtain ⟨n, k⟩ := p
              rw [hu] at hj
              simp only at hj
              simp only
              exact Nat.succ_lt_succ hj)
          simpa using this
        simp only [uvarint, if_neg hx, hrec]

theorem getD_drop (data : Bytes) (pos j : Nat) :
    (data.drop pos).getD j 0 = data.getD (pos + j) 0 := by
  simp [List.getD_eq_getElem?_getD, List.getElem?_drop]

theorem readFixed_looks (what : Text) (w : Nat) :
    LooksAt (Decoder.readFixed what w) (Decoder.readFixedOffsets w) := by
  intro data data1 pos hl hag
  have hr : (Decoder.mk data1 pos).remaining = (Decoder.mk data pos).remaining := by
    rw [remaining_mk, remaining_mk, hl]
  unfold Decoder.readFixedOffsets at hag ⊢
  unfold Decoder.readFixed
  rw [hr]
  by_cases hs : (Decoder.mk data pos).remaining < w
  · simp only [if_pos hs]
    exact ⟨by trivial, _, _, _, rfl, rfl⟩
  · simp only [if_neg hs] at hag ⊢
    rw [remaining_mk] at hs
    refine ⟨by trivial, _, _, _, rfl, ?_⟩
    rw [take_drop_agree data data1 hl w pos (by omega) hag]

theorem ReadUvarint64_looks : LooksAt Decoder.ReadUvarint64 Decoder.ReadUvarint64Offsets := by
  intro data data1 pos hl hag
  have hu : uvarint (data1.drop pos) = uvarint (data.drop pos) := by
    apply uvarint_agree (data.drop pos) (data1.drop pos)
      (by rw [List.length_drop, List.length_drop, hl])
    intro j hj
    rw [getD_drop, getD_drop]
    apply hag
    unfold Decoder.ReadUvarint64Offsets
    cases hv : uvarint (data.drop pos) with
    | none =>
      rw [hv] at hj
      simp only [List.length_drop] at hj
      simp only [List.mem_range'_1, remaining_mk]
      omega
    | some p =>
      obtain ⟨n, k⟩ := p
      rw [hv] at hj
      simp only at hj
      simp only [List.mem_range'_1]
      omega
  have hr : (Decoder.mk data1 pos).remaining = (Decoder.mk data pos).remaining := by
    rw [remaining_mk, remaining_mk, hl]
  unfold Decoder.ReadUvarint64Offsets Decoder.ReadUvarint64
  simp only [hu, hr]
  refine ⟨by trivial, ?_⟩
  cases uvarint (data.drop pos) with
  | none => exact ⟨_, _, _, rfl, rfl⟩
  | some p =>
    obtain ⟨n, k⟩ := p
    exact ⟨_, _, _, rfl, rfl⟩

theorem ReadByteArray_looks : LooksAt Decoder.ReadByteArray Decoder.ReadByteArrayOffsets := by
  intro data data1 pos hl hag
  unfold Decoder.ReadByteArrayOffsets at hag ⊢
  obtain ⟨ho, v, p, err, h1, h2⟩ := ReadUvarint64_looks data data1 pos hl
    (fun i hi => hag i (List.mem_append_left _ hi))
  rw [ho]
  unfold Decoder.ReadByteArray
  rw [h1] at hag ⊢
  rw [h2]
  cases err with
  | some e => exact ⟨by trivial, _, _, _, rfl, rfl⟩
  | none =>
    simp only at hag ⊢
    have hr : (Decoder.mk data1 p).remaining = (Decoder.mk data p).remaining := by
      rw [remaining_mk, remaining_mk, hl]
    rw [hr]
    by_cases hs : (Decoder.mk data p).remaining < v
    · simp only [if_pos hs]
      exact ⟨by trivial, _, _, _, rfl, rfl⟩
    · simp only [if_neg hs] at hag ⊢
      rw [remaining_mk] at hs
      refine ⟨by trivial, _, _, _, rfl, ?_⟩
      rw [take_drop_agree data data1 hl v p (by omega)
        (fun i hi => hag i (List.mem_append_right _ hi))]

/-- A read made of another read and a conversion of its result looks at what that read
looks at. -/
theorem looks_map {α β : Type} (read : Read α) (read2 : Read β) (off : Decoder → List Nat)
    (g : α → β) (z : β) (h : LooksAt read off)
    (hdef : ∀ d, read2 d = match read d with
      | (d1, _, some e) => (d1, z, some e)
      | (d1, x, none) => (d1, g x, none)) :
    LooksAt read2 off := by
  intro data data1 pos hl hag
  obtain ⟨ho, v, p, err, h1, h2⟩ := h data data1 pos hl hag
  refine ⟨ho, ?_⟩
  rw [hdef, hdef, h1, h2]
  cases err with
  | some e => exact ⟨_, _, _, rfl, rfl⟩
  | none => exact ⟨_, _, _, rfl, rfl⟩

theorem readUint_looks (what : Text) (w : Nat) :
    LooksAt (Decoder.readUint what w) (Decoder.readFixedOffsets w) :=
  looks_map _ _ _ leVal 0 (readFixed_looks what w) (fun d => by
    unfold Decoder.readUint
    rcases Decoder.readFixed what w d with ⟨d0, x, _ | e⟩ <;> rfl)

theorem readInt_looks (what : Text) (w : Nat) :
    LooksAt (Decoder.readInt what w) (Decoder.readFixedOffsets w) :=
  looks_map _ _ _ (fun bs => toSigned w (leVal bs)) 0 (readFixed_looks what w) (fun d => by
    unfold Decoder.readInt
    rcases Decoder.readFixed what w d with ⟨d0, x, _ | e⟩ <;> rfl)

theorem ReadBool_looks : LooksAt Decoder.ReadBool (Decoder.readFixedOffsets 1) :=
  looks_map _ _ _ (fun bs => decide (leVal bs ≠ 0)) false (readFixed_looks "bool" 1)
    (fun d => by
      unfold Decoder.ReadBool
      rcases Decoder.readFixed "bool" 1 d with ⟨d0, x, _ | e⟩ <;> rfl)

theorem ReadVarint64_looks : LooksAt Decoder.ReadVarint64 Decoder.ReadUvarint64Offsets :=
  looks_map _ _ _ unzigzag 0 ReadUvarint64_looks (fun d => by
    unfold Decoder.ReadVarint64
    rcases Decoder.ReadUvarint64 d with ⟨d0, x, _ | e⟩ <;> rfl)

theorem ReadUvarint16_looks : LooksAt Decoder.ReadUvarint16 Decoder.ReadUvarint64Offsets :=
  looks_map _ _ _ (fun v => v % 2 ^ 16) 0 ReadUvarint64_looks (fun d => by
    unfold Decoder.ReadUvarint16
    rcases Decoder.ReadUvarint64 d with ⟨d0, x, _ | e⟩ <;> rfl)

theorem ReadVarint16_looks : LooksAt Decoder.ReadVarint16 Decoder.ReadUvarint64Offsets :=
  looks_map _ _ _ (fun (v : Int) => toSigned 2 (v % 2 ^ 16).toNat) 0 ReadVarint64_looks
    (fun d => by
      unfold Decoder.ReadVarint16
      rcases Decoder.ReadVarint64 d with ⟨d0, x, _ | e⟩ <;> rfl)

theorem ReadVarint32_looks : LooksAt Decoder.ReadVarint32 Decoder.ReadUvarint64Offsets :=
  looks_map _ _ _ (fun (v : Int) => toSigned 4 (v % 2 ^ 32).toNat) 0 ReadVarint64_looks
    (fun d => by
      unfold Decoder.ReadVarint32
      rcases Decoder.ReadVarint64 d with ⟨d0, x, _ | e⟩ <;> rfl)

theorem ReadUint128_looks (label : Text) :
    LooksAt (Decoder.ReadUint128 label) (Decoder.readFixedOffsets 16) :=
  looks_map _ _ _ (fun bs => { Lo := leVal (bs.take 8), Hi := leVal (bs.drop 8) })
    { Lo := 0, Hi := 0 } (readFixed_looks label 16) (fun d => by
      unfold Decoder.ReadUint128
      rcases Decoder.readFixed label 16 d with ⟨d0, x, _ | e⟩ <;> rfl)

theorem ReadInt128_looks : LooksAt Decoder.ReadInt128 (Decoder.readFixedOffsets 16) := by
  intro data data1 pos hl hag
  obtain ⟨ho, v, p, err, h1, h2⟩ := ReadUint128_looks "int128" data data1 pos hl hag
  refine ⟨ho, ?_⟩
  unfold Decoder.ReadInt128
  rw [h1, h2]
  exact ⟨_, _, _, rfl, rfl⟩

theorem ReadFloat128_looks : LooksAt Decoder.ReadFloat128 (Decoder.readFixedOffsets 16) := by
  intro data data1 pos hl hag
  obtain ⟨ho, v, p, err, h1, h2⟩ := ReadUint128_looks "float128" data data1 pos hl hag
  refine ⟨ho, ?_⟩
  unfold Decoder.ReadFloat128
  rw [h1, h2]
  exact ⟨_, _, _, rfl, rfl⟩

theorem reads_pure {α : Type} (x : α) : ReadsOnly (fun d => (x, d, none)) (fun _ => []) := by
  intro data data1 pos _ _
  exact ⟨rfl, _, _, _, rfl, rfl⟩

theorem reads_of_read {α : Type} (read : Read α) (wrap : GoError → GoError)
    (off : Decoder → List Nat) (h : LooksAt read off) :
    ReadsOnly (asDecoding read wrap) off := by
  intro data data1 pos hl hag
  obtain ⟨ho, v, p, err, h1, h2⟩ := h data data1 pos hl hag
  refine ⟨ho, ?_⟩
  unfold asDecoding
  rw [h1, h2]
  cases err with
  | some e => exact ⟨_, _, _, rfl, rfl⟩
  | none => exact ⟨_, _, _, rfl, rfl⟩

/-- A decoding made of another one and a wrapping of its result looks at what that one
looks at. -/
theorem reads_map {α β : Type} (dec1 : Decoder → Decoded β) (off : Decoder → List Nat)
    (h1 : ReadsOnly dec1 off) (decAll : Decoder → Decoded α) (onFail f : β → α)
    (hdef : ∀ d, decAll d = match dec1 d with
      | (x, d1, some e) => (onFail x, d1, some e)
      | (x, d1, none) => (f x, d1, none)) :
    ReadsOnly decAll off := by
  intro data data1 pos hl hag
  obtain ⟨ho, v, p, err, e1, e2⟩ := h1 data data1 pos hl hag
  refine ⟨ho, ?_⟩
  rw [hdef, hdef, e1, e2]
  cases err with
  | some e => exact ⟨_, _, _, rfl, rfl⟩
  | none => exact ⟨_, _, _, rfl, rfl⟩

/-- Two decodings one after the other look at what the first looks at and then, when it
succeeded, at what the second looks at from where the first stopped. -/
theorem reads_seq {α β γ : Type} (dec1 : Decoder → Decoded β) (off1 : Decoder → List Nat)
    (h1 : ReadsOnly dec1 off1) (dec2 : β → Decoder → Decoded γ)
    (off2 : β → Decoder → List Nat) (h2 : ∀ x, ReadsOnly (dec2 x) (off2 x))
    (decAll : Decoder → Decoded α) (offAll : Decoder → List Nat)
    (onFail : β → α) (f : β → γ → α)
    (hdef : ∀ d, decAll d = match dec1 d with
      | (x, d1, some e) => (onFail x, d1, some e)
      | (x, d1, none) =>
        match dec2 x d1 with
        | (y, d2, err) => (f x y, d2, err))
    (hoff : ∀ d, offAll d = off1 d ++ match dec1 d with
      | (_, _, some _) => []
      | (x, d1, none) => off2 x d1) :
    ReadsOnly decAll offAll := by
  intro data data1 pos hl hag
  rw [hoff] at hag
  obtain ⟨ho, v, p, err, e1, e2⟩ := h1 data data1 pos hl
    (fun i hi => hag i (List.mem_append_left _ hi))
  rw [hoff, hoff, hdef, hdef, e1, e2, ho]
  rw [e1] at hag
  cases err with
  | some e => exact ⟨rfl, _, _, _, rfl, rfl⟩
  | none =>
    simp only at hag ⊢
    obtain ⟨ho2, v2, p2, err2, f1, f2⟩ := h2 v data data1 p hl
      (fun i hi => hag i (List.mem_append_right _ hi))
    rw [ho2, f1, f2]
    exact ⟨rfl, _, _, _, rfl, rfl⟩

theorem reads_each (dec : Value → Decoder → Decoded Value) (off : Value → Decoder → List Nat)
    (h : ∀ dest, ReadsOnly (dec dest) (off dest)) :
    ∀ dests : List Value, ReadsOnly (decodeEach dec dests) (offsetsEach dec off dests) := by
  intro dests
  induction dests with
  | nil => exact reads_pure []
  | cons t ts ih =>
    exact reads_seq (dec t) (off t) (h t) (fun _ => decodeEach dec ts)
      (fun _ => offsetsEach dec off ts) (fun _ => ih) _ _
      (fun v1 => v1 :: ts) (fun v1 vs1 => v1 :: vs1)
      (fun d => by
        rw [decodeEach]
        rcases dec t d with ⟨x, d1, _ | e⟩ <;> rfl)
      (fun d => by
        rw [offsetsEach]
        rcases dec t d with ⟨x, d1, _ | e⟩ <;> rfl)

theorem reads_leaf (extText : ExtError → Text) (k : Leaf) (dest : Value) :
    ReadsOnly (Leaf.Decode extText k dest) k.offsets := by
  cases k
  · exact reads_map (asDecoding Decoder.ReadBool id) _
      (reads_of_read _ id _ ReadBool_looks) _
      (fun _ => .bool dest.toBool) (fun x => .bool x) (fun d => by
        simp only [Leaf.Decode, Bool.UnmarshalBinary, asDecoding]
        rcases Decoder.ReadBool d with ⟨d0, x, _ | e⟩ <;> rfl)
  · exact reads_map
      (asDecoding Decoder.ReadByteArray (fun e => .errorf ("hex bytes: " ++ e.Error extText)))
      _ (reads_of_read _ _ _ ReadByteArray_looks) _
      (fun _ => .bytes dest.toBytes) (fun x => .bytes x) (fun d => by
        simp only [Leaf.Decode, HexBytes.UnmarshalBinary, asDecoding]
        rcases Decoder.ReadByteArray d with ⟨d0, x, _ | e⟩ <;> rfl)
  · exact reads_map
      (asDecoding Decoder.ReadVarint16 (fun e => .errorf ("varint16: " ++ e.Error extText)))
      _ (reads_of_read _ _ _ ReadVarint16_looks) _
      (fun _ => .int dest.toInt) (fun x => .int x) (fun d => by
        simp only [Leaf.Decode, Varint16.UnmarshalBinary, asDecoding]
        rcases Decoder.ReadVarint16 d with ⟨d0, x, _ | e⟩ <;> rfl)
  · exact reads_map
      (asDecoding Decoder.ReadUvarint16 (fun e => .errorf ("varuint16: " ++ e.Error extText)))
      _ (reads_of_read _ _ _ ReadUvarint16_looks) _
      (fun _ => .uint dest.nat) (fun x => .uint x) (fun d => by
        simp only [Leaf.Decode, Varuint16.UnmarshalBinary, asDecoding]
        rcases Decoder.ReadUvarint16 d with ⟨d0, x, _ | e⟩ <;> rfl)
  · exact reads_map
      (asDecoding Decoder.ReadUvarint64 (fun e => .errorf ("varuint32: " ++ e.Error extText)))
      _ (reads_of_read _ _ _ ReadUvarint64_looks) _
      (fun _ => .uint dest.nat) (fun x => .uint (x % 2 ^ 32)) (fun d => by
        simp only [Leaf.Decode, Varuint32.UnmarshalBinary, asDecoding]
        rcases Decoder.ReadUvarint64 d with ⟨d0, x, _ | e⟩ <;> rfl)
  · exact reads_map (asDecoding Decoder.ReadVarint32 id) _
      (reads_of_read _ id _ ReadVarint32_looks) _
      (fun _ => .int dest.toInt) (fun x => .int x) (fun d => by
        simp only [Leaf.Decode, Varint32.UnmarshalBinary, asDecoding]
        rcases Decoder.ReadVarint32 d with ⟨d0, x, _ | e⟩ <;> rfl)
  · exact reads_map (asDecoding Decoder.ReadFloat64 id) _
      (reads_of_read _ id _ (readUint_looks "float64" 8)) _
      (fun _ => .uint dest.nat) (fun x => .uint x) (fun d => by
        simp only [Leaf.Decode, JSONFloat64.UnmarshalBinary, asDecoding]
        rcases Decoder.ReadFloat64 d with ⟨d0, x, _ | e⟩ <;> rfl)
  · exact reads_map (asDecoding Decoder.ReadInt64 id) _
      (reads_of_read _ id _ (readInt_looks "int64" 8)) _
      (fun _ => .int dest.toInt) (fun x => .int x) (fun d => by
        simp only [Leaf.Decode, Int64.UnmarshalBinary, asDecoding]
        rcases Decoder.ReadInt64 d with ⟨d0, x, _ | e⟩ <;> rfl)
  · exact reads_map (asDecoding Decoder.ReadUint64 id) _
      (reads_of_read _ id _ (readUint_looks "uint64" 8)) _
      (fun _ => .uint dest.nat) (fun x => .uint x) (fun d => by
        simp only [Leaf.Decode, Uint64.UnmarshalBinary, asDecoding]
        rcases Decoder.ReadUint64 d with ⟨d0, x, _ | e⟩ <;> rfl)
  · exact reads_map (asDecoding (Decoder.ReadUint128 "uint128") id) _
      (reads_of_read _ id _ (ReadUint128_looks "uint128")) _
      (fun _ => .wide dest.lo dest.hi) (fun x => .wide x.Lo x.Hi) (fun d => by
        simp only [Leaf.Decode, Uint128.UnmarshalBinary, asDecoding]
        rcases Decoder.ReadUint128 "uint128" d with ⟨d0, x, _ | e⟩ <;> rfl)
  · exact reads_map (asDecoding Decoder.ReadInt128 id) _
      (reads_of_read _ id _ ReadInt128_looks) _
      (fun _ => .wide dest.lo dest.hi) (fun x => .wide x.Lo x.Hi) (fun d => by
        simp only [Leaf.Decode, Int128.UnmarshalBinary, asDecoding]
        rcases Decoder.ReadInt128 d with ⟨d0, x, _ | e⟩ <;> rfl)
  · exact reads_map (asDecoding Decoder.ReadFloat128 id) _
      (reads_of_read _ id _ ReadFloat128_looks) _
      (fun _ => .wide dest.lo dest.hi) (fun x => .wide x.Lo x.Hi) (fun d => by
        simp only [Leaf.Decode, Float128.UnmarshalBinary, asDecoding]
        rcases Decoder.ReadFloat128 d with ⟨d0, x, _ | e⟩ <;> rfl)

mutual
/-- `Decode` depends on the buffer only at the offsets it looks at. -/
theorem reads_shape (extText : ExtError → Text) : ∀ (sh : Shape) (dest : Value),
    ReadsOnly (Decoder.Decode extText sh dest) (Decoder.offsets extText sh dest)
  | .leaf k, dest => by
    have hdec : Decoder.Decode extText (.leaf k) dest = Leaf.Decode extText k dest := by
      funext d
      simp only [Decoder.Decode]
    have hoff : Decoder.offsets extText (.leaf k) dest = k.offsets := by
      funext d
      simp only [Decoder.offsets]
    rw [hdec, hoff]
    exact reads_leaf extText k dest
  | .array n elem, dest => by
    have hoff : Decoder.offsets extText (.array n elem) dest
        = offsetsEach (Decoder.Decode extText elem) (Decoder.offsets extText elem)
            (fit n elem.zero dest.items) := by
      funext d
      simp only [Decoder.offsets]
    rw [hoff]
    exact reads_map _ _
      (reads_each _ _ (fun t => reads_shape extText elem t) (fit n elem.zero dest.items)) _
      (fun items => .list items) (fun items => .list items) (fun d => by
        simp only [Decoder.Decode]
        rcases decodeEach (Decoder.Decode extText elem) (fit n elem.zero dest.items) d
          with ⟨x, d1, _ | e⟩ <;> rfl)
  | .slice elem, dest =>
    reads_seq (asDecoding Decoder.ReadUvarint64 id) Decoder.ReadUvarint64Offsets
      (reads_of_read _ id _ ReadUvarint64_looks)
      (fun l => decodeEach (Decoder.Decode extText elem) (List.replicate l elem.zero))
      (fun l => offsetsEach (Decoder.Decode extText elem) (Decoder.offsets extText elem)
        (List.replicate l elem.zero))
      (fun l => reads_each _ _ (fun t => reads_shape extText elem t) _) _ _
      (fun _ => dest) (fun _ items => .list items)
      (fun d => by
        simp only [Decoder.Decode, asDecoding]
        rcases Decoder.ReadUvarint64 d with ⟨d0, x, _ | e⟩ <;> rfl)
      (fun d => by
        simp only [Decoder.offsets, asDecoding]
        rcases Decoder.ReadUvarint64 d with ⟨d0, x, _ | e⟩ <;> rfl)
  | .string, dest => by
    have hoff : Decoder.offsets extText .string dest = Decoder.ReadByteArrayOffsets := by
      funext d
      simp only [Decoder.offsets]
    rw [hoff]
    exact reads_map (asDecoding Decoder.ReadString id) _
      (reads_of_read _ id _ ReadByteArray_looks) _
      (fun _ => dest) (fun x => .bytes x) (fun d => by
        simp only [Decoder.Decode, asDecoding]
        rcases Decoder.ReadString d with ⟨d0, x, _ | e⟩ <;> rfl)
  | .record fields, dest => by
    have hoff : Decoder.offsets extText (.record fields) dest
        = Decoder.offsetsFields extText fields dest.items := by
      funext d
      simp only [Decoder.offsets]
    rw [hoff]
    exact reads_map _ _ (reads_fields extText fields dest.items) _
      (fun items => .list items) (fun items => .list items) (fun d => by
        simp only [Decoder.Decode]
        rcases Decoder.decodeFields extText fields dest.items d with ⟨x, d1, _ | e⟩ <;> rfl)
  | .uint w, dest => by
    have hoff : Decoder.offsets extText (.uint w) dest = Decoder.readFixedOffsets w := by
      funext d
      simp only [Decoder.offsets]
    rw [hoff]
    exact reads_map (asDecoding (Decoder.readUint "uint" w) id) _
      (reads_of_read _ id _ (readUint_looks "uint" w)) _
      (fun _ => dest) (fun x => .uint x) (fun d => by
        simp only [Decoder.Decode, asDecoding]
        rcases Decoder.readUint "uint" w d with ⟨d0, x, _ | e⟩ <;> rfl)
  | .int w, dest => by
    have hoff : Decoder.offsets extText (.int w) dest = Decoder.readFixedOffsets w := by
      funext d
      simp only [Decoder.offsets]
    rw [hoff]
    exact reads_map (asDecoding (Decoder.readInt "int" w) id) _
      (reads_of_read _ id _ (readInt_looks "int" w)) _
      (fun _ => dest) (fun x => .int x) (fun d => by
        simp only [Decoder.Decode, asDecoding]
        rcases Decoder.readInt "int" w d with ⟨d0, x, _ | e⟩ <;> rfl)
  | .float w, dest => by
    have hoff : Decoder.offsets extText (.float w) dest = Decoder.readFixedOffsets w := by
      funext d
      simp only [Decoder.offsets]
    rw [hoff]
    exact reads_map (asDecoding (Decoder.readUint "float" w) id) _
      (reads_of_read _ id _ (readUint_looks "float" w)) _
      (fun _ => dest) (fun x => .uint x) (fun d => by
        simp only [Decoder.Decode, asDecoding]
        rcases Decoder.readUint "float" w d with ⟨d0, x, _ | e⟩ <;> rfl)
  | .bool, dest => by
    have hoff : Decoder.offsets extText .bool dest = Decoder.readFixedOffsets 1 := by
      funext d
      simp only [Decoder.offsets]
    rw [hoff]
    exact reads_map (asDecoding Decoder.ReadBool id) _
      (reads_of_read _ id _ ReadBool_looks) _
      (fun _ => dest) (fun x => .bool x) (fun d => by
        simp only [Decoder.Decode, asDecoding]
        rcases Decoder.ReadBool d with ⟨d0, x, _ | e⟩ <;> rfl)
  | .unsupported name, dest => by
    intro data data1 pos _ _
    simp only [Decoder.offsets, Decoder.Decode, true_and]
    exact ⟨_, _, _, rfl, rfl⟩
/-- The same of the fields of a record. -/
theorem reads_fields (extText : ExtError → Text) : ∀ (fs : List Shape) (dests : List Value),
    ReadsOnly (Decoder.decodeFields extText fs dests) (Decoder.offsetsFields extText fs dests)
  | [], dests => by
    have hdec : Decoder.decodeFields extText [] dests = fun d => ([], d, none) := by
      funext d
      simp only [Decoder.decodeFields]
    have hoff : Decoder.offsetsFields extText [] dests = fun _ => [] := by
      funext d
      simp only [Decoder.offsetsFields]
    rw [hdec, hoff]
    exact reads_pure []
  | f :: fs, dests =>
    reads_seq (Decoder.Decode extText f (dests.headD f.zero))
      (Decoder.offsets extText f (dests.headD f.zero)) (reads_shape extText f _)
      (fun _ => Decoder.decodeFields extText fs dests.tail)
      (fun _ => Decoder.offsetsFields extText fs dests.tail)
      (fun _ => reads_fields extText fs dests.tail) _ _
      (fun v1 => v1 :: dests.tail) (fun v1 vs1 => v1 :: vs1)
      (fun d => by
        simp only [Decoder.decodeFields]
        rcases Decoder.Decode extText f (dests.headD f.zero) d with ⟨x, d1, _ | e⟩ <;> rfl)
      (fun d => by
        simp only [Decoder.offsetsFields]
        rcases Decoder.Decode extText f (dests.headD f.zero) d with ⟨x, d1, _ | e⟩ <;> rfl)
end

/-- C16, as it holds: take any shape, destination and cursor, and a buffer `data` that ends
before the wire value at the cursor is complete: continued by some bytes `ext` the buffer
decodes without error and the value ends past the end of `data`.  Then `Decode` on `data`
fails; the error is one of the end of the buffer (the bounds check of a fixed-size read,
the byte-array shortfall, `ErrVarIntBufferSize`) as it is or under the label of `HexBytes`,
`Varint16`, `Varuint16` or `Varuint32`; it is `ErrVarIntBufferSize` when a sequence or a
string is decoded and the buffer is empty or ends inside the varint; the cursor stays
within the buffer; every offset `Decode` looks at is below `len(data)`; and `Decode`
depends on the buffer at those offsets only: on a buffer of the same length with the same
bytes there it fails in the same way. -/
theorem truncation_safety (extText : ExtError → Text) (sh : Shape) (dest : Value)
    (data ext : Bytes) (pos : Nat) (v : Value) (d1 : Decoder) (hp : pos ≤ data.length)
    (hok : Decoder.Decode extText sh dest ⟨data ++ ext, pos⟩ = (v, d1, none))
    (hcut : data.length < d1.pos) :
    ∃ (v1 : Value) (d2 : Decoder) (err : GoError),
      Decoder.Decode extText sh dest ⟨data, pos⟩ = (v1, d2, some err) ∧
      err.Truncation extText ∧ d2.data = data ∧ d2.pos ≤ data.length ∧
      (uvarint (data.drop pos) = none → ((∃ elem, sh = .slice elem) ∨ sh = .string) →
        err = .std (.sentinel "ErrVarIntBufferSize")) ∧
      (∀ i ∈ Decoder.offsets extText sh dest ⟨data, pos⟩, i < data.length) ∧
      ∀ data1 : Bytes, data.length = data1.length →
        (∀ i ∈ Decoder.offsets extText sh dest ⟨data, pos⟩, data.getD i 0 = data1.getD i 0) →
        Decoder.Decode extText sh dest ⟨data1, pos⟩ = (v1, ⟨data1, d2.pos⟩, some err) := by
  obtain ⟨_, _, _, _, cb⟩ := cut_shape extText sh dest data ext pos v d1 hp hok
  obtain ⟨v1, d2, err, hf, hs, hd, hq⟩ := cb hcut
  refine ⟨v1, d2, err, hf, hs, hd, hq, ?_, offsets_within extText sh dest ⟨data, pos⟩ hp, ?_⟩
  rotate_left
  · intro data1 hl hag
    obtain ⟨_, v0, p, err0, r1, r2⟩ := reads_shape extText sh dest data data1 pos hl hag
    rw [hf] at r1
    simp only [Prod.mk.injEq] at r1
    obtain ⟨g1, g2, g3⟩ := r1
    subst g1 g2 g3
    exact r2
  intro hend hsh
  have hv : Decoder.ReadUvarint64 ⟨data, pos⟩
      = (⟨data, pos⟩, 0, some (.std (.sentinel "ErrVarIntBufferSize"))) :=
    ReadUvarint64_none _ hend
  rcases hsh with ⟨elem, hsl⟩ | hst
  · subst hsl
    simp only [Decoder.Decode, hv, Prod.mk.injEq, Option.some.injEq] at hf
    exact hf.2.2.symm
  · subst hst
    simp only [Decoder.Decode, Decoder.ReadString, Decoder.ReadByteArray, hv, Prod.mk.injEq,
      Option.some.injEq] at hf
    exact hf.2.2.symm

/-- The buffer `81 00` ends before the string that `81 00 61` holds is complete, the
length 1 being written in two bytes: decoding a string from it fails with the byte-array
shortfall.  The two buffers of `TestDecoder_Slice_Err`, the empty one and the single byte
`01`, decoded as a `[]string`, fail with `ErrVarIntBufferSize`, the second after the offset
0 alone was looked at. -/
theorem truncation_safety_witness :
    ((0 : Nat) ≤ [0x81, 0x00].length ∧
      Decoder.Decode (fun _ => "") .string (.bytes []) ⟨[0x81, 0x00] ++ [0x61], 0⟩
        = (.bytes [0x61], ⟨[0x81, 0x00] ++ [0x61], 3⟩, none) ∧
      [0x81, 0x00].length < (Decoder.mk ([0x81, 0x00] ++ [0x61]) 3).pos) ∧
    (∃ (v1 : Value) (d2 : Decoder) (err : GoError),
      Decoder.Decode (fun _ => "") .string (.bytes []) ⟨[0x81, 0x00], 0⟩ = (v1, d2, some err) ∧
      err.Truncation (fun _ => "") ∧ d2.data = [0x81, 0x00] ∧ d2.pos ≤ [0x81, 0x00].length ∧
      (uvarint (List.drop 0 [0x81, 0x00]) = none → ((∃ elem, Shape.string = .slice elem) ∨
          Shape.string = .string) →
        err = .std (.sentinel "ErrVarIntBufferSize")) ∧
      (∀ i ∈ Decoder.offsets (fun _ => "") .string (.bytes []) ⟨[0x81, 0x00], 0⟩,
        i < [0x81, 0x00].length) ∧
      ∀ data1 : Bytes, [0x81, 0x00].length = data1.length →
        (∀ i ∈ Decoder.offsets (fun _ => "") .string (.bytes []) ⟨[0x81, 0x00], 0⟩,
          [0x81, 0x00].getD i 0 = data1.getD i 0) →
        Decoder.Decode (fun _ => "") .string (.bytes []) ⟨data1, 0⟩
          = (v1, ⟨data1, d2.pos⟩, some err)) ∧
    Decoder.Decode (fun _ => "") .string (.bytes []) ⟨[0x81, 0x00], 0⟩
      = (.bytes [], ⟨[0x81, 0x00], 2⟩,
          some (.errorf "byte array: varlen=1, missing 1 bytes")) ∧
    Decoder.Decode (fun _ => "") (.slice .string) (.list []) (NewDecoder [])
      = (.list [], NewDecoder [], some (.std (.sentinel "ErrVarIntBufferSize"))) ∧
    Decoder.Decode (fun _ => "") (.slice .string) (.list []) (NewDecoder [1])
      = (.list [.bytes []], ⟨[1], 1⟩, some (.std (.sentinel "ErrVarIntBufferSize"))) ∧
    Decoder.offsets (fun _ => "") (.slice .string) (.list []) (NewDecoder [1]) = [0] ∧
    Decoder.offsets (fun _ => "") .string (.bytes []) ⟨[0x81, 0x00], 0⟩ = [0, 1] :=
  ⟨⟨by decide, by rfl, by decide⟩,
    truncation_safety (fun _ => "") .string (.bytes []) [0x81, 0x00] [0x61] 0 (.bytes [0x61])
      ⟨[0x81, 0x00] ++ [0x61], 3⟩ (by decide) (by rfl) (by decide),
    by rfl, by rfl, by rfl, by rfl, by rfl⟩

/-- C16 does not hold as stated: decoding a `Varuint32` from an empty buffer, which ends
before the wire form `05` of the value 5, fails with a new error that carries the label
`varuint32: `; it is neither a buffer-too-small error nor `ErrVarIntBufferSize`. -/
theorem truncation_bare_counterexample :
    (Shape.Holds (.leaf .varuint32) (.uint 5) ∧
      Encode (.leaf .varuint32) (.uint 5) = ([5], none) ∧
      Decoder.Decode (fun _ => "") (.leaf .varuint32) (.uint 0) (NewDecoder [])
        = (.uint 0, NewDecoder [], some (.errorf "varuint32: ")) ∧
      GoError.errorf "varuint32: " ≠ .std (.sentinel "ErrVarIntBufferSize")) ∧
    ¬ ∀ (extText : ExtError → Text) (sh : Shape) (v : Value), Shape.Holds sh v →
      ∀ j, j < (Encode sh v).1.length →
        ∃ (v1 : Value) (d1 : Decoder) (err : GoError),
          Decoder.Decode extText sh sh.zero (NewDecoder ((Encode sh v).1.take j))
            = (v1, d1, some err) ∧ err.Short := by
  have hh : Shape.Holds (.leaf .varuint32) (.uint 5) := by
    simp [Shape.Holds, Leaf.Holds]
  refine ⟨⟨hh, by rfl, by rfl, by simp⟩, ?_⟩
  intro hall
  obtain ⟨v1, d1, err, hd, hs⟩ := hall (fun _ => "") (.leaf .varuint32) (.uint 5) hh 0
    (by decide)
  have hr : Decoder.Decode (fun _ => "") (.leaf .varuint32) (Shape.zero (.leaf .varuint32))
      (NewDecoder ((Encode (.leaf .varuint32) (.uint 5)).1.take 0))
      = (.uint 0, NewDecoder [], some (.errorf ("varuint32: " ++ ""))) := by rfl
  rw [hr] at hd
  simp only [Prod.mk.injEq, Option.some.injEq] at hd
  rw [← hd.2.2] at hs
  exact labelled_not_short "varuint32: " "" (Or.inl rfl) hs

/-! ## A type with no wire rule -/

theorem tail_drop (vs : List Value) (n : Nat) : vs.tail.drop n = vs.drop (n + 1) := by
  cases vs <;> simp

/-- Decoding the fields of a record whose first fields decode: the fields after them are
decoded from where those stopped, into what the destination holds at their places. -/
theorem decodeFields_append (extText : ExtError → Text) (rest : List Shape) :
    ∀ (pre : List Shape) (vs vs1 : List Value) (d d1 : Decoder),
      Decoder.decodeFields extText pre vs d = (vs1, d1, none) →
      vs1.length = pre.length ∧
      Decoder.decodeFields extText (pre ++ rest) vs d
        = ((vs1 ++ (Decoder.decodeFields extText rest (vs.drop pre.length) d1).1),
            (Decoder.decodeFields extText rest (vs.drop pre.length) d1).2.1,
            (Decoder.decodeFields extText rest (vs.drop pre.length) d1).2.2) := by
  intro pre
  induction pre with
  | nil =>
    intro vs vs1 d d1 h
    simp only [Decoder.decodeFields, Prod.mk.injEq, and_true] at h
    obtain ⟨h1, h2⟩ := h
    subst h1 h2
    simp
  | cons f fs ih =>
    intro vs vs1 d d1 h
    simp only [Decoder.decodeFields] at h
    simp only [List.cons_append, Decoder.decodeFields]
    rcases hf : Decoder.Decode extText f (vs.headD f.zero) d with ⟨v1, d2, _ | e⟩
    · rw [hf] at h
      simp only at h
      rcases hr : Decoder.decodeFields extText fs vs.tail d2 with ⟨vs2, d3, err⟩
      rw [hr] at h
      simp only [Prod.mk.injEq] at h
      obtain ⟨h1, h2, h3⟩ := h
      subst h1 h2 h3
      obtain ⟨hl, happ⟩ := ih vs.tail vs2 d2 d3 hr
      simp only [List.append_eq, happ, tail_drop, List.length_cons, hl, List.cons_append,
        and_self]
    · rw [hf] at h
      simp at h

/-- Decoding the fields of a record never succeeds when one of them has no wire rule. -/
theorem decodeFields_unsupported (extText : ExtError → Text) (name : Text) (post : List Shape) :
    ∀ (pre : List Shape) (vs : List Value) (d : Decoder),
      (Decoder.decodeFields extText (pre ++ .unsupported name :: post) vs d).2.2 ≠ none := by
  intro pre
  induction pre with
  | nil =>
    intro vs d
    simp [Decoder.decodeFields, Decoder.Decode]
  | cons f fs ih =>
    intro vs d
    simp only [List.cons_append, Decoder.decodeFields]
    rcases hf : Decoder.Decode extText f (vs.headD f.zero) d with ⟨v1, d2, _ | e⟩
    · simp only
      exact ih vs.tail d2
    · simp

/-- Decoding the fields of a record one of whose first fields fails: the fields after them
play no part. -/
theorem decodeFields_append_error (extText : ExtError → Text) (rest : List Shape) :
    ∀ (pre : List Shape) (vs vs1 : List Value) (d d1 : Decoder) (e : GoError),
      Decoder.decodeFields extText pre vs d = (vs1, d1, some e) →
      Decoder.decodeFields extText (pre ++ rest) vs d = (vs1, d1, some e) := by
  intro pre
  induction pre with
  | nil =>
    intro vs vs1 d d1 e h
    simp [Decoder.decodeFields] at h
  | cons f fs ih =>
    intro vs vs1 d d1 e h
    simp only [Decoder.decodeFields] at h
    simp only [List.cons_append, Decoder.decodeFields]
    rcases hf : Decoder.Decode extText f (vs.headD f.zero) d with ⟨v1, d2, _ | e2⟩
    · rw [hf] at h
      simp only at h
      rcases hr : Decoder.decodeFields extText fs vs.tail d2 with ⟨vs2, d3, err⟩
      rw [hr] at h
      simp only [Prod.mk.injEq] at h
      obtain ⟨h1, h2, h3⟩ := h
      subst h1 h2 h3
      simp only [List.append_eq, ih vs.tail vs2 d2 d3 e hr]
    · rw [hf] at h
      simp only [hf]
      exact h

/-- C17, as it holds: `Decode` into a record fails with `decode: unsupported type <name>`
when it reaches a field of a type with no wire rule, that is, once the fields declared
before it have decoded; they keep the values decoded into them, the field and those after
it keep what they held, and the cursor stays where those fields ended.  When one of the
fields declared before it fails, the call fails there, with the error of that field, the
decoder and the destination being what that failure left.  When the field is the first one,
and for an array with at least one element of such a type, the call fails with the message
of the unsupported type whatever the buffer holds.  In no case does the call succeed. -/
theorem unsupported_type_reached (extText : ExtError → Text) (name : Text)
    (pre post : List Shape) (dest : Value) (d : Decoder) :
    (∀ vs1 d1, Decoder.Decode extText (.record pre) dest d = (.list vs1, d1, none) →
      vs1.length = pre.length ∧
      Decoder.Decode extText (.record (pre ++ .unsupported name :: post)) dest d
        = (.list (vs1 ++ (dest.items.drop pre.length).headD .other
            :: (dest.items.drop pre.length).tail), d1,
          some (.errorf ("decode: unsupported type " ++ name)))) ∧
    (∀ v1 d1 e, Decoder.Decode extText (.record pre) dest d = (v1, d1, some e) →
      Decoder.Decode extText (.record (pre ++ .unsupported name :: post)) dest d
        = (v1, d1, some e)) ∧
    Decoder.Decode extText (.record (.unsupported name :: post)) dest d
      = (.list (dest.items.headD .other :: dest.items.tail), d,
          some (.errorf ("decode: unsupported type " ++ name))) ∧
    (∀ n, Decoder.Decode extText (.array (n + 1) (.unsupported name)) dest d
      = (.list (fit (n + 1) .other dest.items), d,
          some (.errorf ("decode: unsupported type " ++ name)))) ∧
    (Decoder.Decode extText (.record (pre ++ .unsupported name :: post)) dest d).2.2 ≠ none := by
  refine ⟨?_, ?_, ?_, ?_, ?_⟩
  · intro vs1 d1 h
    simp only [Decoder.Decode] at h
    rcases hr : Decoder.decodeFields extText pre dest.items d with ⟨vs2, d2, err⟩
    rw [hr] at h
    simp only [Prod.mk.injEq, Value.list.injEq] at h
    obtain ⟨h1, h2, h3⟩ := h
    subst h1 h2 h3
    obtain ⟨hl, happ⟩ := decodeFields_append extText (.unsupported name :: post) pre
      dest.items vs2 d d2 hr
    refine ⟨hl, ?_⟩
    simp only [Decoder.Decode, happ, Decoder.decodeFields, Shape.zero]
  · intro v1 d1 e h
    simp only [Decoder.Decode] at h
    rcases hr : Decoder.decodeFields extText pre dest.items d with ⟨vs2, d2, err⟩
    rw [hr] at h
    simp only [Prod.mk.injEq] at h
    obtain ⟨h1, h2, h3⟩ := h
    subst h1 h2 h3
    simp only [Decoder.Decode,
      decodeFields_append_error extText (.unsupported name :: post) pre dest.items vs2 d d2 e hr]
  · simp only [Decoder.Decode, Decoder.decodeFields, Shape.zero]
  · intro n
    simp only [Decoder.Decode, Shape.zero]
    have : ∃ x xs, fit (n + 1) Value.other dest.items = x :: xs := by
      have hl := fit_length (n + 1) Value.other dest.items
      cases hfit : fit (n + 1) Value.other dest.items with
      | nil => rw [hfit] at hl; simp at hl
      | cons x xs => exact ⟨x, xs, rfl⟩
    obtain ⟨x, xs, hx⟩ := this
    rw [hx]
    simp only [decodeEach, Decoder.Decode]
  · simp only [Decoder.Decode]
    exact decodeFields_unsupported extText name post pre dest.items d

/-- The destinations of `TestDecoder_BinaryStruct_Err` and `TestDecoder_Array_Err`, and a
record with a string field in front of the `time.Duration`: decoded from `03 61 62 63`, the
string field holds `abc` when the call fails with the message of the unsupported type;
decoded from the single byte `03`, the call fails with the shortfall of the string field. -/
theorem unsupported_type_reached_witness :
    (Decoder.Decode (fun _ => "") (.record [.string]) (.list [.bytes [], .other])
        (NewDecoder [3, 0x61, 0x62, 0x63])
      = (.list [.bytes (lit "abc")], ⟨[3, 0x61, 0x62, 0x63], 4⟩, none)) ∧
    ([Value.bytes (lit "abc")].length = [Shape.string].length ∧
      Decoder.Decode (fun _ => "") (.record ([.string] ++ .unsupported "time.Duration" :: []))
          (.list [.bytes [], .other]) (NewDecoder [3, 0x61, 0x62, 0x63])
        = (.list ([.bytes (lit "abc")]
            ++ ((Value.list [.bytes [], .other]).items.drop [Shape.string].length).headD .other
            :: ((Value.list [.bytes [], .other]).items.drop [Shape.string].length).tail),
          ⟨[3, 0x61, 0x62, 0x63], 4⟩,
          some (.errorf ("decode: unsupported type " ++ "time.Duration")))) ∧
    (Decoder.Decode (fun _ => "") (.record [.string]) (.list [.bytes [], .other])
        (NewDecoder [3])
      = (.list [.bytes [], .other], ⟨[3], 1⟩,
          some (.errorf "byte array: varlen=3, missing 3 bytes"))) ∧
    (Decoder.Decode (fun _ => "") (.record ([.string] ++ .unsupported "time.Duration" :: []))
        (.list [.bytes [], .other]) (NewDecoder [3])
      = (.list [.bytes [], .other], ⟨[3], 1⟩,
          some (.errorf "byte array: varlen=3, missing 3 bytes"))) ∧
    Decoder.Decode (fun _ => "") (.record [.unsupported "time.Duration"]) (.list [.other])
        (NewDecoder [])
      = (.list [.other], NewDecoder [], some (.errorf "decode: unsupported type time.Duration")) ∧
    Decoder.Decode (fun _ => "") (.array 1 (.unsupported "time.Duration")) (.list [.other])
        (NewDecoder [1])
      = (.list [.other], NewDecoder [1],
          some (.errorf "decode: unsupported type time.Duration")) :=
  ⟨by rfl,
    (unsupported_type_reached (fun _ => "") "time.Duration" [.string] []
      (.list [.bytes [], .other]) (NewDecoder [3, 0x61, 0x62, 0x63])).1
      [.bytes (lit "abc")] ⟨[3, 0x61, 0x62, 0x63], 4⟩ (by rfl),
    by rfl,
    (unsupported_type_reached (fun _ => "") "time.Duration" [.string] []
      (.list [.bytes [], .other]) (NewDecoder [3])).2.1
      (.list [.bytes [], .other]) ⟨[3], 1⟩ (.errorf "byte array: varlen=3, missing 3 bytes")
      (by rfl),
    by rfl, by rfl⟩

/-- C17 does not hold as stated: a record with a string field declared before the
`time.Duration` field, decoded from an empty buffer, fails at the string field with
`ErrVarIntBufferSize`, not with the message of the unsupported type; and an array of no
elements of such a type decodes without error. -/
theorem unsupported_any_buffer_counterexample :
    Decoder.Decode (fun _ => "") (.record [.string, .unsupported "time.Duration"])
        (.list [.bytes [], .other]) (NewDecoder [])
      = (.list [.bytes [], .other], NewDecoder [],
          some (.std (.sentinel "ErrVarIntBufferSize"))) ∧
    GoError.std (.sentinel "ErrVarIntBufferSize")
      ≠ .errorf "decode: unsupported type time.Duration" ∧
    Decoder.Decode (fun _ => "") (.array 0 (.unsupported "time.Duration")) (.list [])
        (NewDecoder [])
      = (.list [], NewDecoder [], none) :=
  ⟨by rfl, by simp, by rfl⟩

/-! ## `UnmarshalBinary` and its destination -/

/-- C21: each `UnmarshalBinary` of `types.go` calls one read of the decoder.  When the read
returns an error, the method returns an error (the read's own, or for `HexBytes`,
`Varint16`, `Varuint16` and `Varuint32` a new one with the label of the type) and the
destination holds what it held before the call; when the read succeeds, the destination
holds the value read, converted to the type (`Varuint32` keeps the low 32 bits), and the
method returns nil.  The decoder is left as the read left it. -/
theorem UnmarshalBinary_atomic (extText : ExtError → Text) (d d1 : Decoder) :
    (∀ (read : Read Bytes) (ss s : Bytes),
      (∀ e, read d = (d1, s, some e) →
        SafeString.UnmarshalBinary read ss d = (ss, d1, some e)) ∧
      (read d = (d1, s, none) → SafeString.UnmarshalBinary read ss d = (s, d1, none))) ∧
    (∀ (read : Read Bool) (b value : Bool),
      (∀ e, read d = (d1, value, some e) →
        Bool.UnmarshalBinary read b d = (b, d1, some e)) ∧
      (read d = (d1, value, none) → Bool.UnmarshalBinary read b d = (value, d1, none))) ∧
    (∀ (read : Read Bytes) (o value : Bytes),
      (∀ e, read d = (d1, value, some e) →
        HexBytes.UnmarshalBinary extText read o d
          = (o, d1, some (.errorf ("hex bytes: " ++ e.Error extText)))) ∧
      (read d = (d1, value, none) →
        HexBytes.UnmarshalBinary extText read o d = (value, d1, none))) ∧
    (∀ (read : Read Int) (o value : Int),
      (∀ e, read d = (d1, value, some e) →
        Varint16.UnmarshalBinary extText read o d
          = (o, d1, some (.errorf ("varint16: " ++ e.Error extText)))) ∧
      (read d = (d1, value, none) →
        Varint16.UnmarshalBinary extText read o d = (value, d1, none))) ∧
    (∀ (read : Read Nat) (o value : Nat),
      (∀ e, read d = (d1, value, some e) →
        Varuint16.UnmarshalBinary extText read o d
          = (o, d1, some (.errorf ("varuint16: " ++ e.Error extText)))) ∧
      (read d = (d1, value, none) →
        Varuint16.UnmarshalBinary extText read o d = (value, d1, none))) ∧
    (∀ (read : Read Nat) (o value : Nat),
      (∀ e, read d = (d1, value, some e) →
        Varuint32.UnmarshalBinary extText read o d
          = (o, d1, some (.errorf ("varuint32: " ++ e.Error extText)))) ∧
      (read d = (d1, value, none) →
        Varuint32.UnmarshalBinary extText read o d = (value % 2 ^ 32, d1, none))) ∧
    (∀ (read : Read Int) (o value : Int),
      (∀ e, read d = (d1, value, some e) →
        Varint32.UnmarshalBinary read o d = (o, d1, some e)) ∧
      (read d = (d1, value, none) → Varint32.UnmarshalBinary read o d = (value, d1, none))) ∧
    (∀ (read : Read Nat) (f value : Nat),
      (∀ e, read d = (d1, value, some e) →
        JSONFloat64.UnmarshalBinary read f d = (f, d1, some e)) ∧
      (read d = (d1, value, none) →
        JSONFloat64.UnmarshalBinary read f d = (value, d1, none))) ∧
    (∀ (read : Read Int) (i value : Int),
      (∀ e, read d = (d1, value, some e) →
        Int64.UnmarshalBinary read i d = (i, d1, some e)) ∧
      (read d = (d1, value, none) → Int64.UnmarshalBinary read i d = (value, d1, none))) ∧
    (∀ (read : Read Nat) (i value : Nat),
      (∀ e, read d = (d1, value, some e) →
        Uint64.UnmarshalBinary read i d = (i, d1, some e)) ∧
      (read d = (d1, value, none) → Uint64.UnmarshalBinary read i d = (value, d1, none))) ∧
    (∀ (read : Text → Read Uint128) (i value : Uint128),
      (∀ e, read "uint128" d = (d1, value, some e) →
        Uint128.UnmarshalBinary read i d = (i, d1, some e)) ∧
      (read "uint128" d = (d1, value, none) →
        Uint128.UnmarshalBinary read i d = (value, d1, none))) ∧
    (∀ (read : Read Int128) (i value : Int128),
      (∀ e, read d = (d1, value, some e) →
        Int128.UnmarshalBinary read i d = (i, d1, some e)) ∧
      (read d = (d1, value, none) → Int128.UnmarshalBinary read i d = (value, d1, none))) ∧
    (∀ (read : Read Float128) (i value : Float128),
      (∀ e, read d = (d1, value, some e) →
        Float128.UnmarshalBinary read i d = (i, d1, some e)) ∧
      (read d = (d1, value, none) →
        Float128.UnmarshalBinary read i d = ({ Lo := value.Lo, Hi := value.Hi }, d1, none))) := by
  refine ⟨?_, ?_, ?_, ?_, ?_, ?_, ?_, ?_, ?_, ?_, ?_, ?_, ?_⟩
  · intro read ss s
    exact ⟨fun e h => by simp only [SafeString.UnmarshalBinary, h],
      fun h => by simp only [SafeString.UnmarshalBinary, h]⟩
  · intro read b value
    exact ⟨fun e h => by simp only [Bool.UnmarshalBinary, h],
      fun h => by simp only [Bool.UnmarshalBinary, h]⟩
  · intro read o value
    exact ⟨fun e h => by simp only [HexBytes.UnmarshalBinary, h],
      fun h => by simp only [HexBytes.UnmarshalBinary, h]⟩
  · intro read o value
    exact ⟨fun e h => by simp only [Varint16.UnmarshalBinary, h],
      fun h => by simp only [Varint16.UnmarshalBinary, h]⟩
  · intro read o value
    exact ⟨fun e h => by simp only [Varuint16.UnmarshalBinary, h],
      fun h => by simp only [Varuint16.UnmarshalBinary, h]⟩
  · intro read o value
    exact ⟨fun e h => by simp only [Varuint32.UnmarshalBinary, h],
      fun h => by simp only [Varuint32.UnmarshalBinary, h]⟩
  · intro read o value
    exact ⟨fun e h => by simp only [Varint32.UnmarshalBinary, h],
      fun h => by simp only [Varint32.UnmarshalBinary, h]⟩
  · intro read f value
    exact ⟨fun e h => by simp only [JSONFloat64.UnmarshalBinary, h],
      fun h => by simp only [JSONFloat64.UnmarshalBinary, h]⟩
  · intro read i value
    exact ⟨fun e h => by simp only [Int64.UnmarshalBinary, h],
      fun h => by simp only [Int64.UnmarshalBinary, h]⟩
  · intro read i value
    exact ⟨fun e h => by simp only [Uint64.UnmarshalBinary, h],
      fun h => by simp only [Uint64.UnmarshalBinary, h]⟩
  · intro read i value
    exact ⟨fun e h => by simp only [Uint128.UnmarshalBinary, h],
      fun h => by simp only [Uint128.UnmarshalBinary, h]⟩
  · intro read i value
    exact ⟨fun e h => by simp only [Int128.UnmarshalBinary, h],
      fun h => by simp only [Int128.UnmarshalBinary, h]⟩
  · intro read i value
    exact ⟨fun e h => by simp only [Float128.UnmarshalBinary, h],
      fun h => by simp only [Float128.UnmarshalBinary, h]⟩

/-- A `Varuint32` holding 7 decoded from an empty buffer keeps the 7 and the call fails;
decoded from `e7 07` it holds 999.  A `Float128` holding `(1, 2)` decoded from three
bytes keeps its words; decoded from sixteen bytes it holds the words read. -/
theorem UnmarshalBinary_atomic_witness :
    (Decoder.ReadUvarint64 (NewDecoder [])
        = (NewDecoder [], 0, some (.std (.sentinel "ErrVarIntBufferSize"))) ∧
      Varuint32.UnmarshalBinary (fun _ => "") Decoder.ReadUvarint64 7 (NewDecoder [])
        = (7, NewDecoder [], some (.errorf ("varuint32: "
            ++ (GoError.std (.sentinel "ErrVarIntBufferSize")).Error (fun _ => ""))))) ∧
    (Decoder.ReadUvarint64 (NewDecoder [0xe7, 0x07]) = (⟨[0xe7, 0x07], 2⟩, 999, none) ∧
      Varuint32.UnmarshalBinary (fun _ => "") Decoder.ReadUvarint64 7 (NewDecoder [0xe7, 0x07])
        = (999 % 2 ^ 32, ⟨[0xe7, 0x07], 2⟩, none)) ∧
    (Decoder.ReadFloat128 (NewDecoder [1, 2, 3])
        = (NewDecoder [1, 2, 3], ⟨0, 0⟩, some (.std (.bufferTooSmall "float128" 16 3))) ∧
      Float128.UnmarshalBinary Decoder.ReadFloat128 ⟨1, 2⟩ (NewDecoder [1, 2, 3])
        = (⟨1, 2⟩, NewDecoder [1, 2, 3], some (.std (.bufferTooSmall "float128" 16 3)))) ∧
    (Decoder.ReadFloat128 (NewDecoder [10, 0, 0, 0, 0, 0, 0, 0, 82, 0, 0, 0, 0, 0, 0, 0])
        = (⟨[10, 0, 0, 0, 0, 0, 0, 0, 82, 0, 0, 0, 0, 0, 0, 0], 16⟩, ⟨10, 82⟩, none) ∧
      Float128.UnmarshalBinary Decoder.ReadFloat128 ⟨1, 2⟩
          (NewDecoder [10, 0, 0, 0, 0, 0, 0, 0, 82, 0, 0, 0, 0, 0, 0, 0])
        = (⟨10, 82⟩, ⟨[10, 0, 0, 0, 0, 0, 0, 0, 82, 0, 0, 0, 0, 0, 0, 0], 16⟩, none)) :=
  ⟨⟨by decide,
      ((UnmarshalBinary_atomic (fun _ => "") (NewDecoder []) (NewDecoder [])).2.2.2.2.2.1
        Decoder.ReadUvarint64 7 0).1 _ (by decide)⟩,
    ⟨by decide,
      ((UnmarshalBinary_atomic (fun _ => "") (NewDecoder [0xe7, 0x07])
        ⟨[0xe7, 0x07], 2⟩).2.2.2.2.2.1 Decoder.ReadUvarint64 7 999).2 (by decide)⟩,
    ⟨by decide,
      ((UnmarshalBinary_atomic (fun _ => "") (NewDecoder [1, 2, 3])
        (NewDecoder [1, 2, 3])).2.2.2.2.2.2.2.2.2.2.2.2 Decoder.ReadFloat128 ⟨1, 2⟩ ⟨0, 0⟩).1 _
        (by decide)⟩,
    ⟨by decide,
      ((UnmarshalBinary_atomic (fun _ => "")
        (NewDecoder [10, 0, 0, 0, 0, 0, 0, 0, 82, 0, 0, 0, 0, 0, 0, 0])
        ⟨[10, 0, 0, 0, 0, 0, 0, 0, 82, 0, 0, 0, 0, 0, 0, 0], 16⟩).2.2.2.2.2.2.2.2.2.2.2.2
        Decoder.ReadFloat128 ⟨1, 2⟩ ⟨10, 82⟩).2 (by decide)⟩⟩

end Bin
